import Mathlib

/-!
# Falcon register compiler (`src/falcon/rcompile.cc`, `rcompile.h`)

A shallow embedding of the stack-to-register bytecode compiler and of its
optimisation passes, followed by theorems about them.

Modelling conventions.

* A `BasicBlock*` is an index into `CompilerState.heap`, the list of every block
  that was ever allocated with `new BasicBlock`; `CompilerState.bbs` is the
  `std::vector<BasicBlock*>` of the source.  A `NULL` pointer is `none`.
* `int` values are unbounded integers (no recompilation comes near `2^31` blocks
  or registers); `size_t` arithmetic that can wrap is taken modulo `2^64`.
* A failed `assert`, an out-of-bounds array access and a null dereference are
  `Fault`s; a run that faults has no result.
* Recursion and loops whose termination is not structural carry a fuel
  argument; `none` means that the fuel ran out.
-/

namespace Falcon

/-! ## Constants -/

/-- Constants of `reval.h` (declared there, used by `rcompile.cc`): the capacity of
the symbolic register stack and of the loop-frame stack, and the two opcodes that
exist only in the register machine. -/
structure Config where
  REG_MAX_STACK : Int
  REG_MAX_FRAMES : Int
  DECREF : Nat
  CONST_INDEX : Nat
deriving Repr, DecidableEq

/-! Opcode numbers of CPython 2.7 (`Include/opcode.h`). -/

def POP_TOP : Nat := 1
def ROT_TWO : Nat := 2
def ROT_THREE : Nat := 3
def DUP_TOP : Nat := 4
def NOP : Nat := 9
def UNARY_POSITIVE : Nat := 10
def UNARY_NEGATIVE : Nat := 11
def UNARY_NOT : Nat := 12
def UNARY_CONVERT : Nat := 13
def UNARY_INVERT : Nat := 15
def BINARY_POWER : Nat := 19
def BINARY_MULTIPLY : Nat := 20
def BINARY_DIVIDE : Nat := 21
def BINARY_MODULO : Nat := 22
def BINARY_ADD : Nat := 23
def BINARY_SUBTRACT : Nat := 24
def BINARY_SUBSCR : Nat := 25
def BINARY_FLOOR_DIVIDE : Nat := 26
def BINARY_TRUE_DIVIDE : Nat := 27
def INPLACE_FLOOR_DIVIDE : Nat := 28
def INPLACE_TRUE_DIVIDE : Nat := 29
def SLICE : Nat := 30
def STORE_SLICE : Nat := 40
def DELETE_SLICE : Nat := 50
def STORE_MAP : Nat := 54
def INPLACE_ADD : Nat := 55
def INPLACE_SUBTRACT : Nat := 56
def INPLACE_MULTIPLY : Nat := 57
def INPLACE_DIVIDE : Nat := 58
def INPLACE_MODULO : Nat := 59
def STORE_SUBSCR : Nat := 60
def BINARY_LSHIFT : Nat := 62
def BINARY_RSHIFT : Nat := 63
def BINARY_AND : Nat := 64
def BINARY_XOR : Nat := 65
def BINARY_OR : Nat := 66
def INPLACE_POWER : Nat := 67
def GET_ITER : Nat := 68
def PRINT_ITEM : Nat := 71
def PRINT_NEWLINE : Nat := 72
def PRINT_ITEM_TO : Nat := 73
def PRINT_NEWLINE_TO : Nat := 74
def INPLACE_LSHIFT : Nat := 75
def INPLACE_RSHIFT : Nat := 76
def INPLACE_AND : Nat := 77
def INPLACE_XOR : Nat := 78
def INPLACE_OR : Nat := 79
def BREAK_LOOP : Nat := 80
def LOAD_LOCALS : Nat := 82
def RETURN_VALUE : Nat := 83
def YIELD_VALUE : Nat := 86
def POP_BLOCK : Nat := 87
def END_FINALLY : Nat := 88
def HAVE_ARGUMENT : Nat := 90
def STORE_NAME : Nat := 90
def UNPACK_SEQUENCE : Nat := 92
def FOR_ITER : Nat := 93
def LIST_APPEND : Nat := 94
def STORE_ATTR : Nat := 95
def STORE_GLOBAL : Nat := 97
def DUP_TOPX : Nat := 99
def LOAD_CONST : Nat := 100
def LOAD_NAME : Nat := 101
def BUILD_TUPLE : Nat := 102
def BUILD_LIST : Nat := 103
def BUILD_SET : Nat := 104
def BUILD_MAP : Nat := 105
def LOAD_ATTR : Nat := 106
def COMPARE_OP : Nat := 107
def IMPORT_NAME : Nat := 108
def JUMP_FORWARD : Nat := 110
def JUMP_IF_FALSE_OR_POP : Nat := 111
def JUMP_IF_TRUE_OR_POP : Nat := 112
def JUMP_ABSOLUTE : Nat := 113
def POP_JUMP_IF_FALSE : Nat := 114
def POP_JUMP_IF_TRUE : Nat := 115
def LOAD_GLOBAL : Nat := 116
def CONTINUE_LOOP : Nat := 119
def SETUP_LOOP : Nat := 120
def SETUP_EXCEPT : Nat := 121
def SETUP_FINALLY : Nat := 122
def LOAD_FAST : Nat := 124
def STORE_FAST : Nat := 125
def RAISE_VARARGS : Nat := 130
def CALL_FUNCTION : Nat := 131
def MAKE_FUNCTION : Nat := 132
def BUILD_SLICE : Nat := 133
def MAKE_CLOSURE : Nat := 134
def LOAD_CLOSURE : Nat := 135
def LOAD_DEREF : Nat := 136
def STORE_DEREF : Nat := 137
def CALL_FUNCTION_VAR : Nat := 140
def CALL_FUNCTION_KW : Nat := 141
def CALL_FUNCTION_VAR_KW : Nat := 142

/-- The macro `HAS_ARG(op)` of `opcode.h`. -/
def HAS_ARG (op : Nat) : Bool := decide (HAVE_ARGUMENT ≤ op)

/-- The macro `CODESIZE(op)`: `HAS_ARG(op) ? 3 : 1`. -/
def CODESIZE (op : Nat) : Int := if HAS_ARG op then 3 else 1

/-! ## Data model -/

/-- The ways a run can go wrong without returning. -/
inductive Fault where
  /-- An `assert` of a `RegisterStack` method fails. -/
  | stackAssert
  /-- The `assert(entry_point != NULL)` or `assert(last != NULL)` of `registerize` fails. -/
  | joinAssert
  /-- The `assert(dst <= state->py_codelen)` of `JUMP_FORWARD` fails. -/
  | jumpAssert
  /-- An array or vector is accessed outside its bounds. -/
  | outOfBounds
  /-- A `NULL` pointer is dereferenced. -/
  | nullDeref
  /-- A variable is read before anything was assigned to it. -/
  | uninitialised
  /-- An `assert` or `Log_Assert` of the lowering fails. -/
  | lowerAssert
deriving Repr, DecidableEq

/-- The struct `CompilerOp`.  A `Register` is an integer; `-1` is the absent register. -/
structure CompilerOp where
  code : Nat
  arg : Int
  dead : Bool
  has_dest : Bool
  regs : List Int
deriving Repr, DecidableEq

/-- The method `CompilerOp::num_inputs`, on `size_t`: `has_dest ? n-1 : n`. -/
def CompilerOp.num_inputs (op : CompilerOp) : Nat :=
  if op.has_dest then (op.regs.length + (2 ^ 64 - 1)) % 2 ^ 64 else op.regs.length

/-- The struct `BasicBlock`; `exits` may hold `NULL`. -/
structure BasicBlock where
  py_offset : Int
  reg_offset : Nat
  idx : Nat
  exits : List (Option Nat)
  entries : List Nat
  code : List CompilerOp
  visited : Bool
  dead : Bool
deriving Repr, DecidableEq

/-- The constructor `BasicBlock::BasicBlock(offset, idx)`. -/
def BasicBlock.new (offset : Int) (idx : Nat) : BasicBlock :=
  { py_offset := offset, reg_offset := 0, idx := idx, exits := [], entries := [],
    code := [], visited := false, dead := false }

instance : Inhabited BasicBlock := ⟨BasicBlock.new 0 0⟩

/-- The struct `Frame`. -/
structure Frame where
  target : Int
  stack_pos : Int
deriving Repr, DecidableEq

/-- The struct `RegisterStack`: the two C arrays are lists, whose length is the
extent of the array. -/
structure RegisterStack where
  regs : List Int
  stack_pos : Int
  frames : List Frame
  num_frames : Int
deriving Repr, DecidableEq

/-- The struct `CompilerState`; `py_codelen` is the length of `py_codestr`. -/
structure CompilerState where
  heap : List BasicBlock
  bbs : List Nat
  num_reg : Int
  num_consts : Int
  num_locals : Int
  py_codestr : List (Fin 256)
deriving Repr, DecidableEq

def CompilerState.py_codelen (st : CompilerState) : Int := st.py_codestr.length

/-- The constructor `CompilerState(PyCodeObject*)`. -/
def CompilerState.ofCode (code : List (Fin 256)) (num_consts num_locals : Nat) : CompilerState :=
  { heap := [], bbs := [], num_reg := (num_consts : Int) + num_locals,
    num_consts := num_consts, num_locals := num_locals, py_codestr := code }

/-- Dereference of a block pointer. -/
def CompilerState.deref (st : CompilerState) (p : Nat) : BasicBlock := (st.heap[p]?).getD default

/-- Element `i` of a C array, `none` when `i` is outside the array. -/
def readAt {α : Type} (xs : List α) (i : Int) : Option α :=
  if 0 ≤ i then xs.get? i.toNat else none

/-- Assignment to element `i` of a C array, `none` when `i` is outside the array. -/
def writeAt {α : Type} (xs : List α) (i : Int) (v : α) : Option (List α) :=
  if 0 ≤ i ∧ i.toNat < xs.length then some (xs.set i.toNat v) else none

/-- Apply `f` to element `i` of a list. -/
def modifyAt {α : Type} (f : α → α) : Nat → List α → List α
  | _, [] => []
  | 0, x :: xs => f x :: xs
  | i + 1, x :: xs => x :: modifyAt f i xs

/-- The method `CompilerState::alloc_bb`: the new block and the new state. -/
def CompilerState.alloc_bb (st : CompilerState) (offset : Int) : Nat × CompilerState :=
  (st.heap.length,
   { st with heap := st.heap ++ [BasicBlock.new offset st.bbs.length],
             bbs := st.bbs ++ [st.heap.length] })

/-- The statement `b->exits.push_back(e)`. -/
def CompilerState.push_exit (st : CompilerState) (b : Nat) (e : Option Nat) : CompilerState :=
  { st with heap := modifyAt (fun bb => { bb with exits := bb.exits ++ [e] }) b st.heap }

/-- Append ops to the code of block `b`, as the `add_op` family does one op at a time. -/
def CompilerState.add_ops (st : CompilerState) (b : Nat) (ops : List CompilerOp) : CompilerState :=
  { st with heap := modifyAt (fun bb => { bb with code := bb.code ++ ops }) b st.heap }

/-- The loop `for i < bbs.size(): if (bbs[i]->py_offset == offset) return bbs[i]`. -/
def CompilerState.find_bb (st : CompilerState) (offset : Int) : Option Nat :=
  st.bbs.find? (fun p => decide ((st.deref p).py_offset = offset))

/-! ## Building ops: `BasicBlock::add_op`, `add_dest_op`, `add_varargs_op` -/

/-- The method `_add_op` followed by the register assignments. -/
def mk_op (opcode : Nat) (arg : Int) (regs : List Int) : CompilerOp :=
  { code := opcode, arg := arg, dead := false, has_dest := false, regs := regs }

/-- The method `_add_dest_op` followed by the register assignments. -/
def mk_dest_op (opcode : Nat) (arg : Int) (regs : List Int) : CompilerOp :=
  { code := opcode, arg := arg, dead := false, has_dest := true, regs := regs }

def add_op0 (opcode : Nat) (arg : Int) : CompilerOp := mk_op opcode arg []
def add_op1 (opcode : Nat) (arg : Int) (r1 : Int) : CompilerOp := mk_op opcode arg [r1]
def add_op2 (opcode : Nat) (arg : Int) (r1 r2 : Int) : CompilerOp := mk_op opcode arg [r1, r2]
def add_op3 (opcode : Nat) (arg : Int) (r1 r2 r3 : Int) : CompilerOp :=
  mk_op opcode arg [r1, r2, r3]
def add_op4 (opcode : Nat) (arg : Int) (r1 r2 r3 r4 : Int) : CompilerOp :=
  mk_op opcode arg [r1, r2, r3, r4]
def add_dest_op0 (opcode : Nat) (arg : Int) : CompilerOp := mk_dest_op opcode arg []
def add_dest_op1 (opcode : Nat) (arg : Int) (r1 : Int) : CompilerOp := mk_dest_op opcode arg [r1]
def add_dest_op2 (opcode : Nat) (arg : Int) (r1 r2 : Int) : CompilerOp :=
  mk_dest_op opcode arg [r1, r2]
def add_dest_op3 (opcode : Nat) (arg : Int) (r1 r2 r3 : Int) : CompilerOp :=
  mk_dest_op opcode arg [r1, r2, r3]
/-- The five-argument `add_dest_op` calls `_add_op`, not `_add_dest_op`. -/
def add_dest_op4 (opcode : Nat) (arg : Int) (r1 r2 r3 r4 : Int) : CompilerOp :=
  mk_op opcode arg [r1, r2, r3, r4]
def add_varargs_op (opcode : Nat) (arg : Int) (regs : List Int) : CompilerOp :=
  mk_dest_op opcode arg regs

/-! ## The symbolic stack -/

/-- The method `RegisterStack::push_frame`. -/
def RegisterStack.push_frame (cfg : Config) (s : RegisterStack) (target : Int) :
    Except Fault RegisterStack :=
  if s.num_frames < cfg.REG_MAX_FRAMES then
    match writeAt s.frames s.num_frames { target := target, stack_pos := s.stack_pos } with
    | some fs => .ok { s with frames := fs, num_frames := s.num_frames + 1 }
    | none => .error .outOfBounds
  else .error .stackAssert

/-- The method `RegisterStack::pop_frame`: the frame and the new stack. -/
def RegisterStack.pop_frame (s : RegisterStack) : Except Fault (Frame × RegisterStack) :=
  if 0 < s.num_frames then
    match readAt s.frames (s.num_frames - 1) with
    | some f => .ok (f, { s with num_frames := s.num_frames - 1, stack_pos := f.stack_pos })
    | none => .error .outOfBounds
  else .error .stackAssert

/-- The method `RegisterStack::push_register`; the assertion is `stack_pos < REG_MAX_STACK`. -/
def RegisterStack.push_register (cfg : Config) (s : RegisterStack) (reg : Int) :
    Except Fault (Int × RegisterStack) :=
  if s.stack_pos < cfg.REG_MAX_STACK then
    match writeAt s.regs (s.stack_pos + 1) reg with
    | some rs => .ok (reg, { s with regs := rs, stack_pos := s.stack_pos + 1 })
    | none => .error .outOfBounds
  else .error .stackAssert

/-- The method `RegisterStack::pop_register`. -/
def RegisterStack.pop_register (s : RegisterStack) : Except Fault (Int × RegisterStack) :=
  if 0 ≤ s.stack_pos then
    match readAt s.regs s.stack_pos with
    | some reg =>
      if -1 ≤ reg then .ok (reg, { s with stack_pos := s.stack_pos - 1 })
      else .error .stackAssert
    | none => .error .outOfBounds
  else .error .stackAssert

/-- The method `RegisterStack::peek_register`. -/
def RegisterStack.peek_register (s : RegisterStack) (reg : Int) : Except Fault Int :=
  match readAt s.regs (s.stack_pos - reg) with
  | some r => .ok r
  | none => .error .outOfBounds

/-- The constructor `RegisterStack()` leaves both arrays uninitialised; `regs` and
`frames` are their contents. -/
def RegisterStack.new (regs : List Int) (frames : List Frame) : RegisterStack :=
  { regs := regs, stack_pos := -1, frames := frames, num_frames := 0 }

/-! ## Registerization -/

/-- The case labels of the second `switch` of `registerize`, one constructor per
group of labels that share a body; `unknown` is the `default` label (which
`END_FINALLY` and `YIELD_VALUE` fall into). -/
inductive OpKind where
  | nop | rotTwo | rotThree | popTop | dupTop | dupTopX
  | loadConst | loadFast | loadName | loadAttr
  | storeFast | storeName | storeAttr | storeMap | storeSubscr
  | getIter | slice | storeSlice | deleteSlice | listAppend
  | unaryNot | unary | binary | call | build | unpackSequence
  | setupLoop | raiseVarargs | popBlock | breakLoop | continueLoop
  | printItem | printItemTo | printNewlineTo | printNewline
  | forIter | jumpIfOrPop | popJumpIf | jumpForward | jumpAbsolute
  | returnValue | unknown
deriving Repr, DecidableEq

/-- The opcodes of the `BINARY_POWER ... COMPARE_OP` group of case labels. -/
def binaryOps : List Nat :=
  [BINARY_POWER, BINARY_MULTIPLY, BINARY_TRUE_DIVIDE, BINARY_FLOOR_DIVIDE, BINARY_MODULO,
   BINARY_ADD, BINARY_SUBTRACT, BINARY_SUBSCR, BINARY_LSHIFT, BINARY_RSHIFT, BINARY_AND,
   BINARY_XOR, BINARY_OR, INPLACE_POWER, INPLACE_MULTIPLY, INPLACE_DIVIDE,
   INPLACE_TRUE_DIVIDE, INPLACE_FLOOR_DIVIDE, INPLACE_MODULO, INPLACE_ADD, INPLACE_SUBTRACT,
   INPLACE_LSHIFT, INPLACE_RSHIFT, INPLACE_AND, INPLACE_XOR, INPLACE_OR, COMPARE_OP]

/-- Which case label of the second `switch` an opcode selects. -/
def classify (opcode : Nat) : OpKind :=
  if opcode = NOP then .nop
  else if opcode = ROT_TWO then .rotTwo
  else if opcode = ROT_THREE then .rotThree
  else if opcode = POP_TOP then .popTop
  else if opcode = DUP_TOP then .dupTop
  else if opcode = DUP_TOPX then .dupTopX
  else if opcode = LOAD_CONST then .loadConst
  else if opcode = LOAD_FAST then .loadFast
  else if opcode ∈ [LOAD_CLOSURE, LOAD_DEREF, LOAD_GLOBAL, LOAD_LOCALS, LOAD_NAME] then .loadName
  else if opcode = LOAD_ATTR then .loadAttr
  else if opcode = STORE_FAST then .storeFast
  else if opcode ∈ [STORE_DEREF, STORE_GLOBAL, STORE_NAME] then .storeName
  else if opcode = STORE_ATTR then .storeAttr
  else if opcode = STORE_MAP then .storeMap
  else if opcode = STORE_SUBSCR then .storeSubscr
  else if opcode = GET_ITER then .getIter
  else if opcode ∈ [SLICE + 0, SLICE + 1, SLICE + 2, SLICE + 3] then .slice
  else if opcode ∈ [STORE_SLICE + 0, STORE_SLICE + 1, STORE_SLICE + 2, STORE_SLICE + 3] then
    .storeSlice
  else if opcode ∈ [DELETE_SLICE + 0, DELETE_SLICE + 1, DELETE_SLICE + 2, DELETE_SLICE + 3] then
    .deleteSlice
  else if opcode = LIST_APPEND then .listAppend
  else if opcode = UNARY_NOT then .unaryNot
  else if opcode ∈ [UNARY_POSITIVE, UNARY_NEGATIVE, UNARY_CONVERT, UNARY_INVERT] then .unary
  else if opcode ∈ binaryOps then .binary
  else if opcode ∈ [CALL_FUNCTION, CALL_FUNCTION_VAR, CALL_FUNCTION_KW, CALL_FUNCTION_VAR_KW] then
    .call
  else if opcode ∈ [BUILD_LIST, BUILD_SET, BUILD_TUPLE] then .build
  else if opcode = UNPACK_SEQUENCE then .unpackSequence
  else if opcode = SETUP_LOOP then .setupLoop
  else if opcode = RAISE_VARARGS then .raiseVarargs
  else if opcode = POP_BLOCK then .popBlock
  else if opcode = BREAK_LOOP then .breakLoop
  else if opcode = CONTINUE_LOOP then .continueLoop
  else if opcode = PRINT_ITEM then .printItem
  else if opcode = PRINT_ITEM_TO then .printItemTo
  else if opcode = PRINT_NEWLINE_TO then .printNewlineTo
  else if opcode = PRINT_NEWLINE then .printNewline
  else if opcode = FOR_ITER then .forIter
  else if opcode ∈ [JUMP_IF_FALSE_OR_POP, JUMP_IF_TRUE_OR_POP] then .jumpIfOrPop
  else if opcode ∈ [POP_JUMP_IF_FALSE, POP_JUMP_IF_TRUE] then .popJumpIf
  else if opcode = JUMP_FORWARD then .jumpForward
  else if opcode = JUMP_ABSOLUTE then .jumpAbsolute
  else if opcode = RETURN_VALUE then .returnValue
  else .unknown

/-- How a case body of the second `switch` leaves the `switch`. -/
inductive Ctl where
  /-- The statement `break`: the `for` loop goes on with the next instruction. -/
  | next
  /-- The statement `return entry_point`. -/
  | ret
  /-- The statement `return NULL`. -/
  | fail
  /-- `BREAK_LOOP`, `CONTINUE_LOOP`: one recursive call whose result is pushed on
  `bb->exits`; `NULL` in `bb->exits[0]` returns `NULL`; otherwise `return entry_point`
  (`andReturn`) or `break`. -/
  | loopJump (target : Int) (andReturn : Bool)
  /-- `JUMP_FORWARD`, `JUMP_ABSOLUTE`: one recursive call, then `return`. -/
  | jump (target : Int)
  /-- Two recursive calls on two copies of the stack, made in the order written;
  `firstIsLeft` tells whether the first call gives `exits[0]` (`left`). -/
  | fork (s1 : RegisterStack) (t1 : Int) (s2 : RegisterStack) (t2 : Int) (firstIsLeft : Bool)
deriving Repr, DecidableEq

/-- What a case body leaves behind: the ops added to `bb`, the stack, `num_reg`. -/
structure Emit where
  ops : List CompilerOp
  stack : RegisterStack
  num_reg : Int
  ctl : Ctl
deriving Repr, DecidableEq

/-- The statements `r = -1; if (c) r = stack->pop_register();`. -/
def condPop (c : Bool) (s : RegisterStack) : Except Fault (Int × RegisterStack) :=
  if c then s.pop_register else .ok (-1, s)

/-- Pop `n` registers; the list is in the order of the pops. -/
def popN : Nat → RegisterStack → Except Fault (List Int × RegisterStack)
  | 0, s => .ok ([], s)
  | n + 1, s => do
    let (r, s1) ← s.pop_register
    let (rs, s2) ← popN n s1
    pure (r :: rs, s2)

/-- The loop of `UNPACK_SEQUENCE`: `for (r = oparg; r >= 1; --r)`. -/
def unpackLoop (cfg : Config) (seq : Int) :
    Nat → RegisterStack → Int → Except Fault (List CompilerOp × RegisterStack × Int)
  | 0, s, num_reg => .ok ([], s, num_reg)
  | r + 1, s, num_reg => do
    let (elt, s1) ← s.push_register cfg num_reg
    let (ops, s2, nr) ← unpackLoop cfg seq r s1 (num_reg + 1)
    pure (add_dest_op2 cfg.CONST_INDEX (r : Int) seq elt :: ops, s2, nr)

/-- The first `switch` of `registerize`: `NOP`, `ROT_TWO` and `ROT_THREE` only
permute the stack and `continue`; `none` is the `default: break`. -/
def foldStack (cfg : Config) (opcode : Nat) (s : RegisterStack) :
    Option (Except Fault RegisterStack) :=
  if opcode = NOP then some (.ok s)
  else if opcode = ROT_TWO then some (do
    let (r1, s) ← s.pop_register
    let (r2, s) ← s.pop_register
    let (_, s) ← s.push_register cfg r1
    let (_, s) ← s.push_register cfg r2
    pure s)
  else if opcode = ROT_THREE then some (do
    let (r1, s) ← s.pop_register
    let (r2, s) ← s.pop_register
    let (r3, s) ← s.pop_register
    let (_, s) ← s.push_register cfg r1
    let (_, s) ← s.push_register cfg r3
    let (_, s) ← s.push_register cfg r2
    pure s)
  else none

/-- The bodies of the second `switch` of `registerize`, for the block `bb` that was
just allocated at `offset`.  `num_reg` is `state->num_reg`, `codelen` is
`state->py_codelen`, `oparg` is `GETARG` (0 when the opcode has no argument). -/
def dispatch (cfg : Config) (num_consts codelen : Int) (num_reg : Int) (stack : RegisterStack)
    (opcode oparg : Nat) (offset : Int) : Except Fault Emit :=
  match classify opcode with
  | .nop => pure ⟨[], stack, num_reg, .next⟩
  | .rotTwo => do
    let (r1, s) ← stack.pop_register
    let (r2, s) ← s.pop_register
    let (_, s) ← s.push_register cfg r1
    let (_, s) ← s.push_register cfg r2
    pure ⟨[], s, num_reg, .next⟩
  | .rotThree => do
    let (r1, s) ← stack.pop_register
    let (r2, s) ← s.pop_register
    let (r3, s) ← s.pop_register
    let (_, s) ← s.push_register cfg r1
    let (_, s) ← s.push_register cfg r3
    let (_, s) ← s.push_register cfg r2
    pure ⟨[], s, num_reg, .next⟩
  | .popTop => do
    let (r1, s) ← stack.pop_register
    pure ⟨[add_op1 cfg.DECREF 0 r1], s, num_reg, .next⟩
  | .dupTop => do
    let (r1, s) ← stack.pop_register
    let (_, s) ← s.push_register cfg r1
    let (_, s) ← s.push_register cfg r1
    pure ⟨[], s, num_reg, .next⟩
  | .dupTopX =>
    if oparg = 2 then do
      let (r1, s) ← stack.pop_register
      let (r2, s) ← s.pop_register
      let (_, s) ← s.push_register cfg r1
      let (_, s) ← s.push_register cfg r2
      let (_, s) ← s.push_register cfg r1
      let (_, s) ← s.push_register cfg r2
      pure ⟨[], s, num_reg, .next⟩
    else do
      let (r1, s) ← stack.pop_register
      let (r2, s) ← s.pop_register
      let (r3, s) ← s.pop_register
      let (_, s) ← s.push_register cfg r3
      let (_, s) ← s.push_register cfg r2
      let (_, s) ← s.push_register cfg r1
      let (_, s) ← s.push_register cfg r3
      let (_, s) ← s.push_register cfg r2
      let (_, s) ← s.push_register cfg r1
      pure ⟨[], s, num_reg, .next⟩
  | .loadConst => do
    let r1 : Int := oparg
    let (r2, s) ← stack.push_register cfg num_reg
    pure ⟨[add_dest_op2 LOAD_FAST 0 r1 r2], s, num_reg + 1, .next⟩
  | .loadFast => do
    let r1 : Int := num_consts + oparg
    let (r2, s) ← stack.push_register cfg num_reg
    pure ⟨[add_dest_op2 LOAD_FAST 0 r1 r2], s, num_reg + 1, .next⟩
  | .loadName => do
    let (r1, s) ← stack.push_register cfg num_reg
    pure ⟨[add_dest_op1 opcode oparg r1], s, num_reg + 1, .next⟩
  | .loadAttr => do
    let (r1, s) ← stack.pop_register
    let (r2, s) ← s.push_register cfg num_reg
    pure ⟨[add_dest_op2 opcode oparg r1 r2], s, num_reg + 1, .next⟩
  | .storeFast => do
    let (r1, s) ← stack.pop_register
    pure ⟨[add_dest_op2 opcode 0 r1 (num_consts + oparg)], s, num_reg, .next⟩
  | .storeName => do
    let (r1, s) ← stack.pop_register
    pure ⟨[add_op1 opcode oparg r1], s, num_reg, .next⟩
  | .storeAttr => do
    let (r1, s) ← stack.pop_register
    let (r2, s) ← s.pop_register
    pure ⟨[add_op2 opcode oparg r1 r2], s, num_reg, .next⟩
  | .storeMap => do
    let (r1, s) ← stack.pop_register
    let (r2, s) ← s.pop_register
    let (r3, s) ← s.pop_register
    let (_, s) ← s.push_register cfg r3
    pure ⟨[add_op3 opcode oparg r1 r2 r3], s, num_reg, .next⟩
  | .storeSubscr => do
    let (r1, s) ← stack.pop_register
    let (r2, s) ← s.pop_register
    let (r3, s) ← s.pop_register
    pure ⟨[add_op3 opcode oparg r1 r2 r3], s, num_reg, .next⟩
  | .getIter => do
    let (r1, s) ← stack.pop_register
    let (r2, s) ← s.push_register cfg num_reg
    pure ⟨[add_dest_op2 opcode oparg r1 r2], s, num_reg + 1, .next⟩
  | .slice => do
    let (r3, s) ← condPop (decide ((opcode - SLICE) &&& 2 ≠ 0)) stack
    let (r2, s) ← condPop (decide ((opcode - SLICE) &&& 1 ≠ 0)) s
    let (r1, s) ← s.pop_register
    let (r4, s) ← s.push_register cfg num_reg
    let op :=
      if r2 = -1 then add_dest_op2 opcode oparg r1 r4
      else if r3 = -1 then add_dest_op3 opcode oparg r1 r2 r4
      else add_dest_op4 opcode oparg r1 r2 r3 r4
    pure ⟨[op], s, num_reg + 1, .next⟩
  | .storeSlice => do
    let (r4, s) ← condPop (decide ((opcode - STORE_SLICE) &&& 2 ≠ 0)) stack
    let (r3, s) ← condPop (decide ((opcode - STORE_SLICE) &&& 1 ≠ 0)) s
    let (r2, s) ← s.pop_register
    let (r1, s) ← s.pop_register
    let op :=
      if r3 = -1 then add_op2 opcode oparg r1 r2
      else if r4 = -1 then add_op3 opcode oparg r1 r2 r3
      else add_op4 opcode oparg r1 r2 r3 r4
    pure ⟨[op], s, num_reg, .next⟩
  | .deleteSlice => do
    let (r4, s) ← condPop (decide ((opcode - DELETE_SLICE) &&& 2 ≠ 0)) stack
    let (r3, s) ← condPop (decide ((opcode - DELETE_SLICE) &&& 1 ≠ 0)) s
    let (r2, s) ← s.pop_register
    let (r1, s) ← s.pop_register
    let op :=
      if r3 = -1 then add_op2 opcode oparg r1 r2
      else if r4 = -1 then add_op3 opcode oparg r1 r2 r3
      else add_op4 opcode oparg r1 r2 r3 r4
    pure ⟨[op], s, num_reg, .next⟩
  | .listAppend => do
    let (r1, s) ← stack.pop_register
    let r2 ← s.peek_register oparg
    pure ⟨[add_op2 opcode oparg r1 r2], s, num_reg, .next⟩
  | .unaryNot => do
    let (r1, s) ← stack.pop_register
    let (r2, s) ← s.push_register cfg num_reg
    pure ⟨[add_dest_op2 opcode oparg r1 r2], s, num_reg + 1, .next⟩
  | .unary => do
    let (r1, s) ← stack.pop_register
    let (r2, s) ← s.push_register cfg num_reg
    pure ⟨[add_dest_op2 opcode oparg r1 r2], s, num_reg + 1, .next⟩
  | .binary => do
    let (r1, s) ← stack.pop_register
    let (r2, s) ← s.pop_register
    let (r3, s) ← s.push_register cfg num_reg
    pure ⟨[add_dest_op3 opcode oparg r1 r2 r3], s, num_reg + 1, .next⟩
  | .call => do
    let na := oparg &&& 0xff
    let nk := (oparg >>> 8) &&& 0xff
    let n := na + 2 * nk
    let (args, s) ← popN n stack
    let (fn, s) ← s.pop_register
    let (dst, s) ← s.push_register cfg num_reg
    pure ⟨[add_varargs_op opcode oparg (args.reverse ++ [fn, dst])], s, num_reg + 1, .next⟩
  | .build => do
    let (elts, s) ← popN oparg stack
    let (dst, s) ← s.push_register cfg num_reg
    pure ⟨[add_varargs_op opcode oparg (elts ++ [dst])], s, num_reg + 1, .next⟩
  | .unpackSequence => do
    let (seq, s) ← stack.pop_register
    let (ops, s, nr) ← unpackLoop cfg seq oparg s num_reg
    pure ⟨ops, s, nr, .next⟩
  | .setupLoop => do
    let s ← stack.push_frame cfg (offset + CODESIZE opcode + oparg)
    pure ⟨[add_op0 opcode oparg], s, num_reg, .next⟩
  | .raiseVarargs =>
    if oparg = 3 then do
      let (r1, s) ← stack.pop_register
      let (r2, s) ← s.pop_register
      let (r3, s) ← s.pop_register
      pure ⟨[add_op3 opcode oparg r1 r2 r3], s, num_reg, .next⟩
    else if oparg = 2 then do
      let (r1, s) ← stack.pop_register
      let (r2, s) ← s.pop_register
      pure ⟨[add_op3 opcode oparg r1 r2 (-1)], s, num_reg, .next⟩
    else if oparg = 1 then do
      let (r1, s) ← stack.pop_register
      pure ⟨[add_op3 opcode oparg r1 (-1) (-1)], s, num_reg, .next⟩
    else pure ⟨[add_op3 opcode oparg (-1) (-1) (-1)], stack, num_reg, .next⟩
  | .popBlock => do
    let (_, s) ← stack.pop_frame
    pure ⟨[], s, num_reg, .next⟩
  | .breakLoop => do
    let (f, s) ← stack.pop_frame
    pure ⟨[add_op0 opcode oparg], s, num_reg, .loopJump f.target true⟩
  | .continueLoop => do
    let (_, s) ← stack.pop_frame
    pure ⟨[add_op0 opcode oparg], s, num_reg, .loopJump oparg false⟩
  | .printItem => do
    let (r1, s) ← stack.pop_register
    pure ⟨[add_op1 opcode oparg r1], s, num_reg, .next⟩
  | .printItemTo => do
    let (r1, s) ← stack.pop_register
    let (r2, s) ← s.pop_register
    pure ⟨[add_op2 opcode oparg r1 r2], s, num_reg, .next⟩
  | .printNewlineTo => do
    let (r1, s) ← stack.pop_register
    let (r2, s) ← s.pop_register
    pure ⟨[add_op2 opcode oparg r1 r2], s, num_reg, .next⟩
  | .printNewline => do
    let (r1, s) ← stack.pop_register
    pure ⟨[add_op1 opcode oparg r1], s, num_reg, .next⟩
  | .forIter => do
    let (r1, s) ← stack.pop_register
    let (_, a) ← s.push_register cfg r1
    let (r2, a) ← a.push_register cfg num_reg
    pure ⟨[add_dest_op2 opcode 0 r1 r2], s, num_reg + 1,
      .fork a (offset + CODESIZE opcode) s (offset + CODESIZE opcode + oparg) true⟩
  | .jumpIfOrPop => do
    let a := stack
    let (r1, s) ← stack.pop_register
    pure ⟨[add_op1 opcode oparg r1], s, num_reg,
      .fork a oparg s (offset + CODESIZE opcode) false⟩
  | .popJumpIf => do
    let (r1, s) ← stack.pop_register
    pure ⟨[add_op1 opcode oparg r1], s, num_reg,
      .fork s (offset + CODESIZE opcode) s oparg true⟩
  | .jumpForward =>
    let dst : Int := oparg + offset + CODESIZE opcode
    if dst ≤ codelen then pure ⟨[add_op0 JUMP_ABSOLUTE dst], stack, num_reg, .jump dst⟩
    else .error .jumpAssert
  | .jumpAbsolute =>
    pure ⟨[add_op0 JUMP_ABSOLUTE oparg], stack, num_reg, .jump oparg⟩
  | .returnValue => do
    let (r1, s) ← stack.pop_register
    pure ⟨[add_op1 opcode oparg r1], s, num_reg, .ret⟩
  | .unknown => pure ⟨[], stack, num_reg, .fail⟩

/-- The result of a call of `registerize`: `none` when the fuel ran out, a fault,
or the returned pointer (`none` is `NULL`) with the state and the caller's stack
as the call left them. -/
abbrev RegResult := Option (Except Fault (Option Nat × CompilerState × RegisterStack))

/-- The opcode `codestr[offset]` and `oparg` (`GETARG` when `HAS_ARG`, else 0); the
buffer holds `py_codelen` bytes. -/
def fetch (st : CompilerState) (offset : Int) : Except Fault (Nat × Nat) :=
  match readAt st.py_codestr offset with
  | none => .error .outOfBounds
  | some opcode =>
    if HAS_ARG opcode.val then
      match readAt st.py_codestr (offset + 1), readAt st.py_codestr (offset + 2) with
      | some lo, some hi => .ok (opcode.val, (hi.val <<< 8) + lo.val)
      | _, _ => .error .outOfBounds
    else .ok (opcode.val, 0)

/-- The head of `registerize`: a block that already starts at `offset` is returned
at once; otherwise `body` (the `for` loop) runs. -/
def enterWith (body : CompilerState → RegisterStack → Int → Option Nat → Option Nat → RegResult)
    (st : CompilerState) (stack : RegisterStack) (offset : Int) : RegResult :=
  match st.find_bb offset with
  | some old => some (.ok (some old, st, stack))
  | none => body st stack offset none none

/-- The statements between the second lookup and the second `switch`:
`bb = alloc_bb(offset)` and, when `last` is set, `last->exits.push_back(bb)`. -/
def CompilerState.start_block (st : CompilerState) (offset : Int) (last : Option Nat) :
    Nat × CompilerState :=
  match last with
  | some l => ((st.alloc_bb offset).1, (st.alloc_bb offset).2.push_exit l (some (st.alloc_bb offset).1))
  | none => st.alloc_bb offset

/-- The effect of a case body on the state: its ops go to `bb`, `num_reg` advances. -/
def CompilerState.emit (st : CompilerState) (bb : Nat) (e : Emit) : CompilerState :=
  { st.add_ops bb e.ops with num_reg := e.num_reg }

/-- The `for` loop of `registerize`, entered at its condition with the given
`entry_point` and `last`; every iteration and every recursive call uses one unit
of fuel. -/
def registerizeLoop (cfg : Config) : Nat → CompilerState → RegisterStack → Int → Option Nat →
    Option Nat → RegResult
  | 0, _, _, _, _, _ => none
  | fuel + 1, st, stack, offset, entry_point, last =>
    if offset < st.py_codelen then
      match fetch st offset with
      | .error f => some (.error f)
      | .ok (opcode, oparg) =>
        match foldStack cfg opcode stack with
        | some (.error f) => some (.error f)
        | some (.ok stack1) =>
          registerizeLoop cfg fuel st stack1 (offset + CODESIZE opcode) entry_point last
        | none =>
          match st.find_bb offset with
          | some old =>
            match entry_point, last with
            | some ep, some l => some (.ok (some ep, st.push_exit l (some old), stack))
            | _, _ => some (.error .joinAssert)
          | none =>
            let bb := (st.start_block offset last).1
            let st2 := (st.start_block offset last).2
            let ep := entry_point.getD bb
            match dispatch cfg st2.num_consts st2.py_codelen st2.num_reg stack opcode oparg
                offset with
            | .error f => some (.error f)
            | .ok e =>
              match e.ctl with
              | .next =>
                registerizeLoop cfg fuel (st2.emit bb e) e.stack (offset + CODESIZE opcode)
                  (some ep) (some bb)
              | .ret => some (.ok (some ep, st2.emit bb e, e.stack))
              | .fail => some (.ok (none, st2.emit bb e, e.stack))
              | .loopJump target andReturn =>
                match enterWith (registerizeLoop cfg fuel) (st2.emit bb e) e.stack target with
                | none => none
                | some (.error f) => some (.error f)
                | some (.ok (r, st4, stack4)) =>
                  match ((st4.push_exit bb r).deref bb).exits.head? with
                  | some (some _) =>
                    if andReturn then some (.ok (some ep, st4.push_exit bb r, stack4))
                    else registerizeLoop cfg fuel (st4.push_exit bb r) stack4
                      (offset + CODESIZE opcode) (some ep) (some bb)
                  | _ => some (.ok (none, st4.push_exit bb r, stack4))
              | .jump target =>
                match enterWith (registerizeLoop cfg fuel) (st2.emit bb e) e.stack target with
                | none => none
                | some (.error f) => some (.error f)
                | some (.ok (r, st4, stack4)) =>
                  match r with
                  | none => some (.ok (none, st4.push_exit bb r, stack4))
                  | some _ => some (.ok (some ep, st4.push_exit bb r, stack4))
              | .fork s1 t1 s2 t2 firstIsLeft =>
                match enterWith (registerizeLoop cfg fuel) (st2.emit bb e) s1 t1 with
                | none => none
                | some (.error f) => some (.error f)
                | some (.ok (x, st4, _)) =>
                  match enterWith (registerizeLoop cfg fuel) st4 s2 t2 with
                  | none => none
                  | some (.error f) => some (.error f)
                  | some (.ok (y, st5, _)) =>
                    let left := if firstIsLeft then x else y
                    let right := if firstIsLeft then y else x
                    match left, right with
                    | some _, some _ =>
                      some (.ok (some ep, (st5.push_exit bb left).push_exit bb right, e.stack))
                    | _, _ => some (.ok (none, (st5.push_exit bb left).push_exit bb right, e.stack))
    else some (.ok (entry_point, st, stack))

/-- The function `registerize(state, stack, offset)`, with fuel. -/
def registerizeFuel (cfg : Config) (fuel : Nat) (st : CompilerState) (stack : RegisterStack)
    (offset : Int) : RegResult :=
  enterWith (registerizeLoop cfg fuel) st stack offset

/-- Every pointer of `bbs` points into the heap. -/
def CompilerState.WF (st : CompilerState) : Prop := ∀ p ∈ st.bbs, p < st.heap.length

/-- What every run of the loop of `registerize` guarantees about the block list:
blocks are only added, and only `last` and new blocks get new exits. -/
structure Grows (last : Option Nat) (st st' : CompilerState) : Prop where
  wf : st'.WF
  len : st.heap.length ≤ st'.heap.length
  bbs : ∀ p ∈ st.bbs, p ∈ st'.bbs
  exits : ∀ p, p < st.heap.length → last ≠ some p → (st'.deref p).exits = (st.deref p).exits

/-- The `py_offset` of the blocks of `bbs`, in the order of `bbs`. -/
def CompilerState.offsets (st : CompilerState) : List Int :=
  st.bbs.map (fun p => (st.deref p).py_offset)

/-! ## Sample inputs -/

/-- A configuration with room for eight registers and four loop frames. -/
def sampleConfig : Config :=
  { REG_MAX_STACK := 8, REG_MAX_FRAMES := 4, DECREF := 149, CONST_INDEX := 150 }

/-- The stack a `RegisterStack()` of `sampleConfig` starts as (arrays zeroed). -/
def sampleStack : RegisterStack :=
  RegisterStack.new (List.replicate 8 0) (List.replicate 4 ⟨0, 0⟩)

/-- `LOAD_CONST 0; LOAD_CONST 1; BINARY_ADD; RETURN_VALUE`. -/
def constAddCode : List (Fin 256) := [100, 0, 0, 100, 1, 0, 23, 83]

/-- `SETUP_LOOP 9; L: LOAD_FAST 0; POP_JUMP_IF_FALSE 12; JUMP_ABSOLUTE 3; E: POP_BLOCK;
LOAD_CONST 0; RETURN_VALUE`, with `L = 3` and `E = 12`. -/
def whileLoopCode : List (Fin 256) :=
  [120, 9, 0, 124, 0, 0, 114, 12, 0, 113, 3, 0, 87, 100, 0, 0, 83]

/-- The number of offsets in `[0, py_codelen)` at which no block of `bbs` starts. -/
def CompilerState.freeOffsets (st : CompilerState) : Nat :=
  ((List.range st.py_codestr.length).filter
    (fun (o : Nat) => decide ((o : Int) ∉ st.offsets))).length

/-- Fuel that the loop of `registerize` needs at most from `offset`: one walk of the
code for every offset that can still get a block, and the rest of the current walk. -/
def fuelNeeded (st : CompilerState) (offset : Int) : Nat :=
  st.freeOffsets * (st.py_codestr.length + 1) +
    min st.py_codestr.length (st.py_codelen - offset).toNat + 1

/-- The function `registerize(state, stack, offset)`: `registerizeFuel` with the fuel
that is always enough (`registerize_terminates`). -/
def registerize (cfg : Config) (st : CompilerState) (stack : RegisterStack) (offset : Int) :
    RegResult :=
  registerizeFuel cfg ((st.py_codestr.length + 1) * (st.py_codestr.length + 1)) st stack offset

/-- The opcode byte at `offset` of the code, when `offset` is inside the code. -/
def CompilerState.opcodeAt (st : CompilerState) (offset : Int) : Option Nat :=
  (readAt st.py_codestr offset).map Fin.val

/-- No block of `bbs` starts at an opcode that the second `switch` does not know, and no
block has `NULL` among its exits. -/
def CompilerState.Clean (st : CompilerState) : Prop :=
  ∀ p ∈ st.bbs,
    (∀ op, st.opcodeAt (st.deref p).py_offset = some op → classify op ≠ .unknown) ∧
    none ∉ (st.deref p).exits

/-- The CPython 2.7 bytecode of `return a < b < c < d` (locals `a, b, c, d`):
`0 LOAD_FAST 0; 3 LOAD_FAST 1; 6 DUP_TOP; 7 ROT_THREE; 8 COMPARE_OP 0;
11 JUMP_IF_FALSE_OR_POP 32; 14 LOAD_FAST 2; 17 DUP_TOP; 18 ROT_THREE; 19 COMPARE_OP 0;
22 JUMP_IF_FALSE_OR_POP 32; 25 LOAD_FAST 3; 28 COMPARE_OP 0; 31 RETURN_VALUE;
32 ROT_TWO; 33 POP_TOP; 34 RETURN_VALUE`. -/
def chainedCompareCode : List (Fin 256) :=
  [124, 0, 0, 124, 1, 0, 4, 3, 107, 0, 0, 111, 32, 0, 124, 2, 0, 4, 3, 107, 0, 0, 111, 32, 0,
   124, 3, 0, 107, 0, 0, 83, 2, 1, 83]

/-- `0 JUMP_ABSOLUTE 3; 3 NOP; 4 JUMP_ABSOLUTE 3`. -/
def nopLoopCode : List (Fin 256) := [113, 3, 0, 9, 113, 3, 0]

/-- What holds of an `Except` computation when it returns. -/
def Post {α : Type} (m : Except Fault α) (P : α → Prop) : Prop := ∀ a, m = .ok a → P a

/-- Assignment to fields of the block `p` points to. -/
def CompilerState.modify (st : CompilerState) (p : Nat) (f : BasicBlock → BasicBlock) :
    CompilerState :=
  { st with heap := modifyAt f p st.heap }

/-- The method `CompilerPass::remove_dead_ops`. -/
def remove_dead_ops (bb : BasicBlock) : BasicBlock :=
  { bb with code := bb.code.filter (fun op => !op.dead) }

/-- The method `CompilerPass::remove_dead_code`: live blocks lose their dead ops, dead
blocks leave `bbs`. -/
def remove_dead_code (st : CompilerState) : CompilerState :=
  let st1 := st.bbs.foldl
    (fun s p => if (s.deref p).dead then s else s.modify p remove_dead_ops) st
  { st1 with bbs := st.bbs.filter (fun p => !(st1.deref p).dead) }

/-- The first loop of `visit_fn`: `fn->bbs[i]->visited = false`. -/
def resetVisited (st : CompilerState) : CompilerState :=
  st.bbs.foldl (fun s p => s.modify p (fun b => { b with visited := false })) st

/-- The second loop of `CompilerPass::visit_fn`, for a pass whose `visit_bb` keeps a
state of its own of type `σ`: blocks are taken in the order of `bbs`. -/
def forwardLoop {σ ε : Type} (visit_bb : σ → CompilerState → Nat → Except ε (σ × CompilerState)) :
    List Nat → σ → CompilerState → Except ε (σ × CompilerState)
  | [], a, st => .ok (a, st)
  | p :: ps, a, st =>
    if !(st.deref p).visited && !(st.deref p).dead then
      match visit_bb a st p with
      | .error f => .error f
      | .ok (a1, st1) =>
        forwardLoop visit_bb ps a1 (st1.modify p (fun b => { b with visited := true }))
    else forwardLoop visit_bb ps a st

/-- The method `CompilerPass::visit_fn`. -/
def CompilerPass.visit_fn {σ ε : Type}
    (visit_bb : σ → CompilerState → Nat → Except ε (σ × CompilerState)) (a : σ)
    (st : CompilerState) : Except ε (σ × CompilerState) :=
  match forwardLoop visit_bb st.bbs a (resetVisited st) with
  | .error f => .error f
  | .ok (a1, st1) => .ok (a1, remove_dead_code st1)

/-- A loop `for (size_t i = start; i-- > 0;) body(i)`: the test compares, then
decrements, so the body runs with `start - 1, ..., 0`. -/
def backLoop {σ : Type} (body : σ → Nat → Except Fault σ) : Nat → σ → Except Fault σ
  | 0, s => .ok s
  | i + 1, s =>
    match body s i with
    | .error f => .error f
    | .ok s1 => backLoop body i s1

/-- The value of `n - 1` in `size_t`. -/
def sizePred (n : Nat) : Nat := (n + (2 ^ 64 - 1)) % 2 ^ 64

/-- The body of the loop of `BackwardPass::visit_bb`: `op = bb->code[i]`, and
`visit_op(op)` when the op is not dead. -/
def BackwardPass.visit_at {σ : Type} (visit_op : σ → CompilerOp → Except Fault (σ × CompilerOp))
    (p : Nat) (s : σ × CompilerState) (i : Nat) : Except Fault (σ × CompilerState) :=
  match (s.2.deref p).code[i]? with
  | none => .error .outOfBounds
  | some op =>
    if !op.dead then
      match visit_op s.1 op with
      | .error f => .error f
      | .ok (a1, op1) => .ok (a1, s.2.modify p (fun b => { b with code := b.code.set i op1 }))
    else .ok s

/-- The method `BackwardPass::visit_bb`: `for (size_t i = n_ops - 1; i-- > 0;)`. -/
def BackwardPass.visit_bb {σ : Type} (visit_op : σ → CompilerOp → Except Fault (σ × CompilerOp))
    (a : σ) (st : CompilerState) (p : Nat) : Except Fault (σ × CompilerState) :=
  backLoop (BackwardPass.visit_at visit_op p) (sizePred (st.deref p).code.length) (a, st)

/-- The body of the second loop of `BackwardPass::visit_fn`. -/
def BackwardPass.visit_block {σ : Type}
    (visit_op : σ → CompilerOp → Except Fault (σ × CompilerOp))
    (s : σ × CompilerState) (i : Nat) : Except Fault (σ × CompilerState) :=
  match s.2.bbs[i]? with
  | none => .error .outOfBounds
  | some p =>
    if !(s.2.deref p).visited && !(s.2.deref p).dead then
      match BackwardPass.visit_bb visit_op s.1 s.2 p with
      | .error f => .error f
      | .ok (a1, st1) => .ok (a1, st1.modify p (fun b => { b with visited := true }))
    else .ok s

/-- The two loops of `BackwardPass::visit_fn`, before `remove_dead_code`:
`for (size_t i = n_bbs - 1; i-- > 0;)`. -/
def BackwardPass.sweep {σ : Type} (visit_op : σ → CompilerOp → Except Fault (σ × CompilerOp))
    (a : σ) (st : CompilerState) : Except Fault (σ × CompilerState) :=
  backLoop (BackwardPass.visit_block visit_op) (sizePred st.bbs.length) (a, resetVisited st)

/-- The method `BackwardPass::visit_fn`. -/
def BackwardPass.visit_fn {σ : Type} (visit_op : σ → CompilerOp → Except Fault (σ × CompilerOp))
    (a : σ) (st : CompilerState) : Except Fault (σ × CompilerState) :=
  match BackwardPass.sweep visit_op a st with
  | .error f => .error f
  | .ok (a1, st1) => .ok (a1, remove_dead_code st1)

/-- The field `UseCounts::counts`, a `std::map<Register, int>` read through `get_count`
(0 for an absent key). -/
abbrev Counts := Int → Int

def get_count (c : Counts) (r : Int) : Int := c r

def incr_count (c : Counts) (r : Int) : Counts := Function.update c r (get_count c r + 1)

def decr_count (c : Counts) (r : Int) : Counts := Function.update c r (get_count c r - 1)

/-- The method `UseCounts::is_pure`. -/
def is_pure (cfg : Config) (op_code : Nat) : Bool :=
  decide (op_code ∈ [LOAD_LOCALS, LOAD_CONST, LOAD_NAME, BUILD_TUPLE, BUILD_LIST, BUILD_SET,
    BUILD_MAP, MAKE_CLOSURE, LOAD_GLOBAL, LOAD_FAST, LOAD_DEREF, LOAD_CLOSURE, BUILD_SLICE,
    cfg.CONST_INDEX, STORE_FAST])

/-- The input registers of an op, `regs[0 .. num_inputs)`. -/
def CompilerOp.inputs (op : CompilerOp) : List Int := op.regs.take op.num_inputs

/-- The body of the loops of `count_uses` for one op: `incr_count(op->regs[reg_idx])` for
`reg_idx < n_inputs`; `regs[reg_idx]` is out of bounds when `n_inputs` wrapped. -/
def countOp (c : Counts) (op : CompilerOp) : Except Fault Counts :=
  if op.num_inputs ≤ op.regs.length then .ok (op.inputs.foldl incr_count c)
  else .error .outOfBounds

/-- The method `UseCounts::count_uses`: every op of every block of `bbs`, dead or not. -/
def count_uses (st : CompilerState) (c : Counts) : Except Fault Counts :=
  st.bbs.foldlM (fun c p => (st.deref p).code.foldlM countOp c) c

/-- The method `DeadCodeElim::visit_op`. -/
def DeadCodeElim.visit_op (cfg : Config) (c : Counts) (op : CompilerOp) :
    Except Fault (Counts × CompilerOp) :=
  if 0 < op.num_inputs ∧ op.has_dest then
    match op.regs[op.num_inputs]? with
    | none => .error .outOfBounds
    | some dest =>
      if is_pure cfg op.code ∧ get_count c dest = 0 then
        .ok (op.inputs.foldl decr_count c, { op with dead := true })
      else .ok (c, op)
  else .ok (c, op)

/-- The loops of `DeadCodeElim::visit_fn` before `remove_dead_code`. -/
def DeadCodeElim.sweep (cfg : Config) (st : CompilerState) : Except Fault (Counts × CompilerState) :=
  match count_uses st (fun _ => 0) with
  | .error f => .error f
  | .ok c => BackwardPass.sweep (DeadCodeElim.visit_op cfg) c st

/-- The pass `DeadCodeElim()(fn)`. -/
def DeadCodeElim (cfg : Config) (st : CompilerState) : Except Fault CompilerState :=
  match DeadCodeElim.sweep cfg st with
  | .error f => .error f
  | .ok (_, st1) => .ok (remove_dead_code st1)

/-- The method `MarkEntries::visit_bb`: `next->entries.push_back(bb)` for every exit. -/
def MarkEntries.visit_bb (_ : Unit) (st : CompilerState) (p : Nat) :
    Except Fault (Unit × CompilerState) :=
  (st.deref p).exits.foldlM (fun (s : Unit × CompilerState) next =>
    match next with
    | none => .error .nullDeref
    | some n => .ok ((), s.2.modify n (fun b => { b with entries := b.entries ++ [p] })))
    ((), st)

/-- The pass `MarkEntries()(fn)`. -/
def MarkEntries (st : CompilerState) : Except Fault CompilerState :=
  match CompilerPass.visit_fn MarkEntries.visit_bb () st with
  | .error f => .error f
  | .ok (_, st1) => .ok st1

/-- A `visit_op` that only records the ops it is called on, in the order of the calls. -/
def recordVisit (seen : List CompilerOp) (op : CompilerOp) :
    Except Fault (List CompilerOp × CompilerOp) :=
  .ok (seen ++ [op], op)

/-- The ops on which a backward pass calls `visit_op`, in the order of the calls. -/
def backwardVisits (st : CompilerState) : Except Fault (List CompilerOp) :=
  match BackwardPass.sweep recordVisit [] st with
  | .error f => .error f
  | .ok (seen, _) => .ok seen

/-- The order the specification gives to a backward pass: live blocks in reverse
insertion order, the live ops of a block in reverse program order. -/
def backwardOrder (st : CompilerState) : List CompilerOp :=
  ((st.bbs.reverse.filter (fun p => !(st.deref p).dead)).map
    (fun p => ((st.deref p).code.filter (fun op => !op.dead)).reverse)).flatten

/-- A program of two blocks with two ops each: `bb_0: r3 = LOAD_FAST r0; r4 = LOAD_FAST r1
-> bb_1` and `bb_1: r5 = BINARY_ADD r4, r3; RETURN_VALUE r5`. -/
def twoBlockProgram : CompilerState :=
  { heap :=
      [{ BasicBlock.new 0 0 with
          code := [add_dest_op2 LOAD_FAST 0 0 3, add_dest_op2 LOAD_FAST 0 1 4],
          exits := [some 1] },
       { BasicBlock.new 6 1 with
          code := [add_dest_op3 BINARY_ADD 0 4 3 5, add_op1 RETURN_VALUE 0 5] }],
    bbs := [0, 1], num_reg := 6, num_consts := 2, num_locals := 1, py_codestr := constAddCode }

/-- How often `r` is an input of `op`, when `op` is not dead. -/
def opWeight (r : Int) (op : CompilerOp) : Nat := if op.dead then 0 else op.inputs.count r

/-- How often `r` is an input of a live op of the block. -/
def blockUses (r : Int) (b : BasicBlock) : Nat := (b.code.map (opWeight r)).sum

/-- The use count of `r`: how often it is an input of a live op of a block of `bbs`. -/
def liveUses (st : CompilerState) (r : Int) : Nat :=
  (st.bbs.map (fun p => blockUses r (st.deref p))).sum

/-- No op of any block of `bbs` is dead. -/
def CompilerState.NoDeadOps (st : CompilerState) : Prop :=
  ∀ p ∈ st.bbs, ∀ op ∈ (st.deref p).code, op.dead = false

/-- No block of `bbs` is dead. -/
def CompilerState.NoDeadBlocks (st : CompilerState) : Prop :=
  ∀ p ∈ st.bbs, (st.deref p).dead = false

/-- The blocks of `bbs` are distinct allocated blocks. -/
def CompilerState.Distinct (st : CompilerState) : Prop := st.bbs.Nodup ∧ st.WF

/-- Op `i` of the `b`-th block of `bbs`. -/
def opAt (st : CompilerState) (b i : Nat) : Option CompilerOp :=
  (st.bbs[b]?).bind (fun p => (st.deref p).code[i]?)

/-- The ops that a backward sweep has been through when its block loop is at block `B`
and its op loop at op `K`: the op is not the last of its block, the block is not the last
of `bbs`, and the block comes after `B`, or is `B` with the op at `K` or after. -/
def SweptAt (st : CompilerState) (B K b i : Nat) : Prop :=
  (opAt st b (i + 1)).isSome ∧ b + 1 < st.bbs.length ∧ (B < b ∨ (b = B ∧ K ≤ i))

/-- What the sweep of `DeadCodeElim` keeps true, with its loops at block `B`, op `K`. -/
structure SweepInv (cfg : Config) (B K : Nat) (c : Counts) (st : CompilerState) : Prop where
  distinct : st.Distinct
  sized : st.bbs.length < 2 ^ 64 ∧ ∀ p ∈ st.bbs, (st.deref p).code.length < 2 ^ 64
  counts : ∀ r, c r = liveUses st r
  fresh : ∀ b p, b < B → st.bbs[b]? = some p → (st.deref p).visited = false
  alive : ∀ p ∈ st.bbs, (st.deref p).dead = false
  sound : ∀ b i op, opAt st b i = some op → op.dead = true →
    is_pure cfg op.code = true ∧ op.has_dest = true ∧
    ∃ d, op.regs[op.num_inputs]? = some d ∧
      ∀ b' i' o, opAt st b' i' = some o → o.dead = false → d ∉ o.inputs
  served : ∀ b i op d, opAt st b i = some op → SweptAt st B K b i → op.dead = false →
    is_pure cfg op.code = true → op.has_dest = true → 0 < op.num_inputs →
    op.regs[op.num_inputs]? = some d →
    ∃ b' i' o, opAt st b' i' = some o ∧ d ∈ o.inputs ∧
      (o.dead = false ∨ b' < b ∨ (b' = b ∧ i' < i))

/-- A program of two blocks whose first op loads into a register nobody reads:
`bb_0: r3 = LOAD_FAST r0; r4 = LOAD_FAST r1 -> bb_1` and `bb_1: RETURN_VALUE r4`. -/
def deadLoadProgram : CompilerState :=
  { heap :=
      [{ BasicBlock.new 0 0 with
          code := [add_dest_op2 LOAD_FAST 0 0 3, add_dest_op2 LOAD_FAST 0 1 4],
          exits := [some 1] },
       { BasicBlock.new 6 1 with code := [add_op1 RETURN_VALUE 0 4] }],
    bbs := [0, 1], num_reg := 5, num_consts := 2, num_locals := 1, py_codestr := constAddCode }

/-- A program of two blocks whose first op is a `LOAD_GLOBAL` (no input register) into a
register nobody reads: `bb_0: r1 = LOAD_GLOBAL; r2 = LOAD_FAST r0 -> bb_1` and
`bb_1: RETURN_VALUE r2`. -/
def unusedGlobalProgram : CompilerState :=
  { heap :=
      [{ BasicBlock.new 0 0 with
          code := [add_dest_op1 LOAD_GLOBAL 0 1, add_dest_op2 LOAD_FAST 0 0 2],
          exits := [some 1] },
       { BasicBlock.new 6 1 with code := [add_op1 RETURN_VALUE 0 2] }],
    bbs := [0, 1], num_reg := 3, num_consts := 1, num_locals := 0, py_codestr := constAddCode }

instance (st : CompilerState) : Decidable st.WF :=
  inferInstanceAs (Decidable (∀ p ∈ st.bbs, p < st.heap.length))

instance (st : CompilerState) : Decidable st.NoDeadOps :=
  inferInstanceAs (Decidable (∀ p ∈ st.bbs, ∀ op ∈ (st.deref p).code, op.dead = false))

instance (st : CompilerState) : Decidable st.NoDeadBlocks :=
  inferInstanceAs (Decidable (∀ p ∈ st.bbs, (st.deref p).dead = false))

instance (st : CompilerState) : Decidable st.Distinct :=
  inferInstanceAs (Decidable (st.bbs.Nodup ∧ st.WF))

/-! ## Block fusion -/

/-- A record of one run of the body of the `while` loop of `FuseBasicBlocks::visit_bb`
past its `break`: the block `next` is spliced into the block `bb`; `entries` is
`next->entries` at that moment. -/
structure SpliceEvent where
  into : Nat
  block : Nat
  entries : List Nat
deriving Repr, DecidableEq

/-- The three assignments of the loop body: `bb->code.insert(bb->code.end(), next->code...)`,
`next->dead = next->visited = true`, `bb->exits = next->exits`. -/
def FuseBasicBlocks.splice (st : CompilerState) (bb next : Nat) : CompilerState :=
  let st1 := st.modify bb (fun b => { b with code := b.code ++ (st.deref next).code })
  let st2 := st1.modify next (fun b => { b with dead := true, visited := true })
  st2.modify bb (fun b => { b with exits := (st2.deref next).exits })

/-- The `while (1)` loop of `FuseBasicBlocks::visit_bb`, with the list of the splices made
so far.  The error `none` says that the fuel ran out, `some f` that the run faulted; both
carry the list. -/
def FuseBasicBlocks.loop : Nat → Nat → Option Nat → List SpliceEvent → CompilerState →
    Except (Option Fault × List SpliceEvent) (List SpliceEvent × CompilerState)
  | 0, _, _, log, _ => .error (none, log)
  | _ + 1, _, none, log, _ => .error (some .nullDeref, log)
  | fuel + 1, bb, some next, log, st =>
    if 1 < (st.deref next).entries.length || (st.deref next).visited then .ok (log, st)
    else
      let ev : SpliceEvent := { into := bb, block := next, entries := (st.deref next).entries }
      let st1 := FuseBasicBlocks.splice st bb next
      match (st1.deref bb).exits with
      | [e] => FuseBasicBlocks.loop fuel bb e (log ++ [ev]) st1
      | _ => .ok (log ++ [ev], st1)

/-- The method `FuseBasicBlocks::visit_bb`. -/
def FuseBasicBlocks.visit_bb (fuel : Nat) (log : List SpliceEvent) (st : CompilerState)
    (bb : Nat) : Except (Option Fault × List SpliceEvent) (List SpliceEvent × CompilerState) :=
  if (st.deref bb).visited || (st.deref bb).dead then .ok (log, st)
  else
    match (st.deref bb).exits with
    | [next] => FuseBasicBlocks.loop fuel bb next log st
    | _ => .ok (log, st)

/-- The pass `FuseBasicBlocks()(fn)` with the list of its splices. -/
def FuseBasicBlocks.run (fuel : Nat) (st : CompilerState) :
    Except (Option Fault × List SpliceEvent) (List SpliceEvent × CompilerState) :=
  CompilerPass.visit_fn (FuseBasicBlocks.visit_bb fuel) [] st

/-- The splices of a run of the pass, whether it returns, faults, or runs out of fuel. -/
def FuseBasicBlocks.trace (fuel : Nat) (st : CompilerState) : List SpliceEvent :=
  match FuseBasicBlocks.run fuel st with
  | .ok (log, _) => log
  | .error (_, log) => log

/-- The pass `FuseBasicBlocks()(fn)`; `none` when the fuel does not suffice.  Every run of
the loop body marks a block visited that was not, so a loop runs at most once per block. -/
def FuseBasicBlocks (st : CompilerState) : Option (Except Fault CompilerState) :=
  match FuseBasicBlocks.run (st.heap.length + 1) st with
  | .ok (_, st1) => some (.ok st1)
  | .error (some f, _) => some (.error f)
  | .error (none, _) => none

/-- Every edge is recorded: a block with `q` among its exits is among the entries of `q`. -/
def CompilerState.Marked (st : CompilerState) : Prop :=
  ∀ p q, some q ∈ (st.deref p).exits → p ∈ (st.deref q).entries

/-- What `registerize` leaves: `bbs` lists every allocated block once, no block is dead or
has an entry recorded, and every exit that is not `NULL` is a block of `bbs`. -/
structure CompilerState.Fresh (st : CompilerState) : Prop where
  nodup : st.bbs.Nodup
  wf : st.WF
  all : ∀ p, p < st.heap.length → p ∈ st.bbs
  noEntries : ∀ p, (st.deref p).entries = []
  alive : ∀ p, (st.deref p).dead = false
  exitsIn : ∀ p q, some q ∈ (st.deref p).exits → q ∈ st.bbs

/-- The claim about one splice: the spliced block has exactly one recorded predecessor, which
is the block spliced into or a block spliced into it by one of the `earlier` splices. -/
def SpliceOK (earlier : List SpliceEvent) (ev : SpliceEvent) : Prop :=
  ∃ x, ev.entries = [x] ∧ (x = ev.into ∨ ∃ e ∈ earlier, e.into = ev.into ∧ e.block = x)

/-- Soundness of a list of splices, by position. -/
def LogOK (log : List SpliceEvent) : Prop :=
  ∀ i ev, log[i]? = some ev → SpliceOK (log.take i) ev

/-- What `FuseBasicBlocks` keeps true, with `s0` the state it started from, `bb` the block
whose `visit_bb` is running, and `log` the splices so far: no `entries` changes, and a block
that is not visited, other than `bb`, has the exits it started with. -/
structure FuseInv (s0 : CompilerState) (bb : Option Nat) (log : List SpliceEvent)
    (st : CompilerState) : Prop where
  len : st.heap.length = s0.heap.length
  entries : ∀ q, (st.deref q).entries = (s0.deref q).entries
  exits : ∀ q, (st.deref q).visited = false → some q ≠ bb →
    (st.deref q).exits = (s0.deref q).exits
  log : LogOK log

/-! ## Scenario inputs -/

/-- `0 SETUP_LOOP 10; 3 LOAD_FAST 0; 6 POP_TOP; 7 CONTINUE_LOOP 3; 10 LOAD_CONST 0;
13 RETURN_VALUE`. -/
def continueCode : List (Fin 256) := [120, 10, 0, 124, 0, 0, 1, 119, 3, 0, 100, 0, 0, 83]

/-- Nine `LOAD_FAST 0` and a `RETURN_VALUE`: one push more than `sampleConfig` has room for. -/
def nineLoadsCode : List (Fin 256) := (List.replicate 9 [124, 0, 0]).flatten ++ [83]

/-- The CPython 2.7 bytecode of `return a or b` (locals `a, b`):
`0 LOAD_FAST 0; 3 JUMP_IF_TRUE_OR_POP 9; 6 LOAD_FAST 1; 9 RETURN_VALUE`. -/
def orCode : List (Fin 256) := [124, 0, 0, 112, 9, 0, 124, 1, 0, 83]

/-- A stack of `sampleConfig` that holds `REG_MAX_STACK` registers. -/
def fullStack : RegisterStack :=
  { regs := [0, 1, 2, 3, 4, 5, 6, 7], stack_pos := 7, frames := List.replicate 4 ⟨0, 0⟩,
    num_frames := 0 }

/-- A stack of `sampleConfig` with the registers 4 and 5 on it, 5 on top. -/
def twoRegStack : RegisterStack :=
  { regs := [4, 5, 0, 0, 0, 0, 0, 0], stack_pos := 1, frames := List.replicate 4 ⟨0, 0⟩,
    num_frames := 0 }

/-! ## Copy propagation and store elimination -/

/-- The `std::map<Register, Register> env` of `CopyPropagation::visit_bb`. -/
abbrev RegEnv := Int → Option Int

/-- The inner loop of `CopyPropagation::visit_bb`: every input register that is a key of
`env` is replaced by its value; `regs[reg_idx]` is out of bounds when `n_inputs` wrapped. -/
def CopyPropagation.forward (env : RegEnv) (op : CompilerOp) : Except Fault CompilerOp :=
  if op.num_inputs ≤ op.regs.length then
    .ok { op with regs := op.inputs.map (fun r => (env r).getD r) ++ op.regs.drop op.num_inputs }
  else .error .outOfBounds

/-- The body of the outer loop of `CopyPropagation::visit_bb`, for one op (dead or not). -/
def CopyPropagation.visit_op (env : RegEnv) (op : CompilerOp) :
    Except Fault (RegEnv × CompilerOp) :=
  match CopyPropagation.forward env op with
  | .error f => .error f
  | .ok op1 =>
    if op1.code = LOAD_FAST ∨ op1.code = STORE_FAST ∨ op1.code = LOAD_CONST then
      match op1.regs[0]?, op1.regs[1]? with
      | some source, some target =>
        .ok (Function.update env target (some ((env source).getD source)), op1)
      | _, _ => .error .outOfBounds
    else .ok (env, op1)

/-- The outer loop of `CopyPropagation::visit_bb` over the ops of a block. -/
def CopyPropagation.loop : List CompilerOp → RegEnv → Except Fault (List CompilerOp)
  | [], _ => .ok []
  | op :: ops, env =>
    match CopyPropagation.visit_op env op with
    | .error f => .error f
    | .ok (env1, op1) =>
      match CopyPropagation.loop ops env1 with
      | .error f => .error f
      | .ok rest => .ok (op1 :: rest)

/-- The method `CopyPropagation::visit_bb`. -/
def CopyPropagation.visit_bb (_ : Unit) (st : CompilerState) (p : Nat) :
    Except Fault (Unit × CompilerState) :=
  match CopyPropagation.loop (st.deref p).code (fun _ => none) with
  | .error f => .error f
  | .ok code => .ok ((), st.modify p (fun b => { b with code := code }))

/-- The pass `CopyPropagation()(fn)`. -/
def CopyPropagation (st : CompilerState) : Except Fault CompilerState :=
  match CompilerPass.visit_fn CopyPropagation.visit_bb () st with
  | .error f => .error f
  | .ok (_, st1) => .ok st1

/-- The locals of the loop of `StoreElim::visit_bb`: `env` maps a register to the index in
the block of the op that defined it last, `target` is the variable declared before the
loop (`none` until its first assignment), `code` the ops of the block. -/
structure StoreElimState where
  env : Int → Option Nat
  target : Option Int
  code : List CompilerOp

/-- The body of the loop of `StoreElim::visit_bb` for op `i` of the block. -/
def StoreElim.visit_at (c : Counts) (s : StoreElimState) (i : Nat) :
    Except Fault StoreElimState :=
  match s.code[i]? with
  | none => .error .outOfBounds
  | some op =>
    let s1 : Except Fault StoreElimState :=
      if op.has_dest then
        match op.regs[op.num_inputs]? with
        | some t => .ok { s with env := Function.update s.env t (some i), target := some t }
        | none => .error .outOfBounds
      else .ok s
    match s1 with
    | .error f => .error f
    | .ok s1 =>
      if op.code = LOAD_FAST ∨ op.code = STORE_FAST then
        match op.regs[0]? with
        | none => .error .outOfBounds
        | some source =>
          match s1.env source with
          | some d =>
            if get_count c source = 1 then
              match s1.target, s1.code[d]? with
              | none, _ => .error .uninitialised
              | some _, none => .error .outOfBounds
              | some t, some defop =>
                if defop.num_inputs < defop.regs.length then
                  let code1 := s1.code.set d
                    { defop with regs := defop.regs.set defop.num_inputs t }
                  .ok { s1 with code := modifyAt (fun o => { o with dead := true }) i code1 }
                else .error .outOfBounds
            else .ok s1
          | none => .ok s1
      else .ok s1

/-- The method `StoreElim::visit_bb`, with the use counts `c` that `visit_fn` took. -/
def StoreElim.visit_bb (c : Counts) (_ : Unit) (st : CompilerState) (p : Nat) :
    Except Fault (Unit × CompilerState) :=
  match (List.range (st.deref p).code.length).foldlM (StoreElim.visit_at c)
      { env := fun _ => none, target := none, code := (st.deref p).code } with
  | .error f => .error f
  | .ok s => .ok ((), st.modify p (fun b => { b with code := s.code }))

/-- The pass `StoreElim()(fn)`: `count_uses`, then `CompilerPass::visit_fn`. -/
def StoreElim (st : CompilerState) : Except Fault CompilerState :=
  match count_uses st (fun _ => 0) with
  | .error f => .error f
  | .ok c =>
    match CompilerPass.visit_fn (StoreElim.visit_bb c) () st with
    | .error f => .error f
    | .ok (_, st1) => .ok st1

/-- The function `optimize`; `none` when the fuel of `FuseBasicBlocks` does not suffice. -/
def optimize (cfg : Config) (st : CompilerState) : Option (Except Fault CompilerState) :=
  match MarkEntries st with
  | .error f => some (.error f)
  | .ok st1 =>
    match FuseBasicBlocks st1 with
    | none => none
    | some (.error f) => some (.error f)
    | some (.ok st2) =>
      match CopyPropagation st2 with
      | .error f => some (.error f)
      | .ok st3 =>
        match StoreElim st3 with
        | .error f => some (.error f)
        | .ok st4 => some (DeadCodeElim cfg st4)

/-! ## Lowering -/

/-- What `rcompile.cc` takes from headers that are not part of the sources at hand: the sizes
`sizeof(RMachineOp)`, `sizeof(Register)`, `sizeof(RegisterPrelude)` and the tables
`OpUtil::is_varargs`, `OpUtil::is_branch`. -/
structure Layout where
  sizeofRMachineOp : Nat
  sizeofRegister : Nat
  sizeofRegisterPrelude : Nat
  is_varargs : Nat → Bool
  is_branch : Nat → Bool

/-- The function `RCompilerUtil::op_size`; `max(0, (int) op->regs.size() - 2)` is the
truncated subtraction. -/
def op_size (L : Layout) (op : CompilerOp) : Nat :=
  if L.is_varargs op.code then L.sizeofRMachineOp + L.sizeofRegister * (op.regs.length - 2)
  else L.sizeofRMachineOp

/-- An op in the output buffer, as `write_op` fills it: the header, the registers of its
shape (all of them for a varargs op, `reg_1, reg_2` for a branch, `reg_1, reg_2, reg_3`
otherwise), and the label, which only a branch has; the other shapes carry 0 there. -/
structure RMachineOp where
  code : Nat
  arg : Int
  regs : List Int
  label : Nat
deriving Repr, DecidableEq

/-- Modelled from the spec: the method `RMachineOp::size`, which recovers the length of an
op from its code and, for a varargs op, from the number of registers it holds;
`lower_register_code` asserts that it is `op_size` of the op that was written. -/
def RMachineOp.size (L : Layout) (op : RMachineOp) : Nat :=
  if L.is_varargs op.code then L.sizeofRMachineOp + L.sizeofRegister * (op.regs.length - 2)
  else L.sizeofRMachineOp

/-- The function `RCompilerUtil::write_op`.  A `Register` is taken wide enough for every
register, so the two assertions of the varargs case hold. -/
def write_op (L : Layout) (op : CompilerOp) : Except Fault RMachineOp :=
  if L.is_varargs op.code then
    .ok { code := op.code, arg := op.arg, regs := op.regs, label := 0 }
  else if L.is_branch op.code then
    if op.regs.length < 3 then
      .ok { code := op.code, arg := op.arg,
            regs := [(op.regs[0]?).getD (-1), (op.regs[1]?).getD (-1)], label := 0 }
    else .error .lowerAssert
  else
    if op.regs.length ≤ 3 then
      .ok { code := op.code, arg := op.arg,
            regs := [(op.regs[0]?).getD (-1), (op.regs[1]?).getD (-1), (op.regs[2]?).getD (-1)],
            label := 0 }
    else .error .lowerAssert

/-- The output buffer `out`: the ops written, each with the byte offset it starts at, and
`out->size()`. -/
structure Lowered where
  ops : List (Nat × RMachineOp)
  size : Nat
deriving Repr, DecidableEq

/-- The inner loop of the first pass of `lower_register_code`: the ops of one block are
written at the end of the buffer. -/
def lowerOps (L : Layout) : List CompilerOp → Lowered → Except Fault Lowered
  | [], out => .ok out
  | c :: cs, out =>
    if c.dead then .error .lowerAssert
    else
      match write_op L c with
      | .error f => .error f
      | .ok rop =>
        if op_size L c = rop.size L then
          lowerOps L cs { ops := out.ops ++ [(out.size, rop)], size := out.size + op_size L c }
        else .error .lowerAssert

/-- The first pass of `lower_register_code` over the blocks of `bbs`:
`bb->reg_offset = out->size()`, then the ops of the block. -/
def lowerBlocks (L : Layout) : List Nat → CompilerState → Lowered →
    Except Fault (CompilerState × Lowered)
  | [], st, out => .ok (st, out)
  | p :: ps, st, out =>
    if (st.deref p).dead then .error .lowerAssert
    else
      match lowerOps L (st.deref p).code out with
      | .error f => .error f
      | .ok out1 =>
        lowerBlocks L ps (st.modify p (fun b => { b with reg_offset := out.size })) out1

/-- The op of the buffer that starts at byte `pos`. -/
def Lowered.opAt (out : Lowered) (pos : Nat) : Option RMachineOp :=
  (out.ops.find? (fun x => x.1 = pos)).map (fun x => x.2)

/-- The assignment `op->branch.label = label` to the op that starts at byte `pos`. -/
def Lowered.setLabel (out : Lowered) (pos label : Nat) : Lowered :=
  { out with ops := out.ops.map (fun x => if x.1 = pos then (x.1, { x.2 with label := label })
      else x) }

/-- The inner loop of the second pass ("skip to the end of the basic block"): the cursor
`pos` after the ops of the block and the pointer `op`, as a byte offset (`none` is `NULL`). -/
def skipOps (L : Layout) (out : Lowered) :
    List CompilerOp → Nat → Option Nat → Except Fault (Nat × Option Nat)
  | [], pos, op => .ok (pos, op)
  | c :: cs, pos, _ =>
    match out.opAt pos with
    | none => .error .outOfBounds
    | some rop =>
      if rop.code = c.code ∧ rop.arg = c.arg then
        skipOps L out cs (pos + rop.size L) (some pos)
      else .error .lowerAssert

/-- The block a pointer of `exits` points to; the fault of `*bb->exits[k]`. -/
def exitAt (st : CompilerState) (bb k : Nat) : Except Fault Nat :=
  match (st.deref bb).exits[k]? with
  | none => .error .outOfBounds
  | some none => .error .nullDeref
  | some (some j) => .ok j

/-- The block whose `reg_offset` becomes the label of the last op of `bbs[i]`: the exit when
there is one, else the one of `exits[0]`, `exits[1]` that is not `bbs[i + 1]`. -/
def jumpTarget (st : CompilerState) (i bb : Nat) : Except Fault Nat :=
  if (st.deref bb).exits.length = 1 then exitAt st bb 0
  else
    match exitAt st bb 0 with
    | .error f => .error f
    | .ok a =>
      match exitAt st bb 1 with
      | .error f => .error f
      | .ok b =>
        match st.bbs[i + 1]? with
        | none => .error .outOfBounds
        | some fallthrough =>
          if (st.deref fallthrough).idx = (st.deref a).idx ∨
              (st.deref fallthrough).idx = (st.deref b).idx then
            .ok (if (st.deref a).idx = (st.deref fallthrough).idx then b else a)
          else .error .lowerAssert

/-- The body of the outer loop of the second pass, for block `bb = bbs[i]`. -/
def patchBlock (L : Layout) (st : CompilerState) (s : Lowered × Nat) (i bb : Nat) :
    Except Fault (Lowered × Nat) :=
  match skipOps L s.1 (st.deref bb).code s.2 none with
  | .error f => .error f
  | .ok (_, none) => .error .nullDeref
  | .ok (pos1, some o) =>
    match s.1.opAt o with
    | none => .error .outOfBounds
    | some rop =>
      if L.is_branch rop.code ∧ rop.code ≠ RETURN_VALUE then
        match jumpTarget st i bb with
        | .error f => .error f
        | .ok jmp =>
          if 0 < (st.deref jmp).reg_offset then
            .ok (s.1.setLabel o (st.deref jmp).reg_offset, pos1)
          else .error .lowerAssert
      else .ok (s.1, pos1)

/-- The second pass of `lower_register_code`, from block `i` of `bbs` on. -/
def patchBlocks (L : Layout) (st : CompilerState) :
    List Nat → Nat → Lowered × Nat → Except Fault (Lowered × Nat)
  | [], _, s => .ok s
  | bb :: bbs, i, s =>
    match patchBlock L st s i bb with
    | .error f => .error f
    | .ok s1 => patchBlocks L st bbs (i + 1) s1

/-- The function `lower_register_code`: the state, with the `reg_offset` of the blocks set,
and the buffer.  Of the prelude only its size is kept. -/
def lower_register_code (L : Layout) (st : CompilerState) :
    Except Fault (CompilerState × Lowered) :=
  match lowerBlocks L st.bbs st { ops := [], size := L.sizeofRegisterPrelude } with
  | .error f => .error f
  | .ok (st1, out) =>
    match patchBlocks L st1 st1.bbs 0 (out, L.sizeofRegisterPrelude) with
    | .error f => .error f
    | .ok (out1, _) => .ok (st1, out1)

/-- The bytes the ops of block `p` take in the buffer. -/
def codeSize (L : Layout) (st : CompilerState) (p : Nat) : Nat :=
  ((st.deref p).code.map (op_size L)).sum

/-- The bytes the ops of the blocks `ps` take in the buffer. -/
def blocksSize (L : Layout) (st : CompilerState) (ps : List Nat) : Nat :=
  (ps.map (codeSize L st)).sum

/-- A layout for the examples: 16 bytes for an op with room for two registers, 4 bytes for
a register, 12 bytes for the prelude; the sequence builders and calls are varargs ops, the
jumps and `RETURN_VALUE` branch ops. -/
def sampleLayout : Layout :=
  { sizeofRMachineOp := 16, sizeofRegister := 4, sizeofRegisterPrelude := 12,
    is_varargs := fun op => decide (op ∈ [BUILD_TUPLE, BUILD_LIST, BUILD_SET, CALL_FUNCTION,
      CALL_FUNCTION_VAR, CALL_FUNCTION_KW, CALL_FUNCTION_VAR_KW]),
    is_branch := fun op => decide (op ∈ [FOR_ITER, JUMP_FORWARD, JUMP_IF_FALSE_OR_POP,
      JUMP_IF_TRUE_OR_POP, JUMP_ABSOLUTE, POP_JUMP_IF_FALSE, POP_JUMP_IF_TRUE, BREAK_LOOP,
      CONTINUE_LOOP, RETURN_VALUE]) }

/-- The program `optimize` leaves of `if a: return c0` / `return c1`:
`bb_0: POP_JUMP_IF_FALSE r2 -> bb_1, bb_2`, `bb_1: RETURN_VALUE r0` and
`bb_2: r5 = LOAD_FAST r1; RETURN_VALUE r1`. -/
def branchProgram : CompilerState :=
  { heap :=
      [{ BasicBlock.new 0 0 with
          code := [add_op1 POP_JUMP_IF_FALSE 10 2], exits := [some 1, some 2] },
       { BasicBlock.new 6 1 with code := [add_op1 RETURN_VALUE 0 0], entries := [0] },
       { BasicBlock.new 10 2 with
          code := [add_dest_op2 LOAD_FAST 0 1 5, add_op1 RETURN_VALUE 0 1], entries := [0] }],
    bbs := [0, 1, 2], num_reg := 6, num_consts := 2, num_locals := 1, py_codestr := [] }

/-- The program `branchProgram` after the first pass of the lowering with `sampleLayout`. -/
def branchLaid : CompilerState :=
  { heap :=
      [{ BasicBlock.new 0 0 with
          reg_offset := 12, code := [add_op1 POP_JUMP_IF_FALSE 10 2], exits := [some 1, some 2] },
       { BasicBlock.new 6 1 with
          reg_offset := 28, code := [add_op1 RETURN_VALUE 0 0], entries := [0] },
       { BasicBlock.new 10 2 with
          reg_offset := 44, code := [add_dest_op2 LOAD_FAST 0 1 5, add_op1 RETURN_VALUE 0 1],
          entries := [0] }],
    bbs := [0, 1, 2], num_reg := 6, num_consts := 2, num_locals := 1, py_codestr := [] }

/-- The buffer of `branchProgram` after the first pass of the lowering with `sampleLayout`. -/
def branchBuffer : Lowered :=
  { ops := [(12, { code := POP_JUMP_IF_FALSE, arg := 10, regs := [2, -1], label := 0 }),
            (28, { code := RETURN_VALUE, arg := 0, regs := [0, -1], label := 0 }),
            (44, { code := LOAD_FAST, arg := 0, regs := [1, 5, -1], label := 0 }),
            (60, { code := RETURN_VALUE, arg := 0, regs := [1, -1], label := 0 })],
    size := 76 }

/-- The CPython 2.7 bytecode of `if a: x = 1` / `else: return 2` / `return x` (locals `a, x`,
constants `None, 1, 2`): `0 LOAD_FAST 0; 3 POP_JUMP_IF_FALSE 15; 6 LOAD_CONST 1;
9 STORE_FAST 1; 12 JUMP_FORWARD 4; 15 LOAD_CONST 2; 18 RETURN_VALUE; 19 LOAD_FAST 1;
22 RETURN_VALUE`. -/
def ifElseJoinCode : List (Fin 256) :=
  [124, 0, 0, 114, 15, 0, 100, 1, 0, 125, 1, 0, 110, 4, 0, 100, 2, 0, 83, 124, 1, 0, 83]

/-! ## The drivers -/

instance instDecidableEqExcept {ε α : Type} [DecidableEq ε] [DecidableEq α] :
    DecidableEq (Except ε α) :=
  fun a b =>
    match a, b with
    | .ok x, .ok y =>
      if h : x = y then isTrue (by rw [h]) else isFalse (fun hc => h (Except.ok.inj hc))
    | .error x, .error y =>
      if h : x = y then isTrue (by rw [h]) else isFalse (fun hc => h (Except.error.inj hc))
    | .ok _, .error _ => isFalse (fun hc => by cases hc)
    | .error _, .ok _ => isFalse (fun hc => by cases hc)

/-- The function `compileRegCode`: `optimize`, then `lower_register_code`; the state and
the buffer stand for the string it returns. -/
def compileRegCode (cfg : Config) (L : Layout) (st : CompilerState) :
    Option (Except Fault (CompilerState × Lowered)) :=
  match optimize cfg st with
  | none => none
  | some (.error f) => some (.error f)
  | some (.ok st1) => some (lower_register_code L st1)

/-- The function `compileByteCode`, for the code object `(code, num_consts, num_locals)`;
`stack` is the `RegisterStack stack` it declares; `.ok none` is the return of `NULL` after a
failed `registerize`. -/
def compileByteCode (cfg : Config) (L : Layout) (stack : RegisterStack) (code : List (Fin 256))
    (num_consts num_locals : Nat) : Option (Except Fault (Option (CompilerState × Lowered))) :=
  match registerize cfg (CompilerState.ofCode code num_consts num_locals) stack 0 with
  | none => none
  | some (.error f) => some (.error f)
  | some (.ok (none, _, _)) => some (.ok none)
  | some (.ok (some _, st, _)) =>
    match compileRegCode cfg L st with
    | none => none
    | some (.error f) => some (.error f)
    | some (.ok r) => some (.ok (some r))

/-- The state `optimize` leaves when it runs on what `registerize(state, stack, 0)` leaves for
the code object `(code, num_consts, num_locals)`; `none` also when `registerize` does not
return a block. -/
def optimizeFrom (cfg : Config) (stack : RegisterStack) (code : List (Fin 256))
    (num_consts num_locals : Nat) : Option (Except Fault CompilerState) :=
  match registerize cfg (CompilerState.ofCode code num_consts num_locals) stack 0 with
  | some (.ok (some _, st, _)) => optimize cfg st
  | _ => none

/-- `LOAD_CONST 0; POP_TOP; RETURN_VALUE`. -/
def popTopCode : List (Fin 256) := [100, 0, 0, 1, 83]

/-- A stack of `sampleConfig` that holds one register, the local 1. -/
def oneRegStack : RegisterStack :=
  { regs := [1, 0, 0, 0, 0, 0, 0, 0], stack_pos := 0, frames := List.replicate 4 ⟨0, 0⟩,
    num_frames := 0 }

/-- The CPython 2.7 bytecode of `return a[:b]`: `LOAD_FAST 0; LOAD_FAST 1; SLICE+2;
RETURN_VALUE`. -/
def sliceStopCode : List (Fin 256) := [124, 0, 0, 124, 1, 0, 32, 83]

/-- The CPython 2.7 bytecode of `return a[b:c]`: `LOAD_FAST 0; LOAD_FAST 1; LOAD_FAST 2;
SLICE+3; RETURN_VALUE`. -/
def sliceBothCode : List (Fin 256) := [124, 0, 0, 124, 1, 0, 124, 2, 0, 33, 83]

/-- The CPython 2.7 bytecode of `del a[:]`: `LOAD_FAST 0; DELETE_SLICE+0; LOAD_CONST 0;
RETURN_VALUE`. -/
def deleteSliceCode : List (Fin 256) := [124, 0, 0, 50, 100, 0, 0, 83]

/-- The single instruction `JUMP_ABSOLUTE 0`. -/
def selfLoopCode : List (Fin 256) := [113, 0, 0]

/-- `0 LOAD_FAST 0; 3 LOAD_FAST 0; 6 POP_JUMP_IF_FALSE 10; 9 DUP_TOP; 10 RETURN_VALUE`: the
block of `DUP_TOP` has no op, and neither its predecessor nor its successor fuses with it. -/
def emptyBlockCode : List (Fin 256) := [124, 0, 0, 124, 0, 0, 114, 10, 0, 4, 83]

/-- The passes of `optimize` before `DeadCodeElim`, run on what `registerize(state, stack, 0)`
leaves. -/
def beforeDeadCodeElim (cfg : Config) (stack : RegisterStack) (code : List (Fin 256))
    (num_consts num_locals : Nat) : Option (Except Fault CompilerState) :=
  match registerize cfg (CompilerState.ofCode code num_consts num_locals) stack 0 with
  | some (.ok (some _, st, _)) =>
    match MarkEntries st with
    | .error f => some (.error f)
    | .ok st1 =>
      match FuseBasicBlocks st1 with
      | none => none
      | some (.error f) => some (.error f)
      | some (.ok st2) =>
        match CopyPropagation st2 with
        | .error f => some (.error f)
        | .ok st3 => some (StoreElim st3)
  | _ => none

/-! ## The reference interpretation of a block -/

/-- A store: the value of every register. -/
abbrev Store := Int → Int

/-- The interpretation of one op that the claims on `CopyPropagation` and `StoreElim` give:
`LOAD_FAST` and `STORE_FAST` copy `regs[0]` to `regs[1]`, every other op with a destination
writes the value `f code arg inputs` there, every other op leaves the store alone; so does
an op that is marked dead. -/
def specEvalOp (f : Nat → Int → List Int → Int) (σ : Store) (op : CompilerOp) : Store :=
  if op.dead then σ
  else if op.code = LOAD_FAST ∨ op.code = STORE_FAST then
    match op.regs[0]?, op.regs[1]? with
    | some s, some t => Function.update σ t (σ s)
    | _, _ => σ
  else if op.has_dest then
    match op.regs[op.num_inputs]? with
    | some d => Function.update σ d (f op.code op.arg (op.inputs.map σ))
    | none => σ
  else σ

/-- The interpretation of the ops of a block, in program order. -/
def specEvalBlock (f : Nat → Int → List Int → Int) (σ : Store) (code : List CompilerOp) :
    Store :=
  code.foldl (specEvalOp f) σ

/-- A function for the ops that are no moves: 100 plus the sum of the input values. -/
def sampleFun (_ : Nat) (_ : Int) (vals : List Int) : Int := 100 + vals.sum

/-- The passes `MarkEntries` and `FuseBasicBlocks`, run on what `registerize(state, stack, 0)`
leaves. -/
def fusedFrom (cfg : Config) (stack : RegisterStack) (code : List (Fin 256))
    (num_consts num_locals : Nat) : Option (Except Fault CompilerState) :=
  match registerize cfg (CompilerState.ofCode code num_consts num_locals) stack 0 with
  | some (.ok (some _, st, _)) =>
    match MarkEntries st with
    | .error f => some (.error f)
    | .ok st1 => FuseBasicBlocks st1
  | _ => none

/-- The CPython 2.7 bytecode of `a, b = b, a` (constant `None`, locals `a, b`):
`LOAD_FAST 1; LOAD_FAST 0; ROT_TWO; STORE_FAST 0; STORE_FAST 1; LOAD_CONST 0;
RETURN_VALUE`. -/
def swapCode : List (Fin 256) :=
  [124, 1, 0, 124, 0, 0, 2, 125, 0, 0, 125, 1, 0, 100, 0, 0, 83]

/-- The CPython 2.7 bytecode of `y, z = a + b, y` (constant `None`, locals `a, b, y, z`):
`LOAD_FAST 0; LOAD_FAST 1; BINARY_ADD; LOAD_FAST 2; ROT_TWO; STORE_FAST 2; STORE_FAST 3;
LOAD_CONST 0; RETURN_VALUE`. -/
def pairAssignCode : List (Fin 256) :=
  [124, 0, 0, 124, 1, 0, 23, 124, 2, 0, 2, 125, 2, 0, 125, 3, 0, 100, 0, 0, 83]

/-- The registers on the stack, bottom first: `regs[0 .. stack_pos]` is `l`, and every one
of them passes the `assert(reg >= -1)` of `pop_register`. -/
def RegisterStack.Holds (s : RegisterStack) (l : List Int) : Prop :=
  s.stack_pos + 1 = l.length ∧ l <+: s.regs ∧ ∀ r ∈ l, -1 ≤ r

/-- `0 FOR_ITER 1; 3 RETURN_VALUE; 4 RETURN_VALUE`: the two exits of the `FOR_ITER` return. -/
def forIterCode : List (Fin 256) := [93, 1, 0, 83, 83]

/-- The CPython 2.7 bytecode of `y = z = a + b; if a: return y; return b` (constant `None`,
locals `a, b, y, z`): `0 LOAD_FAST 0; 3 LOAD_FAST 1; 6 BINARY_ADD; 7 DUP_TOP; 8 STORE_FAST 2;
11 STORE_FAST 3; 14 LOAD_FAST 0; 17 POP_JUMP_IF_FALSE 24; 20 LOAD_FAST 2; 23 RETURN_VALUE;
24 LOAD_FAST 1; 27 RETURN_VALUE`. -/
def chainAssignCode : List (Fin 256) :=
  [124, 0, 0, 124, 1, 0, 23, 4, 125, 2, 0, 125, 3, 0, 124, 0, 0, 114, 24, 0, 124, 2, 0, 83,
   124, 1, 0, 83]

/-- A second call of `optimize`, on the state a first call left. -/
def optimizeAgain (cfg : Config) (r : Option (Except Fault CompilerState)) :
    Option (Except Fault CompilerState) :=
  match r with
  | some (.ok s) => optimize cfg s
  | x => x

/-- What a block lists: its ops as opcode and registers, and its exits. -/
def CompilerState.listing (st : CompilerState) (p : Nat) :
    List (Nat × List Int) × List (Option Nat) :=
  ((st.deref p).code.map (fun op => (op.code, op.regs)), (st.deref p).exits)

/-- Two states with the same flow graph: the same list `bbs`, and for every block the same
exits, entries and `dead` flag. -/
def SameFlow (a b : CompilerState) : Prop :=
  b.heap.length = a.heap.length ∧ b.bbs = a.bbs ∧
  ∀ q, (b.deref q).exits = (a.deref q).exits ∧ (b.deref q).entries = (a.deref q).entries ∧
    (b.deref q).dead = (a.deref q).dead

/-- The state `b` is the state `a` up to the ops and the `visited` flags of the blocks, with
the dead blocks gone from `bbs`. -/
def Pruned (a b : CompilerState) : Prop :=
  b.heap.length = a.heap.length ∧ b.bbs = a.bbs.filter (fun p => !(a.deref p).dead) ∧
  ∀ q, (b.deref q).exits = (a.deref q).exits ∧ (b.deref q).entries = (a.deref q).entries ∧
    (b.deref q).dead = (a.deref q).dead

/-- Every block that is an exit of a block has an entry recorded. -/
def CompilerState.Entered (st : CompilerState) : Prop :=
  ∀ p q, some q ∈ (st.deref p).exits → (st.deref q).entries ≠ []

/-- The state a call that returned has left. -/
def leftBy (r : Option (Except Fault CompilerState)) : CompilerState :=
  match r with
  | some (.ok s) => s
  | _ => CompilerState.ofCode [] 0 0

/-- `0 LOAD_FAST 0; 3 LOAD_FAST 0; 6 UNPACK_SEQUENCE 8; 9 RETURN_VALUE`: eight targets are
unpacked with one more register on the stack below the sequence. -/
def unpackEightCode : List (Fin 256) := [124, 0, 0, 124, 0, 0, 92, 8, 0, 83]

/-- The CPython 2.7 bytecode of `y = g; if a: return 1; return 2` (constants `None, 1, 2`,
locals `a, y`, global `g`): `0 LOAD_GLOBAL 0; 3 STORE_FAST 1; 6 LOAD_FAST 0;
9 POP_JUMP_IF_FALSE 16; 12 LOAD_CONST 1; 15 RETURN_VALUE; 16 LOAD_CONST 2;
19 RETURN_VALUE`. -/
def unusedGlobalCode : List (Fin 256) :=
  [116, 0, 0, 125, 1, 0, 124, 0, 0, 114, 16, 0, 100, 1, 0, 83, 100, 2, 0, 83]

/-- The CPython 2.7 bytecode of `b = a; return 1` (constants `None, 1`, locals `a, b`):
`0 LOAD_FAST 0; 3 STORE_FAST 1; 6 LOAD_CONST 1; 9 RETURN_VALUE`. -/
def deadCopyCode : List (Fin 256) := [124, 0, 0, 125, 1, 0, 100, 1, 0, 83]

/-! # Theorems -/

/-! ## Lists as arrays -/

theorem modifyAt_length {α : Type} (f : α → α) : ∀ (i : Nat) (xs : List α),
    (modifyAt f i xs).length = xs.length
  | _, [] => by simp [modifyAt]
  | 0, _ :: _ => rfl
  | i + 1, x :: xs => by simp [modifyAt, modifyAt_length f i xs]

theorem getElem?_modifyAt {α : Type} (f : α → α) : ∀ (i j : Nat) (xs : List α),
    (modifyAt f i xs)[j]? = if j = i then (xs[j]?).map f else xs[j]?
  | _, _, [] => by simp [modifyAt]
  | 0, 0, _ :: _ => by simp [modifyAt]
  | 0, j + 1, _ :: _ => by simp [modifyAt]
  | i + 1, 0, _ :: _ => by simp [modifyAt]
  | i + 1, j + 1, _ :: xs => by simp [modifyAt, getElem?_modifyAt f i j xs]

/-! ## The primitive state updates -/

@[simp] theorem push_exit_bbs (st : CompilerState) (b : Nat) (e : Option Nat) :
    (st.push_exit b e).bbs = st.bbs := rfl
@[simp] theorem push_exit_num_reg (st : CompilerState) (b : Nat) (e : Option Nat) :
    (st.push_exit b e).num_reg = st.num_reg := rfl
@[simp] theorem push_exit_num_consts (st : CompilerState) (b : Nat) (e : Option Nat) :
    (st.push_exit b e).num_consts = st.num_consts := rfl
@[simp] theorem push_exit_num_locals (st : CompilerState) (b : Nat) (e : Option Nat) :
    (st.push_exit b e).num_locals = st.num_locals := rfl
@[simp] theorem push_exit_codestr (st : CompilerState) (b : Nat) (e : Option Nat) :
    (st.push_exit b e).py_codestr = st.py_codestr := rfl
@[simp] theorem push_exit_codelen (st : CompilerState) (b : Nat) (e : Option Nat) :
    (st.push_exit b e).py_codelen = st.py_codelen := rfl
@[simp] theorem push_exit_heap_length (st : CompilerState) (b : Nat) (e : Option Nat) :
    (st.push_exit b e).heap.length = st.heap.length := by
  simp [CompilerState.push_exit, modifyAt_length]

theorem deref_push_exit (st : CompilerState) (b : Nat) (e : Option Nat) (p : Nat) :
    (st.push_exit b e).deref p =
      if p = b ∧ b < st.heap.length then
        { st.deref p with exits := (st.deref p).exits ++ [e] }
      else st.deref p := by
  simp only [CompilerState.push_exit, CompilerState.deref, getElem?_modifyAt]
  by_cases h : p = b
  · subst h
    by_cases h2 : p < st.heap.length
    · simp [h2, List.getElem?_eq_getElem]
    · simp [h2, List.getElem?_eq_none (Nat.le_of_not_lt h2)]
  · simp [h]

@[simp] theorem emit_bbs (st : CompilerState) (b : Nat) (e : Emit) :
    (st.emit b e).bbs = st.bbs := rfl
@[simp] theorem emit_codestr (st : CompilerState) (b : Nat) (e : Emit) :
    (st.emit b e).py_codestr = st.py_codestr := rfl
@[simp] theorem emit_codelen (st : CompilerState) (b : Nat) (e : Emit) :
    (st.emit b e).py_codelen = st.py_codelen := rfl
@[simp] theorem emit_heap_length (st : CompilerState) (b : Nat) (e : Emit) :
    (st.emit b e).heap.length = st.heap.length := by
  simp [CompilerState.emit, CompilerState.add_ops, modifyAt_length]

theorem deref_emit (st : CompilerState) (b : Nat) (e : Emit) (p : Nat) :
    (st.emit b e).deref p =
      if p = b ∧ b < st.heap.length then
        { st.deref p with code := (st.deref p).code ++ e.ops }
      else st.deref p := by
  simp only [CompilerState.emit, CompilerState.add_ops, CompilerState.deref, getElem?_modifyAt]
  by_cases h : p = b
  · subst h
    by_cases h2 : p < st.heap.length
    · simp [h2, List.getElem?_eq_getElem]
    · simp [h2, List.getElem?_eq_none (Nat.le_of_not_lt h2)]
  · simp [h]

@[simp] theorem alloc_bb_fst (st : CompilerState) (offset : Int) :
    (st.alloc_bb offset).1 = st.heap.length := rfl
@[simp] theorem alloc_bb_bbs (st : CompilerState) (offset : Int) :
    (st.alloc_bb offset).2.bbs = st.bbs ++ [st.heap.length] := rfl
@[simp] theorem alloc_bb_heap (st : CompilerState) (offset : Int) :
    (st.alloc_bb offset).2.heap = st.heap ++ [BasicBlock.new offset st.bbs.length] := rfl
@[simp] theorem alloc_bb_num_reg (st : CompilerState) (offset : Int) :
    (st.alloc_bb offset).2.num_reg = st.num_reg := rfl
@[simp] theorem alloc_bb_num_consts (st : CompilerState) (offset : Int) :
    (st.alloc_bb offset).2.num_consts = st.num_consts := rfl
@[simp] theorem alloc_bb_num_locals (st : CompilerState) (offset : Int) :
    (st.alloc_bb offset).2.num_locals = st.num_locals := rfl
@[simp] theorem alloc_bb_codestr (st : CompilerState) (offset : Int) :
    (st.alloc_bb offset).2.py_codestr = st.py_codestr := rfl
@[simp] theorem alloc_bb_codelen (st : CompilerState) (offset : Int) :
    (st.alloc_bb offset).2.py_codelen = st.py_codelen := rfl

theorem deref_alloc_bb (st : CompilerState) (offset : Int) (p : Nat) :
    (st.alloc_bb offset).2.deref p =
      if p < st.heap.length then st.deref p
      else if p = st.heap.length then BasicBlock.new offset st.bbs.length
      else default := by
  simp only [CompilerState.deref, alloc_bb_heap]
  by_cases h : p < st.heap.length
  · simp [h, List.getElem?_append_left]
  · simp only [h, if_false]
    by_cases h2 : p = st.heap.length
    · subst h2; simp
    · have : st.heap.length + 1 ≤ p := by omega
      simp [h2, List.getElem?_eq_none, this]

@[simp] theorem start_block_fst (st : CompilerState) (offset : Int) (last : Option Nat) :
    (st.start_block offset last).1 = st.heap.length := by
  cases last <;> rfl
@[simp] theorem start_block_bbs (st : CompilerState) (offset : Int) (last : Option Nat) :
    (st.start_block offset last).2.bbs = st.bbs ++ [st.heap.length] := by
  cases last <;> rfl
@[simp] theorem start_block_heap_length (st : CompilerState) (offset : Int) (last : Option Nat) :
    (st.start_block offset last).2.heap.length = st.heap.length + 1 := by
  cases last <;> simp [CompilerState.start_block]
@[simp] theorem start_block_num_reg (st : CompilerState) (offset : Int) (last : Option Nat) :
    (st.start_block offset last).2.num_reg = st.num_reg := by
  cases last <;> rfl
@[simp] theorem start_block_num_consts (st : CompilerState) (offset : Int) (last : Option Nat) :
    (st.start_block offset last).2.num_consts = st.num_consts := by
  cases last <;> rfl
@[simp] theorem start_block_codestr (st : CompilerState) (offset : Int) (last : Option Nat) :
    (st.start_block offset last).2.py_codestr = st.py_codestr := by
  cases last <;> rfl
@[simp] theorem start_block_codelen (st : CompilerState) (offset : Int) (last : Option Nat) :
    (st.start_block offset last).2.py_codelen = st.py_codelen := by
  cases last <;> rfl

theorem deref_start_block_new (st : CompilerState) (offset : Int) (last : Option Nat)
    (h : ∀ l, last = some l → l < st.heap.length) :
    (st.start_block offset last).2.deref st.heap.length = BasicBlock.new offset st.bbs.length := by
  cases last with
  | none => simp [CompilerState.start_block, deref_alloc_bb]
  | some l =>
    have hl := h l rfl
    have : ¬ (st.heap.length = l) := by omega
    simp [CompilerState.start_block, deref_push_exit, deref_alloc_bb, this]

theorem deref_start_block_old (st : CompilerState) (offset : Int) (last : Option Nat) (p : Nat)
    (hp : p < st.heap.length) :
    (st.start_block offset last).2.deref p =
      if last = some p then
        { st.deref p with exits := (st.deref p).exits ++ [some st.heap.length] }
      else st.deref p := by
  cases last with
  | none => simp [CompilerState.start_block, deref_alloc_bb, hp]
  | some l =>
    by_cases h : p = l
    · subst h
      simp [CompilerState.start_block, deref_push_exit, deref_alloc_bb, hp]
      omega
    · have : ¬ (l = p) := fun h2 => h h2.symm
      simp [CompilerState.start_block, deref_push_exit, deref_alloc_bb, hp, h, this]

theorem find_bb_mem (st : CompilerState) (offset : Int) (old : Nat)
    (h : st.find_bb offset = some old) : old ∈ st.bbs ∧ (st.deref old).py_offset = offset := by
  unfold CompilerState.find_bb at h
  exact ⟨List.mem_of_find?_eq_some h, by simpa using List.find?_some h⟩

theorem Grows.refl (last : Option Nat) (st : CompilerState) (h : st.WF) : Grows last st st :=
  ⟨h, Nat.le_refl _, fun _ hp => hp, fun _ _ _ => rfl⟩

theorem Grows.trans {l1 l2 : Option Nat} {a b c : CompilerState} (h1 : Grows l1 a b)
    (h2 : Grows l2 b c) (hl : ∀ p, p < a.heap.length → l1 ≠ some p → l2 ≠ some p) :
    Grows l1 a c :=
  ⟨h2.wf, Nat.le_trans h1.len h2.len, fun p hp => h2.bbs p (h1.bbs p hp),
   fun p hp hne => by
    rw [h2.exits p (Nat.lt_of_lt_of_le hp h1.len) (hl p hp hne), h1.exits p hp hne]⟩

theorem Grows.push_exit (st : CompilerState) (b : Nat) (e : Option Nat) (h : st.WF) :
    Grows (some b) st (st.push_exit b e) :=
  ⟨fun p hp => by simpa using h p hp, by simp, fun _ hp => hp, fun p _ hne => by
    have : ¬ (p = b) := fun h2 => hne (by rw [h2])
    simp [deref_push_exit, this]⟩

theorem Grows.block (st : CompilerState) (offset : Int) (last : Option Nat) (e : Emit)
    (h : st.WF) :
    Grows last st ((st.start_block offset last).2.emit st.heap.length e) :=
  ⟨fun p hp => by
      simp only [emit_bbs, start_block_bbs, List.mem_append, List.mem_singleton] at hp
      simp only [emit_heap_length, start_block_heap_length]
      rcases hp with hp | hp
      · exact Nat.lt_succ_of_lt (h p hp)
      · omega,
   by simp,
   fun p hp => by simp [hp],
   fun p hp hne => by
    have h1 : ¬ (p = st.heap.length) := by omega
    have h2 : ¬ (last = some p) := hne
    simp [deref_emit, h1, deref_start_block_old, hp, h2]⟩

theorem Grows.weaken {l : Option Nat} {a b : CompilerState} (h : Grows none a b) : Grows l a b :=
  ⟨h.wf, h.len, h.bbs, fun p hp _ => h.exits p hp (by simp)⟩

theorem registerizeLoop_inv (cfg : Config)
    (Q : CompilerState → RegisterStack → Prop) (R : CompilerState → CompilerState → Prop)
    (R_refl : ∀ st, R st st) (R_trans : ∀ a b c, R a b → R b c → R a c)
    (h_fold : ∀ st s opcode s1, Q st s → foldStack cfg opcode s = some (.ok s1) → Q st s1)
    (h_exit : ∀ st s b e, Q st s → st.WF → b ∈ st.bbs → (∀ p, e = some p → p ∈ st.bbs) →
        Q (st.push_exit b e) s ∧ R st (st.push_exit b e))
    (h_block : ∀ st s offset last opcode oparg e, Q st s → st.WF → st.find_bb offset = none →
        (∀ l, last = some l → l ∈ st.bbs) →
        fetch st offset = .ok (opcode, oparg) →
        dispatch cfg st.num_consts st.py_codelen st.num_reg s opcode oparg offset = .ok e →
        Q ((st.start_block offset last).2.emit st.heap.length e) e.stack ∧
        R st ((st.start_block offset last).2.emit st.heap.length e) ∧
        (∀ s1 t1 s2 t2 f, e.ctl = .fork s1 t1 s2 t2 f →
          Q ((st.start_block offset last).2.emit st.heap.length e) s1 ∧
          Q ((st.start_block offset last).2.emit st.heap.length e) s2))
    (h_frame : ∀ st st' s s', Q st s → Q st' s' → R st st' → Q st' s) :
    ∀ (fuel : Nat) (st : CompilerState) (stack : RegisterStack) (offset : Int)
      (ep last : Option Nat) (r : Option Nat) (st' : CompilerState) (stack' : RegisterStack),
      Q st stack → st.WF → (∀ p, ep = some p → p ∈ st.bbs) → (∀ p, last = some p → p ∈ st.bbs) →
      registerizeLoop cfg fuel st stack offset ep last = some (.ok (r, st', stack')) →
      Q st' stack' ∧ R st st' ∧ Grows last st st' ∧ (∀ p, r = some p → p ∈ st'.bbs) := by
  intro fuel
  induction fuel with
  | zero => intro st stack offset ep last r st' stack' _ _ _ _ h; simp [registerizeLoop] at h
  | succ n ih =>
    have sub : ∀ (st : CompilerState) (stack : RegisterStack) (t : Int) (r : Option Nat)
        (st' : CompilerState) (stack' : RegisterStack), Q st stack → st.WF →
        enterWith (registerizeLoop cfg n) st stack t = some (.ok (r, st', stack')) →
        Q st' stack' ∧ R st st' ∧ Grows none st st' ∧ (∀ p, r = some p → p ∈ st'.bbs) := by
      intro st stack t r st' stack' hQ hW h
      unfold enterWith at h
      split at h
      · rename_i old hfind
        simp only [Option.some.injEq, Except.ok.injEq, Prod.mk.injEq] at h
        obtain ⟨h1, h2, h3⟩ := h
        subst h1 h2 h3
        exact ⟨hQ, R_refl _, Grows.refl _ _ hW, fun p hp => by
          cases hp; exact (find_bb_mem _ _ _ hfind).1⟩
      · exact ih _ _ _ _ _ _ _ _ hQ hW (by simp) (by simp) h
    intro st stack offset ep last r st' stack' hQ hW hep hlast h
    unfold registerizeLoop at h
    split at h
    · split at h
      · simp at h
      · rename_i opcode oparg hfetch
        split at h
        · simp at h
        · rename_i stack1 hfold
          exact ih _ _ _ _ _ _ _ _ (h_fold _ _ _ _ hQ hfold) hW hep hlast h
        · rename_i hfold
          split at h
          · rename_i old hfind
            split at h
            · rename_i ep0 l
              simp only [Option.some.injEq, Except.ok.injEq, Prod.mk.injEq] at h
              obtain ⟨h1, h2, h3⟩ := h
              subst h1 h2 h3
              have hold := (find_bb_mem _ _ _ hfind).1
              have hx := h_exit st stack l (some old) hQ hW (hlast l rfl)
                (fun p hp => by cases hp; exact hold)
              exact ⟨hx.1, hx.2, Grows.push_exit _ _ _ hW, fun p hp => by
                cases hp; simpa using hep _ rfl⟩
            · simp at h
          · rename_i hfind
            simp only [start_block_fst, start_block_num_consts, start_block_codelen,
              start_block_num_reg] at h
            split at h
            · simp at h
            · rename_i e hdisp
              have hB := h_block st stack offset last opcode oparg e hQ hW hfind hlast hfetch hdisp
              have hG3 := Grows.block st offset last e hW
              obtain ⟨hQ3, hR3, hfork⟩ := hB
              generalize hst3 : (st.start_block offset last).2.emit st.heap.length e = st3 at *
              have hbb : st.heap.length ∈ st3.bbs := by subst hst3; simp
              have hep3 : ∀ p, some (ep.getD st.heap.length) = some p → p ∈ st3.bbs := by
                intro p hp
                cases ep with
                | none => simp at hp; subst hp; exact hbb
                | some x => simp at hp; subst hp; exact hG3.bbs _ (hep _ rfl)
              have hnew : ∀ p, p < st.heap.length → last ≠ some p →
                  some st.heap.length ≠ some p := by
                intro p hp _ h2; cases h2; omega
              split at h
              · -- next
                obtain ⟨q, r2, g, m⟩ := ih _ _ _ _ _ _ _ _ hQ3 hG3.wf hep3
                  (fun p hp => by cases hp; exact hbb) h
                exact ⟨q, R_trans _ _ _ hR3 r2, hG3.trans g hnew, m⟩
              · -- ret
                simp only [Option.some.injEq, Except.ok.injEq, Prod.mk.injEq] at h
                obtain ⟨h1, h2, h3⟩ := h
                subst h1 h2 h3
                exact ⟨hQ3, hR3, hG3, hep3⟩
              · -- fail
                simp only [Option.some.injEq, Except.ok.injEq, Prod.mk.injEq] at h
                obtain ⟨h1, h2, h3⟩ := h
                subst h1 h2 h3
                exact ⟨hQ3, hR3, hG3, fun p hp => by cases hp⟩
              · -- loopJump
                split at h
                · simp at h
                · simp at h
                · rename_i r4 st4 stack4 hsub
                  obtain ⟨q4, r4', g4, m4⟩ := sub _ _ _ _ _ _ hQ3 hG3.wf hsub
                  have hx := h_exit st4 stack4 st.heap.length r4 q4 g4.wf (g4.bbs _ hbb) m4
                  have g5 := ((hG3.trans g4 (fun _ _ _ => by simp)).trans
                    (Grows.push_exit st4 st.heap.length r4 g4.wf) hnew)
                  have hR5 := R_trans _ _ _ (R_trans _ _ _ hR3 r4') hx.2
                  have hep5 : ∀ p, some (ep.getD st.heap.length) = some p →
                      p ∈ (st4.push_exit st.heap.length r4).bbs := by
                    intro p hp; simpa using g4.bbs _ (hep3 p hp)
                  split at h
                  · split at h
                    · simp only [Option.some.injEq, Except.ok.injEq, Prod.mk.injEq] at h
                      obtain ⟨h1, h2, h3⟩ := h
                      subst h1 h2 h3
                      exact ⟨hx.1, hR5, g5, hep5⟩
                    · obtain ⟨q, r2, g, m⟩ := ih _ _ _ _ _ _ _ _ hx.1 g5.wf hep5
                        (fun p hp => by cases hp; simpa using g4.bbs _ hbb) h
                      exact ⟨q, R_trans _ _ _ hR5 r2, g5.trans g hnew, m⟩
                  · simp only [Option.some.injEq, Except.ok.injEq, Prod.mk.injEq] at h
                    obtain ⟨h1, h2, h3⟩ := h
                    subst h1 h2 h3
                    exact ⟨hx.1, hR5, g5, fun p hp => by cases hp⟩
              · -- jump
                split at h
                · simp at h
                · simp at h
                · rename_i r4 st4 stack4 hsub
                  obtain ⟨q4, r4', g4, m4⟩ := sub _ _ _ _ _ _ hQ3 hG3.wf hsub
                  have hx := h_exit st4 stack4 st.heap.length r4 q4 g4.wf (g4.bbs _ hbb) m4
                  have g5 := ((hG3.trans g4 (fun _ _ _ => by simp)).trans
                    (Grows.push_exit st4 st.heap.length r4 g4.wf) hnew)
                  have hR5 := R_trans _ _ _ (R_trans _ _ _ hR3 r4') hx.2
                  have hep5 : ∀ p, some (ep.getD st.heap.length) = some p →
                      p ∈ (st4.push_exit st.heap.length r4).bbs := by
                    intro p hp; simpa using g4.bbs _ (hep3 p hp)
                  split at h
                  · simp only [Option.some.injEq, Except.ok.injEq, Prod.mk.injEq] at h
                    obtain ⟨h1, h2, h3⟩ := h
                    subst h1 h2 h3
                    exact ⟨hx.1, hR5, g5, fun p hp => by cases hp⟩
                  · simp only [Option.some.injEq, Except.ok.injEq, Prod.mk.injEq] at h
                    obtain ⟨h1, h2, h3⟩ := h
                    subst h1 h2 h3
                    exact ⟨hx.1, hR5, g5, hep5⟩
              · -- fork
                rename_i s1 t1 s2 t2 fl hctl
                obtain ⟨hQs1, hQs2⟩ := hfork s1 t1 s2 t2 fl hctl
                split at h
                · simp at h
                · simp at h
                · rename_i x st4 stack4 hsub1
                  obtain ⟨q4, r4', g4, m4⟩ := sub _ _ _ _ _ _ hQs1 hG3.wf hsub1
                  have hQ4s2 : Q st4 s2 := h_frame _ _ _ _ hQs2 q4 r4'
                  split at h
                  · simp at h
                  · simp at h
                  · rename_i y st5 stack5 hsub2
                    obtain ⟨q5, r5', g5, m5⟩ := sub _ _ _ _ _ _ hQ4s2 g4.wf hsub2
                    have hbb5 : st.heap.length ∈ st5.bbs := g5.bbs _ (g4.bbs _ hbb)
                    have mx : ∀ p, x = some p → p ∈ st5.bbs := fun p hp => g5.bbs _ (m4 p hp)
                    have hR35 := R_trans _ _ _ r4' r5'
                    have hQ5e : Q st5 e.stack := h_frame _ _ _ _ hQ3 q5 hR35
                    have key : ∀ (left right : Option Nat), (∀ p, left = some p → p ∈ st5.bbs) →
                        (∀ p, right = some p → p ∈ st5.bbs) →
                        Q ((st5.push_exit st.heap.length left).push_exit st.heap.length right)
                            e.stack ∧
                          R st ((st5.push_exit st.heap.length left).push_exit st.heap.length right) ∧
                          Grows last st
                            ((st5.push_exit st.heap.length left).push_exit st.heap.length right) := by
                      intro left right ml mr
                      have hx1 := h_exit st5 e.stack st.heap.length left hQ5e g5.wf hbb5 ml
                      have gx1 := Grows.push_exit st5 st.heap.length left g5.wf
                      have hx2 := h_exit (st5.push_exit st.heap.length left) e.stack st.heap.length
                        right hx1.1 gx1.wf (by simpa using hbb5) (by simpa using mr)
                      have gx2 := Grows.push_exit (st5.push_exit st.heap.length left)
                        st.heap.length right gx1.wf
                      refine ⟨hx2.1, ?_, ?_⟩
                      · exact R_trans _ _ _ (R_trans _ _ _ (R_trans _ _ _ hR3 hR35) hx1.2) hx2.2
                      · exact (((hG3.trans g4 (fun _ _ _ => by simp)).trans g5
                          (fun _ _ _ => by simp)).trans gx1 hnew).trans gx2 hnew
                    have ml : ∀ p, (if fl = true then x else y) = some p → p ∈ st5.bbs := by
                      intro p hp; cases fl <;> simp at hp
                      · exact m5 p hp
                      · exact mx p hp
                    have mr : ∀ p, (if fl = true then y else x) = some p → p ∈ st5.bbs := by
                      intro p hp; cases fl <;> simp at hp
                      · exact mx p hp
                      · exact m5 p hp
                    obtain ⟨k1, k2, k3⟩ := key _ _ ml mr
                    split at h
                    · simp only [Option.some.injEq, Except.ok.injEq, Prod.mk.injEq] at h
                      obtain ⟨h1, h2, h3⟩ := h
                      subst h1 h2 h3
                      exact ⟨k1, k2, k3, fun p hp => by
                        simpa using hbb5 |> fun _ => g5.bbs _ (g4.bbs _ (hep3 p hp))⟩
                    · simp only [Option.some.injEq, Except.ok.injEq, Prod.mk.injEq] at h
                      obtain ⟨h1, h2, h3⟩ := h
                      subst h1 h2 h3
                      exact ⟨k1, k2, k3, fun p hp => by cases hp⟩
    · simp only [Option.some.injEq, Except.ok.injEq, Prod.mk.injEq] at h
      obtain ⟨h1, h2, h3⟩ := h
      subst h1 h2 h3
      exact ⟨hQ, R_refl _, Grows.refl _ _ hW, fun p hp => hep p hp⟩

/-! ## Block uniqueness and re-entry -/

theorem find_bb_none (st : CompilerState) (offset : Int) (h : st.find_bb offset = none) :
    offset ∉ st.offsets := by
  unfold CompilerState.find_bb at h
  rw [List.find?_eq_none] at h
  intro hmem
  simp only [CompilerState.offsets, List.mem_map] at hmem
  obtain ⟨p, hp, he⟩ := hmem
  exact h p hp (by simpa using he)

theorem offsets_push_exit (st : CompilerState) (b : Nat) (e : Option Nat) :
    (st.push_exit b e).offsets = st.offsets := by
  simp only [CompilerState.offsets, push_exit_bbs]
  apply List.map_congr_left
  intro p _
  rw [deref_push_exit]
  split <;> rfl

theorem deref_block_old (st : CompilerState) (offset : Int) (last : Option Nat) (e : Emit)
    (p : Nat) (hp : p < st.heap.length) :
    ((st.start_block offset last).2.emit st.heap.length e).deref p =
      if last = some p then
        { st.deref p with exits := (st.deref p).exits ++ [some st.heap.length] }
      else st.deref p := by
  have h1 : ¬ (p = st.heap.length) := by omega
  simp [deref_emit, h1, deref_start_block_old, hp]

theorem deref_block_new (st : CompilerState) (offset : Int) (last : Option Nat) (e : Emit)
    (h : ∀ l, last = some l → l < st.heap.length) :
    ((st.start_block offset last).2.emit st.heap.length e).deref st.heap.length =
      { BasicBlock.new offset st.bbs.length with code := e.ops } := by
  simp [deref_emit, deref_start_block_new st offset last h, BasicBlock.new]

theorem offsets_block (st : CompilerState) (offset : Int) (last : Option Nat) (e : Emit)
    (hW : st.WF) (hl : ∀ l, last = some l → l ∈ st.bbs) :
    ((st.start_block offset last).2.emit st.heap.length e).offsets = st.offsets ++ [offset] := by
  simp only [CompilerState.offsets, emit_bbs, start_block_bbs, List.map_append, List.map_cons,
    List.map_nil]
  congr 1
  · apply List.map_congr_left
    intro p hp
    rw [deref_block_old _ _ _ _ _ (hW p hp)]
    split <;> rfl
  · rw [deref_block_new _ _ _ _ (fun l h => hW l (hl l h))]
    rfl

theorem registerizeLoop_offsets_nodup (cfg : Config) (fuel : Nat) (st : CompilerState)
    (stack : RegisterStack) (offset : Int) (ep last r : Option Nat) (st' : CompilerState)
    (stack' : RegisterStack) (hN : st.offsets.Nodup) (hW : st.WF)
    (hep : ∀ p, ep = some p → p ∈ st.bbs) (hlast : ∀ p, last = some p → p ∈ st.bbs)
    (h : registerizeLoop cfg fuel st stack offset ep last = some (.ok (r, st', stack'))) :
    st'.offsets.Nodup := by
  refine (registerizeLoop_inv cfg (fun st _ => st.offsets.Nodup) (fun _ _ => True)
    (fun _ => trivial) (fun _ _ _ _ _ => trivial) (fun _ _ _ _ h _ => h) ?_ ?_
    (fun _ _ _ _ _ h _ => h) fuel st stack offset ep last r st' stack' hN hW hep hlast h).1
  · intro st s b e hQ _ _ _
    exact ⟨by beta_reduce; rw [offsets_push_exit]; exact hQ, trivial⟩
  · intro st s offset last opcode oparg e hQ hW hfind hl _ _
    have hoff := offsets_block st offset last e hW hl
    refine ⟨?_, trivial, fun _ _ _ _ _ _ => ⟨?_, ?_⟩⟩ <;>
    · beta_reduce
      rw [hoff]
      exact List.Nodup.append hQ (List.nodup_singleton _)
        (by simpa using find_bb_none st offset hfind)

/-- **C1** (block uniqueness).  When `registerize(state, stack, 0)` runs on a state with
no blocks and returns, whether it returns a block or the failure sentinel `NULL`, no
two blocks of `state.bbs` have the same `py_offset`. -/
theorem registerize_block_uniqueness (cfg : Config) (fuel : Nat) (st : CompilerState)
    (stack : RegisterStack) (r : Option Nat) (st' : CompilerState) (stack' : RegisterStack)
    (h0 : st.bbs = [])
    (h : registerizeFuel cfg fuel st stack 0 = some (.ok (r, st', stack'))) :
    st'.offsets.Nodup := by
  have hN : st.offsets.Nodup := by simp [CompilerState.offsets, h0]
  have hW : st.WF := by intro p hp; simp [h0] at hp
  unfold registerizeFuel enterWith at h
  split at h
  · simp only [Option.some.injEq, Except.ok.injEq, Prod.mk.injEq] at h
    obtain ⟨_, h2, _⟩ := h
    subst h2
    exact hN
  · exact registerizeLoop_offsets_nodup cfg fuel st stack 0 none none r st' stack' hN hW
      (by simp) (by simp) h

theorem registerize_block_uniqueness_witness :
    ∃ r st' stack',
      registerizeFuel sampleConfig 20 (CompilerState.ofCode whileLoopCode 1 1) sampleStack 0 =
        some (.ok (r, st', stack')) ∧
      st'.offsets = [0, 3, 6, 9, 12, 13, 16] ∧ st'.offsets.Nodup :=
  ⟨_, _, _, rfl, rfl, registerize_block_uniqueness sampleConfig 20
    (CompilerState.ofCode whileLoopCode 1 1) sampleStack _ _ _ rfl rfl⟩

/-- **C2** (re-entry).  When some block of `state.bbs` has `py_offset == offset`,
`registerize(state, stack, offset)` returns such a block at once (with any fuel): the
state (block list, ops, exits, `num_reg`) and the symbolic stack come back unchanged. -/
theorem registerize_reentry (cfg : Config) (fuel : Nat) (st : CompilerState)
    (stack : RegisterStack) (offset : Int)
    (h : ∃ p ∈ st.bbs, (st.deref p).py_offset = offset) :
    ∃ p ∈ st.bbs, (st.deref p).py_offset = offset ∧
      registerizeFuel cfg fuel st stack offset = some (.ok (some p, st, stack)) := by
  cases hfind : st.find_bb offset with
  | none =>
    obtain ⟨p, hp, he⟩ := h
    exact absurd (List.mem_map.mpr ⟨p, hp, he⟩) (find_bb_none st offset hfind)
  | some old =>
    obtain ⟨h1, h2⟩ := find_bb_mem st offset old hfind
    exact ⟨old, h1, h2, by simp [registerizeFuel, enterWith, hfind]⟩

theorem registerize_reentry_witness :
    ∃ p ∈ (CompilerState.ofCode whileLoopCode 1 1 |>.alloc_bb 3).2.bbs,
      ((CompilerState.ofCode whileLoopCode 1 1 |>.alloc_bb 3).2.deref p).py_offset = 3 ∧
      registerizeFuel sampleConfig 0 (CompilerState.ofCode whileLoopCode 1 1 |>.alloc_bb 3).2
        sampleStack 3 =
        some (.ok (some p, (CompilerState.ofCode whileLoopCode 1 1 |>.alloc_bb 3).2, sampleStack)) :=
  registerize_reentry sampleConfig 0 (CompilerState.ofCode whileLoopCode 1 1 |>.alloc_bb 3).2
    sampleStack 3 ⟨0, by decide, by rfl⟩

/-! ## Termination of `registerize` -/

theorem freeOffsets_le_length (st : CompilerState) : st.freeOffsets ≤ st.py_codestr.length := by
  unfold CompilerState.freeOffsets
  exact (List.length_filter_le _ _).trans (by rw [List.length_range])

theorem freeOffsets_push_exit (st : CompilerState) (b : Nat) (e : Option Nat) :
    (st.push_exit b e).freeOffsets = st.freeOffsets := by
  simp [CompilerState.freeOffsets, offsets_push_exit]

theorem freeOffsets_block (st : CompilerState) (offset : Int) (last : Option Nat) (e : Emit)
    (hW : st.WF) (hl : ∀ l, last = some l → l ∈ st.bbs) :
    ((st.start_block offset last).2.emit st.heap.length e).freeOffsets ≤ st.freeOffsets := by
  unfold CompilerState.freeOffsets
  rw [offsets_block st offset last e hW hl]
  simp only [emit_codestr, start_block_codestr]
  apply List.Sublist.length_le
  apply List.monotone_filter_right
  intro o
  simp only [List.mem_append, not_or, decide_eq_true_eq]
  exact fun h => h.1

theorem freeOffsets_block_lt (st : CompilerState) (offset : Int) (last : Option Nat) (e : Emit)
    (hW : st.WF) (hl : ∀ l, last = some l → l ∈ st.bbs) (hfind : st.find_bb offset = none)
    (h0 : 0 ≤ offset) (h1 : offset < st.py_codelen) :
    ((st.start_block offset last).2.emit st.heap.length e).freeOffsets + 1 ≤ st.freeOffsets := by
  unfold CompilerState.freeOffsets
  rw [offsets_block st offset last e hW hl]
  simp only [emit_codestr, start_block_codestr]
  have hsub : (List.range st.py_codestr.length).filter
        (fun (o : Nat) => decide ((o : Int) ∉ st.offsets ++ [offset])) =
      ((List.range st.py_codestr.length).filter (fun (o : Nat) => decide ((o : Int) ∉ st.offsets))).filter
        (fun (o : Nat) => decide ((o : Int) ≠ offset)) := by
    rw [List.filter_filter]
    apply List.filter_congr
    intro o _
    simp [not_or, and_comm]
  rw [hsub]
  apply Nat.succ_le_of_lt
  rw [List.length_filter_lt_length_iff_exists]
  refine ⟨offset.toNat, ?_, ?_⟩
  · simp only [List.mem_filter, List.mem_range, decide_eq_true_eq]
    unfold CompilerState.py_codelen at h1
    refine ⟨(Int.toNat_lt h0).mpr h1, ?_⟩
    rw [Int.toNat_of_nonneg h0]
    exact find_bb_none st offset hfind
  · simp [Int.toNat_of_nonneg h0]

theorem registerizeLoop_free (cfg : Config) (fuel : Nat) (st : CompilerState)
    (stack : RegisterStack) (offset : Int) (ep last r : Option Nat) (st' : CompilerState)
    (stack' : RegisterStack) (hW : st.WF)
    (hep : ∀ p, ep = some p → p ∈ st.bbs) (hlast : ∀ p, last = some p → p ∈ st.bbs)
    (h : registerizeLoop cfg fuel st stack offset ep last = some (.ok (r, st', stack'))) :
    (st'.py_codestr = st.py_codestr ∧ st'.freeOffsets ≤ st.freeOffsets) ∧
      Grows last st st' ∧ (∀ p, r = some p → p ∈ st'.bbs) := by
  refine (registerizeLoop_inv cfg (fun _ _ => True)
    (fun a b => b.py_codestr = a.py_codestr ∧ b.freeOffsets ≤ a.freeOffsets)
    (fun _ => ⟨rfl, Nat.le_refl _⟩)
    (fun a b c h1 h2 => ⟨h2.1.trans h1.1, h2.2.trans h1.2⟩) (fun _ _ _ _ _ _ => trivial) ?_ ?_
    (fun _ _ _ _ _ _ _ => trivial) fuel st stack offset ep last r st' stack' trivial hW hep
    hlast h).2
  · intro st s b e _ _ _ _
    exact ⟨trivial, rfl, Nat.le_of_eq (freeOffsets_push_exit st b e)⟩
  · intro st s offset last opcode oparg e _ hW _ hl _ _
    exact ⟨trivial, ⟨by simp, freeOffsets_block st offset last e hW hl⟩,
      fun _ _ _ _ _ _ => ⟨trivial, trivial⟩⟩

theorem enterWith_free (cfg : Config) (fuel : Nat) (st : CompilerState)
    (stack : RegisterStack) (offset : Int) (r : Option Nat) (st' : CompilerState)
    (stack' : RegisterStack) (hW : st.WF)
    (h : enterWith (registerizeLoop cfg fuel) st stack offset = some (.ok (r, st', stack'))) :
    (st'.py_codestr = st.py_codestr ∧ st'.freeOffsets ≤ st.freeOffsets) ∧
      Grows none st st' ∧ (∀ p, r = some p → p ∈ st'.bbs) := by
  unfold enterWith at h
  split at h
  · rename_i old hfind
    simp only [Option.some.injEq, Except.ok.injEq, Prod.mk.injEq] at h
    obtain ⟨h1, h2, h3⟩ := h
    subst h1 h2 h3
    exact ⟨⟨rfl, Nat.le_refl _⟩, Grows.refl _ _ hW, fun p hp => by
      cases hp; exact (find_bb_mem _ _ _ hfind).1⟩
  · exact registerizeLoop_free cfg fuel st stack offset none none r st' stack' hW (by simp)
      (by simp) h

theorem fuelNeeded_after_alloc (st st3 : CompilerState) (off t : Int) (n : Nat)
    (hc : st3.py_codestr = st.py_codestr) (hF : st3.freeOffsets + 1 ≤ st.freeOffsets)
    (hn : fuelNeeded st off ≤ n + 1) : fuelNeeded st3 t ≤ n := by
  unfold fuelNeeded at *
  rw [hc]
  have h1 := Nat.mul_le_mul_right (st.py_codestr.length + 1) hF
  rw [Nat.add_mul, Nat.one_mul] at h1
  have h2 : min st.py_codestr.length (st3.py_codelen - t).toNat ≤ st.py_codestr.length :=
    Nat.min_le_left _ _
  omega

theorem fuelNeeded_advance (st : CompilerState) (off : Int) (opcode n : Nat)
    (h0 : 0 ≤ off) (h1 : off < st.py_codelen) (hn : fuelNeeded st off ≤ n + 1) :
    fuelNeeded st (off + CODESIZE opcode) ≤ n := by
  unfold fuelNeeded at *
  have hc : 1 ≤ CODESIZE opcode := by unfold CODESIZE; split <;> decide
  unfold CompilerState.py_codelen at *
  omega

theorem fetch_nonneg (st : CompilerState) (offset : Int) (opcode oparg : Nat)
    (h : fetch st offset = .ok (opcode, oparg)) : 0 ≤ offset := by
  unfold fetch readAt at h
  by_contra hneg
  simp [hneg] at h

theorem registerizeLoop_isSome (cfg : Config) :
    ∀ (n : Nat) (st : CompilerState) (stack : RegisterStack) (offset : Int)
      (ep last : Option Nat), st.WF → (∀ p, ep = some p → p ∈ st.bbs) →
      (∀ p, last = some p → p ∈ st.bbs) → fuelNeeded st offset ≤ n →
      ∃ res, registerizeLoop cfg n st stack offset ep last = some res := by
  intro n
  induction n with
  | zero =>
    intro st stack offset ep last _ _ _ hn
    unfold fuelNeeded at hn
    omega
  | succ n ih =>
    have sub : ∀ (st : CompilerState) (stack : RegisterStack) (t : Int), st.WF →
        fuelNeeded st t ≤ n → ∃ res, enterWith (registerizeLoop cfg n) st stack t = some res := by
      intro st stack t hW hn
      unfold enterWith
      split
      · exact ⟨_, rfl⟩
      · exact ih _ _ _ _ _ hW (by simp) (by simp) hn
    intro st stack offset ep last hW hep hlast hn
    unfold registerizeLoop
    split
    · rename_i hlt
      split
      · exact ⟨_, rfl⟩
      · rename_i opcode oparg hfetch
        have h0 := fetch_nonneg st offset opcode oparg hfetch
        split
        · exact ⟨_, rfl⟩
        · exact ih _ _ _ _ _ hW hep hlast (fuelNeeded_advance st offset opcode n h0 hlt hn)
        · split
          · split <;> exact ⟨_, rfl⟩
          · rename_i hfind
            simp only [start_block_fst, start_block_num_consts, start_block_codelen,
              start_block_num_reg]
            split
            · exact ⟨_, rfl⟩
            · rename_i e hdisp
              have hG3 := Grows.block st offset last e hW
              have hF3 := freeOffsets_block_lt st offset last e hW hlast hfind h0 hlt
              have hc3 : ((st.start_block offset last).2.emit st.heap.length e).py_codestr =
                  st.py_codestr := by simp
              have hbb : st.heap.length ∈
                  ((st.start_block offset last).2.emit st.heap.length e).bbs := by simp
              generalize (st.start_block offset last).2.emit st.heap.length e = st3 at *
              have hep3 : ∀ p, some (ep.getD st.heap.length) = some p → p ∈ st3.bbs := by
                intro p hp
                cases ep with
                | none => simp at hp; subst hp; exact hbb
                | some x => simp at hp; subst hp; exact hG3.bbs _ (hep _ rfl)
              split
              · exact ih _ _ _ _ _ hG3.wf hep3 (fun p hp => by cases hp; exact hbb)
                  (fuelNeeded_after_alloc st st3 offset _ n hc3 hF3 hn)
              · exact ⟨_, rfl⟩
              · exact ⟨_, rfl⟩
              · obtain ⟨res, hres⟩ := sub st3 e.stack _ hG3.wf
                  (fuelNeeded_after_alloc st st3 offset _ n hc3 hF3 hn)
                rw [hres]
                rcases res with f | ⟨r4, st4, stack4⟩
                · exact ⟨_, rfl⟩
                · obtain ⟨⟨c4, f4⟩, g4, _⟩ := enterWith_free cfg n st3 e.stack _ r4 st4 stack4
                    hG3.wf hres
                  have g5 := Grows.push_exit st4 st.heap.length r4 g4.wf
                  simp only
                  split
                  · split
                    · exact ⟨_, rfl⟩
                    · refine ih _ _ _ _ _ g5.wf (fun p hp => ?_) (fun p hp => ?_)
                        (fuelNeeded_after_alloc st _ offset _ n ?_ ?_ hn)
                      · simpa using g4.bbs _ (hep3 p hp)
                      · cases hp; simpa using g4.bbs _ hbb
                      · simp [c4, hc3]
                      · rw [freeOffsets_push_exit]; omega
                  · exact ⟨_, rfl⟩
              · obtain ⟨res, hres⟩ := sub st3 e.stack _ hG3.wf
                  (fuelNeeded_after_alloc st st3 offset _ n hc3 hF3 hn)
                rw [hres]
                rcases res with f | ⟨r4, st4, stack4⟩
                · exact ⟨_, rfl⟩
                · simp only
                  split <;> exact ⟨_, rfl⟩
              · rename_i s1 t1 s2 t2 fl hctl
                obtain ⟨res, hres⟩ := sub st3 s1 t1 hG3.wf
                  (fuelNeeded_after_alloc st st3 offset _ n hc3 hF3 hn)
                rw [hres]
                rcases res with f | ⟨x, st4, stack4⟩
                · exact ⟨_, rfl⟩
                · obtain ⟨⟨c4, f4⟩, g4, _⟩ := enterWith_free cfg n st3 s1 t1 x st4 stack4
                    hG3.wf hres
                  simp only
                  obtain ⟨res2, hres2⟩ := sub st4 s2 t2 g4.wf
                    (fuelNeeded_after_alloc st st4 offset _ n (by rw [c4, hc3]) (by omega) hn)
                  rw [hres2]
                  rcases res2 with f | ⟨y, st5, stack5⟩
                  · exact ⟨_, rfl⟩
                  · simp only
                    split <;> exact ⟨_, rfl⟩
    · exact ⟨_, rfl⟩

theorem enterWith_mono (f g : CompilerState → RegisterStack → Int → Option Nat → Option Nat → RegResult)
    (hfg : ∀ st s o ep l res, f st s o ep l = some res → g st s o ep l = some res)
    (st : CompilerState) (stack : RegisterStack) (t : Int) (res)
    (h : enterWith f st stack t = some res) : enterWith g st stack t = some res := by
  unfold enterWith at *
  split at h
  · exact h
  · exact hfg _ _ _ _ _ _ h

theorem registerizeLoop_mono (cfg : Config) :
    ∀ (n : Nat) (st : CompilerState) (stack : RegisterStack) (offset : Int)
      (ep last : Option Nat) (res), registerizeLoop cfg n st stack offset ep last = some res →
      registerizeLoop cfg (n + 1) st stack offset ep last = some res := by
  intro n
  induction n with
  | zero => intro st stack offset ep last res h; simp [registerizeLoop] at h
  | succ n ih =>
    intro st stack offset ep last res h
    have sub := fun st stack t res => enterWith_mono (registerizeLoop cfg n) (registerizeLoop cfg (n + 1)) ih st stack t res
    rw [registerizeLoop] at h
    rw [registerizeLoop]
    split at h
    · rename_i hlt
      rw [if_pos hlt]
      split at h
      · rename_i f hf
        exact h
      · rename_i opcode oparg hfetch
        (try simp only [hfetch])
        split at h
        · rename_i f hfold; exact h
        · rename_i s1 hfold; exact ih _ _ _ _ _ _ h
        · rename_i hfold
          split at h
          · rename_i old hfind
            exact h
          · rename_i hfind
            simp only [start_block_fst] at h ⊢
            split at h
            · rename_i f hd
              exact h
            · rename_i e hd
              split at h
              · rename_i hc; exact ih _ _ _ _ _ _ h
              · rename_i hc; exact h
              · rename_i hc; exact h
              · rename_i tg ar hc
                split at h
                · simp at h
                · rename_i f hs; simp only [sub _ _ _ _ hs]; exact h
                · rename_i r4 st4 stack4 hs
                  simp only [sub _ _ _ _ hs]
                  split at h
                  · rename_i v hh
                    split at h
                    · rename_i ha; simp only [ha, if_true]; exact h
                    · rename_i ha; simp only [ha]; exact ih _ _ _ _ _ _ h
                  · exact h
              · rename_i tg hc
                split at h
                · simp at h
                · rename_i f hs; simp only [sub _ _ _ _ hs]; exact h
                · rename_i r4 st4 stack4 hs
                  simp only [sub _ _ _ _ hs]; exact h
              · rename_i s1 t1 s2 t2 fl hc
                split at h
                · simp at h
                · rename_i f hs; simp only [sub _ _ _ _ hs]; exact h
                · rename_i x st4 stack4 hs
                  simp only [sub _ _ _ _ hs]
                  split at h
                  · simp at h
                  · rename_i f hs2; simp only [sub _ _ _ _ hs2]; exact h
                  · rename_i y st5 stack5 hs2
                    simp only [sub _ _ _ _ hs2]; exact h
    · rename_i hlt
      rw [if_neg hlt]; exact h


theorem registerizeLoop_mono_le (cfg : Config) (n m : Nat) (hnm : n ≤ m) (st : CompilerState)
    (stack : RegisterStack) (offset : Int) (ep last : Option Nat) (res)
    (h : registerizeLoop cfg n st stack offset ep last = some res) :
    registerizeLoop cfg m st stack offset ep last = some res := by
  induction hnm with
  | refl => exact h
  | step _ ih => exact registerizeLoop_mono cfg _ _ _ _ _ _ _ ih

/-- More fuel never changes the result of `registerize`. -/
theorem registerizeFuel_mono (cfg : Config) (n m : Nat) (hnm : n ≤ m) (st : CompilerState)
    (stack : RegisterStack) (offset : Int) (res)
    (h : registerizeFuel cfg n st stack offset = some res) :
    registerizeFuel cfg m st stack offset = some res :=
  enterWith_mono _ _ (fun _ _ _ _ _ _ h => registerizeLoop_mono_le cfg n m hnm _ _ _ _ _ _ h)
    st stack offset res h

theorem fuelNeeded_le_sq (st : CompilerState) (offset : Int) :
    fuelNeeded st offset ≤ (st.py_codestr.length + 1) * (st.py_codestr.length + 1) := by
  unfold fuelNeeded
  have h1 := Nat.mul_le_mul_right (st.py_codestr.length + 1) (freeOffsets_le_length st)
  have h2 : min st.py_codestr.length (st.py_codelen - offset).toNat ≤ st.py_codestr.length :=
    Nat.min_le_left _ _
  rw [Nat.add_mul, Nat.one_mul]
  omega

/-- **C3** (termination).  On every state whose block pointers are valid, for every code
byte string (loops and backward jumps included), stack and start offset, `registerize`
returns: `(py_codelen + 1)^2` units of fuel, or more, are enough.  The measure is the
number of offsets in `[0, py_codelen)` that have no block yet, then the distance to the
end of the code: a step either returns on an already compiled offset, advances the
offset, or allocates a block at an offset that had none. -/
theorem registerize_terminates (cfg : Config) (st : CompilerState) (stack : RegisterStack)
    (offset : Int) (k : Nat) (hW : st.WF) :
    ∃ res, registerizeFuel cfg ((st.py_codestr.length + 1) * (st.py_codestr.length + 1) + k)
      st stack offset = some res := by
  unfold registerizeFuel enterWith
  split
  · exact ⟨_, rfl⟩
  · exact registerizeLoop_isSome cfg _ st stack offset none none hW (by simp) (by simp)
      ((fuelNeeded_le_sq st offset).trans (Nat.le_add_right _ _))

theorem registerize_terminates_witness :
    ∃ res, registerizeFuel sampleConfig ((whileLoopCode.length + 1) * (whileLoopCode.length + 1) + 0)
      (CompilerState.ofCode whileLoopCode 1 1) sampleStack 0 = some res :=
  registerize_terminates sampleConfig (CompilerState.ofCode whileLoopCode 1 1) sampleStack 0 0
    (by intro p hp; cases hp)

/-- Whatever a run with some fuel returns is what `registerize` returns. -/
theorem registerize_eq_of_fuel (cfg : Config) (fuel : Nat) (st : CompilerState)
    (stack : RegisterStack) (offset : Int) (res) (hW : st.WF)
    (h : registerizeFuel cfg fuel st stack offset = some res) :
    registerize cfg st stack offset = some res := by
  unfold registerize
  rcases Nat.le_total fuel ((st.py_codestr.length + 1) * (st.py_codestr.length + 1)) with hle | hle
  · exact registerizeFuel_mono cfg _ _ hle st stack offset res h
  · obtain ⟨res', h'⟩ := registerize_terminates cfg st stack offset 0 hW
    have h2 := registerizeFuel_mono cfg _ _ hle st stack offset res' h'
    rw [h] at h2
    cases h2
    exact h'

/-! ## Failure propagation -/

theorem Clean.of_codestr (st st' : CompilerState) (h : st.Clean) (hb : st'.bbs = st.bbs)
    (hh : st'.heap = st.heap) (hc : st'.py_codestr = st.py_codestr) : st'.Clean := by
  intro p hp
  rw [hb] at hp
  have := h p hp
  simpa [CompilerState.opcodeAt, CompilerState.deref, hh, hc] using this

/-- The opcodes that the claim names are outside the supported set. -/
theorem classify_unsupported_examples :
    classify END_FINALLY = .unknown ∧ classify YIELD_VALUE = .unknown ∧
    classify SETUP_EXCEPT = .unknown ∧ classify SETUP_FINALLY = .unknown ∧
    classify MAKE_FUNCTION = .unknown ∧ classify MAKE_CLOSURE = .unknown ∧
    classify IMPORT_NAME = .unknown := by decide

/-- **C6** (join-link assertion).  The claim fails on the code: for the bytecode of
`return a < b < c < d` the second `JUMP_IF_FALSE_OR_POP 32` calls `registerize` at offset
32, which holds the folded `ROT_TWO` and so never gets a block; the walk then reaches
offset 33, where the first jump already made a block, with `entry_point == NULL`, and
`assert(entry_point != NULL)` fails.  The same happens for a loop whose head is a `NOP`. -/
theorem registerize_join_assert_fails :
    registerize sampleConfig (CompilerState.ofCode chainedCompareCode 1 4) sampleStack 0 =
      some (.error .joinAssert) ∧
    registerize sampleConfig (CompilerState.ofCode nopLoopCode 0 0) sampleStack 0 =
      some (.error .joinAssert) := by
  constructor <;> rfl

/-! ## Registers stay below `num_reg` -/

theorem Post.bind {α β : Type} {m : Except Fault α} {f : α → Except Fault β} {P : α → Prop}
    {Q : β → Prop} (hm : Post m P) (hf : ∀ a, P a → Post (f a) Q) : Post (m >>= f) Q := by
  intro b hb
  cases m with
  | error e => simp [Bind.bind, Except.bind] at hb
  | ok a => exact hf a (hm a rfl) b (by simpa [Bind.bind, Except.bind] using hb)

theorem Post.pure {α : Type} {a : α} {P : α → Prop} (h : P a) :
    Post (Pure.pure a : Except Fault α) P := by
  intro b hb
  simp only [Pure.pure, Except.pure, Except.ok.injEq] at hb
  exact hb ▸ h

theorem Post.ok {α : Type} {a : α} {P : α → Prop} (h : P a) :
    Post (Except.ok a : Except Fault α) P := by
  intro b hb
  simp only [Except.ok.injEq] at hb
  exact hb ▸ h

theorem Post.error {α : Type} {e : Fault} {P : α → Prop} :
    Post (Except.error e : Except Fault α) P := by
  intro b hb
  simp at hb

/-- **C8** (backward traversal coverage).  The claim fails on the code: the loops of
`BackwardPass` start at `n - 1` and test `i-- > 0`, so the body never runs with index
`n - 1`.  On a program of two blocks with two ops each the pass calls `visit_op` on the
first op of the first block only, where the claim wants all four ops, last op and last
block first. -/
theorem backwardPass_skips_last :
    backwardVisits twoBlockProgram = .ok [add_dest_op2 LOAD_FAST 0 0 3] ∧
    backwardOrder twoBlockProgram =
      [add_op1 RETURN_VALUE 0 5, add_dest_op3 BINARY_ADD 0 4 3 5,
       add_dest_op2 LOAD_FAST 0 1 4, add_dest_op2 LOAD_FAST 0 0 3] := by
  constructor <;> rfl

/-! ## Dead code elimination -/


/-! ## Use counts -/

theorem deref_modify (st : CompilerState) (p : Nat) (f : BasicBlock → BasicBlock) (q : Nat) :
    (st.modify p f).deref q = if q = p ∧ p < st.heap.length then f (st.deref q) else st.deref q := by
  simp only [CompilerState.modify, CompilerState.deref, getElem?_modifyAt]
  by_cases h : q = p
  · subst h
    by_cases h2 : q < st.heap.length
    · simp [h2, List.getElem?_eq_getElem]
    · simp [h2, List.getElem?_eq_none (Nat.le_of_not_lt h2)]
  · simp [h]

@[simp] theorem modify_bbs (st : CompilerState) (p : Nat) (f : BasicBlock → BasicBlock) :
    (st.modify p f).bbs = st.bbs := rfl

@[simp] theorem modify_heap_length (st : CompilerState) (p : Nat) (f : BasicBlock → BasicBlock) :
    (st.modify p f).heap.length = st.heap.length := by
  simp [CompilerState.modify, modifyAt_length]

theorem foldl_incr_count (xs : List Int) : ∀ (c : Counts) (r : Int),
    xs.foldl incr_count c r = c r + xs.count r := by
  induction xs with
  | nil => intro c r; simp
  | cons x xs ih =>
    intro c r
    rw [List.foldl_cons, ih, List.count_cons]
    by_cases h : x = r
    · subst h; simp [incr_count, get_count]; omega
    · have h2 : r ≠ x := fun h2 => h h2.symm
      simp [incr_count, get_count, Function.update, h, h2]

theorem foldl_decr_count (xs : List Int) : ∀ (c : Counts) (r : Int),
    xs.foldl decr_count c r = c r - xs.count r := by
  induction xs with
  | nil => intro c r; simp
  | cons x xs ih =>
    intro c r
    rw [List.foldl_cons, ih, List.count_cons]
    by_cases h : x = r
    · subst h; simp [decr_count, get_count]; omega
    · have h2 : r ≠ x := fun h2 => h h2.symm
      simp [decr_count, get_count, Function.update, h, h2]

theorem countOp_ok (c c' : Counts) (op : CompilerOp) (h : countOp c op = .ok c') (r : Int) :
    c' r = c r + op.inputs.count r := by
  unfold countOp at h
  split at h
  · simp only [Except.ok.injEq] at h
    rw [← h, foldl_incr_count]
  · simp at h

theorem foldlM_countOp_ok (ops : List CompilerOp) : ∀ (c c' : Counts),
    ops.foldlM countOp c = .ok c' →
    ∀ r, c' r = c r + ((ops.map (fun op => op.inputs.count r)).sum : Nat) := by
  induction ops with
  | nil =>
    intro c c' h r
    simp only [List.foldlM_nil, pure, Except.pure, Except.ok.injEq] at h
    simp [h]
  | cons op ops ih =>
    intro c c' h r
    simp only [List.foldlM_cons, bind, Except.bind] at h
    split at h
    · simp at h
    · rename_i c1 h1
      rw [ih c1 c' h r, countOp_ok c c1 op h1 r]
      simp only [List.map_cons, List.sum_cons, Nat.cast_add]
      omega

theorem count_uses_ok (st : CompilerState) : ∀ (bbs : List Nat) (c c' : Counts),
    bbs.foldlM (fun c p => (st.deref p).code.foldlM countOp c) c = .ok c' →
    ∀ r, c' r = c r +
      ((bbs.map (fun p => ((st.deref p).code.map (fun op => op.inputs.count r)).sum)).sum : Nat) := by
  intro bbs
  induction bbs with
  | nil =>
    intro c c' h r
    simp only [List.foldlM_nil, pure, Except.pure, Except.ok.injEq] at h
    simp [h]
  | cons p ps ih =>
    intro c c' h r
    simp only [List.foldlM_cons, bind, Except.bind] at h
    split at h
    · simp at h
    · rename_i c1 h1
      rw [ih c1 c' h r, foldlM_countOp_ok _ c c1 h1 r]
      simp only [List.map_cons, List.sum_cons, Nat.cast_add]
      omega

theorem blockUses_of_noDead (r : Int) (b : BasicBlock) (h : ∀ op ∈ b.code, op.dead = false) :
    blockUses r b = (b.code.map (fun op => op.inputs.count r)).sum := by
  unfold blockUses
  congr 1
  apply List.map_congr_left
  intro op hop
  simp [opWeight, h op hop]

/-- After `count_uses` on a program without dead ops, the count of every register is its
number of uses. -/
theorem count_uses_liveUses (st : CompilerState) (c : Counts) (hnd : st.NoDeadOps)
    (h : count_uses st (fun _ => 0) = .ok c) (r : Int) : c r = liveUses st r := by
  have := count_uses_ok st st.bbs _ c h r
  rw [this]
  simp only [zero_add, liveUses]
  congr 2
  apply List.map_congr_left
  intro p hp
  rw [blockUses_of_noDead r _ (hnd p hp)]


theorem sum_map_set {α : Type} (f : α → Nat) : ∀ (l : List α) (i : Nat) (x y : α),
    l[i]? = some y → ((l.set i x).map f).sum + f y = (l.map f).sum + f x
  | [], i, x, y, h => by simp at h
  | a :: l, 0, x, y, h => by
    simp only [List.getElem?_cons_zero, Option.some.injEq] at h
    subst h
    simp only [List.set_cons_zero, List.map_cons, List.sum_cons]
    omega
  | a :: l, i + 1, x, y, h => by
    simp only [List.getElem?_cons_succ] at h
    have := sum_map_set f l i x y h
    simp only [List.set_cons_succ, List.map_cons, List.sum_cons]
    omega

theorem sum_map_update (g : Nat → Nat) (p a : Nat) : ∀ (l : List Nat), l.Nodup → p ∈ l →
    (l.map (fun q => if q = p then a else g q)).sum + g p = (l.map g).sum + a
  | [], _, h => by simp at h
  | q :: l, hn, h => by
    rw [List.nodup_cons] at hn
    simp only [List.map_cons, List.sum_cons]
    by_cases hq : q = p
    · subst hq
      have : l.map (fun x => if x = q then a else g x) = l.map g := by
        apply List.map_congr_left
        intro x hx
        have : x ≠ q := fun h2 => hn.1 (h2 ▸ hx)
        simp [this]
      rw [this]
      simp only [if_true]
      omega
    · have hp : p ∈ l := by
        rcases List.mem_cons.mp h with h1 | h1
        · exact absurd h1.symm hq
        · exact h1
      have := sum_map_update g p a l hn.2 hp
      simp only [hq, if_false]
      omega

theorem liveUses_modify (st : CompilerState) (p : Nat) (f : BasicBlock → BasicBlock)
    (hd : st.Distinct) (hp : p ∈ st.bbs) (r : Int) :
    liveUses (st.modify p f) r + blockUses r (st.deref p) =
      liveUses st r + blockUses r (f (st.deref p)) := by
  unfold liveUses
  simp only [modify_bbs]
  have h1 : st.bbs.map (fun q => blockUses r ((st.modify p f).deref q)) =
      st.bbs.map (fun q => if q = p then blockUses r (f (st.deref p))
        else blockUses r (st.deref q)) := by
    apply List.map_congr_left
    intro q _
    rw [deref_modify]
    by_cases hq : q = p
    · subst hq; simp [hd.2 q hp]
    · simp [hq]
  rw [h1]
  exact sum_map_update (fun q => blockUses r (st.deref q)) p _ st.bbs hd.1 hp

theorem blockUses_set (r : Int) (b : BasicBlock) (i : Nat) (x y : CompilerOp)
    (h : b.code[i]? = some y) :
    blockUses r { b with code := b.code.set i x } + opWeight r y =
      blockUses r b + opWeight r x :=
  sum_map_set (opWeight r) b.code i x y h

/-- The state after `op->dead = true` for op `i` of block `p`. -/
theorem liveUses_kill (st : CompilerState) (p i : Nat) (op : CompilerOp) (hd : st.Distinct)
    (hp : p ∈ st.bbs) (hop : (st.deref p).code[i]? = some op) (hlive : op.dead = false)
    (r : Int) :
    liveUses (st.modify p (fun b => { b with code := b.code.set i { op with dead := true } })) r +
      op.inputs.count r = liveUses st r := by
  have h1 := liveUses_modify st p
    (fun b => { b with code := b.code.set i { op with dead := true } }) hd hp r
  have h2 := blockUses_set r (st.deref p) i { op with dead := true } op hop
  simp only [opWeight, hlive] at h2
  simp only [Bool.false_eq_true, if_false, if_true] at h2
  omega


theorem opAt_eq_some (st : CompilerState) (b i : Nat) (op : CompilerOp) :
    opAt st b i = some op ↔ ∃ p, st.bbs[b]? = some p ∧ (st.deref p).code[i]? = some op := by
  unfold opAt
  cases h : st.bbs[b]? with
  | none => simp
  | some p => simp

theorem opAt_of_mem (st : CompilerState) (p : Nat) (op : CompilerOp) (hp : p ∈ st.bbs)
    (hop : op ∈ (st.deref p).code) : ∃ b i, opAt st b i = some op := by
  obtain ⟨b, hb, hpb⟩ := List.getElem_of_mem hp
  obtain ⟨i, hi, hoi⟩ := List.getElem_of_mem hop
  refine ⟨b, i, (opAt_eq_some st b i op).mpr ⟨p, ?_, ?_⟩⟩
  · rw [List.getElem?_eq_getElem hb, hpb]
  · rw [List.getElem?_eq_getElem hi, hoi]

theorem mem_of_opAt (st : CompilerState) (b i : Nat) (op : CompilerOp)
    (h : opAt st b i = some op) : ∃ p ∈ st.bbs, op ∈ (st.deref p).code := by
  obtain ⟨p, hp, hop⟩ := (opAt_eq_some st b i op).mp h
  exact ⟨p, List.getElem?_mem hp, List.getElem?_mem hop⟩

theorem sum_eq_zero_of_mem {α : Type} (f : α → Nat) (l : List α) (h : (l.map f).sum = 0)
    (x : α) (hx : x ∈ l) : f x = 0 := by
  induction l with
  | nil => simp at hx
  | cons a l ih =>
    simp only [List.map_cons, List.sum_cons] at h
    rcases List.mem_cons.mp hx with h1 | h1
    · subst h1; omega
    · exact ih (by omega) h1

theorem exists_pos_of_sum_pos {α : Type} (f : α → Nat) (l : List α) (h : 0 < (l.map f).sum) :
    ∃ x ∈ l, 0 < f x := by
  induction l with
  | nil => simp at h
  | cons a l ih =>
    simp only [List.map_cons, List.sum_cons] at h
    by_cases ha : 0 < f a
    · exact ⟨a, List.mem_cons_self _ _, ha⟩
    · obtain ⟨x, hx, hfx⟩ := ih (by omega)
      exact ⟨x, List.mem_cons_of_mem _ hx, hfx⟩

theorem liveUses_zero (st : CompilerState) (d : Int) (h : liveUses st d = 0) (b i : Nat)
    (o : CompilerOp) (ho : opAt st b i = some o) (hlive : o.dead = false) : d ∉ o.inputs := by
  obtain ⟨p, hp, hop⟩ := mem_of_opAt st b i o ho
  have h1 := sum_eq_zero_of_mem _ _ h p hp
  have h2 := sum_eq_zero_of_mem _ _ h1 o hop
  simp only [opWeight, hlive, Bool.false_eq_true, if_false] at h2
  exact List.count_eq_zero.mp h2

theorem liveUses_pos (st : CompilerState) (d : Int) (h : 0 < liveUses st d) :
    ∃ b i o, opAt st b i = some o ∧ d ∈ o.inputs ∧ o.dead = false := by
  obtain ⟨p, hp, h1⟩ := exists_pos_of_sum_pos _ _ h
  obtain ⟨o, ho, h2⟩ := exists_pos_of_sum_pos _ _ h1
  obtain ⟨b, i, hbi⟩ := opAt_of_mem st p o hp ho
  refine ⟨b, i, o, hbi, ?_, ?_⟩
  · unfold opWeight at h2
    split at h2
    · omega
    · exact List.count_pos_iff.mp h2
  · unfold opWeight at h2
    split at h2
    · omega
    · rename_i hd; simpa using hd

theorem nodup_getElem?_inj {l : List Nat} (h : l.Nodup) {a b p : Nat}
    (ha : l[a]? = some p) (hb : l[b]? = some p) : a = b := by
  obtain ⟨ha1, ha2⟩ := List.getElem?_eq_some.mp ha
  obtain ⟨hb1, hb2⟩ := List.getElem?_eq_some.mp hb
  exact (List.Nodup.getElem_inj_iff h).mp (ha2.trans hb2.symm)

/-- Replacing op `i` of block `bbs[B]` changes the op at that place only. -/
theorem opAt_set (st : CompilerState) (B p i : Nat) (x y : CompilerOp) (hd : st.Distinct)
    (hB : st.bbs[B]? = some p) (hy : (st.deref p).code[i]? = some y) (b j : Nat) :
    opAt (st.modify p (fun bb => { bb with code := bb.code.set i x })) b j =
      if b = B ∧ j = i then some x else opAt st b j := by
  unfold opAt
  simp only [modify_bbs]
  cases hb : st.bbs[b]? with
  | none =>
    have : b ≠ B := fun h => by rw [h, hB] at hb; cases hb
    simp [this]
  | some q =>
    simp only [Option.some_bind, deref_modify]
    by_cases hq : q = p
    · subst hq
      have hbB : b = B := nodup_getElem?_inj hd.1 hb hB
      have hlt : q < st.heap.length := hd.2 q (List.getElem?_mem hB)
      simp only [hlt, and_self, if_true, hbB, true_and]
      rw [List.getElem?_set]
      by_cases hji : j = i
      · subst hji
        have : j < (st.deref q).code.length := (List.getElem?_eq_some.mp hy).1
        simp [this]
      · have : ¬ (i = j) := fun h => hji h.symm
        simp [hji, this]
    · have : b ≠ B := fun h => by rw [h, hB] at hb; exact hq (Option.some.inj hb).symm
      simp [hq, this]

/-- Changes that keep the code of every block keep every op in place. -/
theorem opAt_congr (st st' : CompilerState) (hb : st'.bbs = st.bbs)
    (hc : ∀ q, (st'.deref q).code = (st.deref q).code) (b j : Nat) :
    opAt st' b j = opAt st b j := by
  unfold opAt
  rw [hb]
  cases st.bbs[b]? with
  | none => rfl
  | some q => simp [hc q]

theorem liveUses_congr (st st' : CompilerState) (hb : st'.bbs = st.bbs)
    (hc : ∀ q, (st'.deref q).code = (st.deref q).code) (r : Int) :
    liveUses st' r = liveUses st r := by
  unfold liveUses blockUses
  rw [hb]
  simp [hc]


/-! ## The sweep of `DeadCodeElim` -/

theorem set_self {α : Type} : ∀ (l : List α) (i : Nat) (x : α), l[i]? = some x → l.set i x = l
  | [], _, _, h => by simp at h
  | a :: l, 0, x, h => by
    simp only [List.getElem?_cons_zero, Option.some.injEq] at h
    simp [h]
  | a :: l, i + 1, x, h => by
    simp only [List.getElem?_cons_succ] at h
    simp [set_self l i x h]


theorem sweptAt_congr {st st' : CompilerState} {B K b i : Nat} (h : SweptAt st' B K b i)
    (hb : st'.bbs = st.bbs)
    (hc : ∀ q, (st'.deref q).code.length = (st.deref q).code.length) : SweptAt st B K b i := by
  obtain ⟨h1, h2, h3⟩ := h
  refine ⟨?_, by rw [← hb]; exact h2, h3⟩
  unfold opAt at h1 ⊢
  rw [hb] at h1
  cases hq : st.bbs[b]? with
  | none => simp [hq] at h1
  | some q =>
    simp only [hq, Option.some_bind] at h1 ⊢
    rw [Option.isSome_iff_exists] at h1 ⊢
    obtain ⟨a, ha⟩ := h1
    have := (List.getElem?_eq_some.mp ha).1
    rw [hc q] at this
    exact ⟨_, List.getElem?_eq_getElem this⟩

/-- Changes to the `visited` flags keep the invariant of the sweep. -/
theorem SweepInv.congr {cfg : Config} {B K : Nat} {c : Counts} {st st' : CompilerState}
    (h : SweepInv cfg B K c st) (hb : st'.bbs = st.bbs) (hl : st'.heap.length = st.heap.length)
    (hc : ∀ q, (st'.deref q).code = (st.deref q).code)
    (hdead : ∀ q, (st'.deref q).dead = (st.deref q).dead)
    (hv : ∀ b p, b < B → st'.bbs[b]? = some p → (st'.deref p).visited = false) :
    SweepInv cfg B K c st' := by
  have hop : ∀ b j, opAt st' b j = opAt st b j := opAt_congr st st' hb hc
  refine ⟨⟨by rw [hb]; exact h.distinct.1, fun p hp => ?_⟩, ⟨by rw [hb]; exact h.sized.1, ?_⟩,
    fun r => ?_, hv, fun p hp => ?_, fun b i op ho hd => ?_, fun b i op d ho hs => ?_⟩
  · rw [hl]; exact h.distinct.2 p (hb ▸ hp)
  · intro p hp; rw [hc p]; exact h.sized.2 p (hb ▸ hp)
  · rw [liveUses_congr st st' hb hc]; exact h.counts r
  · rw [hdead]; exact h.alive p (hb ▸ hp)
  · rw [hop] at ho
    obtain ⟨h1, h2, d, h3, h4⟩ := h.sound b i op ho hd
    exact ⟨h1, h2, d, h3, fun b' i' o ho' => h4 b' i' o (hop b' i' ▸ ho')⟩
  · intro h1 h2 h3 h4 h5
    rw [hop] at ho
    obtain ⟨b', i', o, h6, h7⟩ := h.served b i op d ho
      (sweptAt_congr hs hb (fun q => by rw [hc q])) h1 h2 h3 h4 h5
    exact ⟨b', i', o, by rw [hop]; exact h6, h7⟩

theorem Counts.pos_of_ne_zero {c : Counts} {st : CompilerState} (h : ∀ r, c r = liveUses st r)
    (d : Int) (hd : ¬ get_count c d = 0) : 0 < liveUses st d := by
  unfold get_count at hd
  rw [h d] at hd
  omega

theorem Counts.zero {c : Counts} {st : CompilerState} (h : ∀ r, c r = liveUses st r)
    (d : Int) (hd : get_count c d = 0) : liveUses st d = 0 := by
  unfold get_count at hd
  rw [h d] at hd
  omega

/-- One iteration of the op loop of the sweep: op `K` of block `B` joins the swept ops. -/
theorem SweepInv.visit_at {cfg : Config} {B K p : Nat} {c c' : Counts}
    {st st' : CompilerState} (h : SweepInv cfg B (K + 1) c st) (hB : st.bbs[B]? = some p)
    (hv : BackwardPass.visit_at (DeadCodeElim.visit_op cfg) p (c, st) K = .ok (c', st')) :
    SweepInv cfg B K c' st' ∧ st'.bbs = st.bbs ∧
      (∀ q, (st'.deref q).code.length = (st.deref q).code.length) ∧
      (∀ q, (st'.deref q).visited = (st.deref q).visited) := by
  unfold BackwardPass.visit_at at hv
  simp only at hv
  split at hv
  · simp at hv
  · rename_i op hop
    have hat : opAt st B K = some op := (opAt_eq_some st B K op).mpr ⟨p, hB, hop⟩
    -- the part of `served` that the old invariant gives
    have hold : ∀ b i, SweptAt st B K b i → (b, i) ≠ (B, K) → SweptAt st B (K + 1) b i := by
      intro b i ⟨h1, h2, h3⟩ hne
      refine ⟨h1, h2, ?_⟩
      rcases h3 with h3 | ⟨h3, h4⟩
      · exact Or.inl h3
      · refine Or.inr ⟨h3, ?_⟩
        have : i ≠ K := fun hik => hne (by rw [h3, hik])
        omega
    -- the case where the state does not change
    have same : ∀ st2 : CompilerState, st2.bbs = st.bbs → st2.heap.length = st.heap.length →
        (∀ q, (st2.deref q).code = (st.deref q).code) →
        (∀ q, (st2.deref q).dead = (st.deref q).dead) →
        (∀ q, (st2.deref q).visited = (st.deref q).visited) →
        (op.dead = false → is_pure cfg op.code = true → op.has_dest = true →
          0 < op.num_inputs → ∀ d, op.regs[op.num_inputs]? = some d →
          0 < liveUses st d) →
        SweepInv cfg B K c st2 ∧ st2.bbs = st.bbs ∧
          (∀ q, (st2.deref q).code.length = (st.deref q).code.length) ∧
          (∀ q, (st2.deref q).visited = (st.deref q).visited) := by
      intro st2 hb hl hc hdd hvv hpos
      refine ⟨?_, hb, fun q => by rw [hc q], hvv⟩
      have h0 : SweepInv cfg B K c st := by
        refine ⟨h.distinct, h.sized, h.counts, h.fresh, h.alive, h.sound, ?_⟩
        intro b i op1 d ho hs h1 h2 h3 h4 h5
        by_cases hne : (b, i) = (B, K)
        · simp only [Prod.mk.injEq] at hne
          rw [hne.1, hne.2, hat] at ho
          cases ho
          obtain ⟨b', i', o, h6, h7, h8⟩ := liveUses_pos st d (hpos h1 h2 h3 h4 d h5)
          exact ⟨b', i', o, h6, h7, Or.inl h8⟩
        · exact h.served b i op1 d ho (hold b i hs hne) h1 h2 h3 h4 h5
      exact h0.congr hb hl hc hdd (fun b q hbB hq => by
        rw [hvv]; exact h.fresh b q hbB (hb ▸ hq))
    have hset : ∀ q, ((st.modify p (fun b => { b with code := b.code.set K op })).deref q).code =
        (st.deref q).code := by
      intro q
      rw [deref_modify]
      split
      · rename_i hq
        rw [hq.1]
        simp only
        exact set_self _ _ _ hop
      · rfl
    have hflag : ∀ (x : CompilerOp) (q : Nat),
        ((st.modify p (fun b => { b with code := b.code.set K x })).deref q).dead =
          (st.deref q).dead ∧
        ((st.modify p (fun b => { b with code := b.code.set K x })).deref q).visited =
          (st.deref q).visited := by
      intro x q
      rw [deref_modify]
      split <;> exact ⟨rfl, rfl⟩
    by_cases hlive : op.dead = false
    · simp only [hlive, Bool.not_false, if_true] at hv
      cases hvo : DeadCodeElim.visit_op cfg c op with
      | error f => simp [hvo] at hv
      | ok res =>
        obtain ⟨c1, op1⟩ := res
        simp only [hvo, Except.ok.injEq, Prod.mk.injEq] at hv
        obtain ⟨hc', hst'⟩ := hv
        subst hc' hst'
        unfold DeadCodeElim.visit_op at hvo
        split at hvo
        · rename_i hguard
          split at hvo
          · simp at hvo
          · rename_i dest hdest
            split at hvo
            · -- the op is marked dead
              rename_i hkill
              simp only [Except.ok.injEq, Prod.mk.injEq] at hvo
              obtain ⟨hc1, hop1⟩ := hvo
              subst hc1 hop1
              have hz := Counts.zero h.counts dest hkill.2
              have hop' : ∀ b j, opAt (st.modify p (fun bb =>
                  { bb with code := bb.code.set K { op with dead := true } })) b j =
                  if b = B ∧ j = K then some { op with dead := true } else opAt st b j :=
                opAt_set st B p K _ op h.distinct hB hop
              have hlen : ∀ q, ((st.modify p (fun bb =>
                  { bb with code := bb.code.set K { op with dead := true } })).deref q).code.length =
                  (st.deref q).code.length := by
                intro q
                rw [deref_modify]
                split <;> simp
              have hliveop : ∀ b' i' o, opAt (st.modify p (fun bb =>
                  { bb with code := bb.code.set K { op with dead := true } })) b' i' = some o →
                  o.dead = false → opAt st b' i' = some o := by
                intro b' i' o ho hl
                rw [hop'] at ho
                split at ho
                · simp only [Option.some.injEq] at ho
                  rw [← ho] at hl
                  simp at hl
                · exact ho
              refine ⟨⟨⟨h.distinct.1, fun q hq => by simpa using h.distinct.2 q hq⟩,
                ⟨h.sized.1, fun q hq => by rw [hlen]; exact h.sized.2 q hq⟩, fun r => ?_,
                fun b q hbB hq => by rw [(hflag _ q).2]; exact h.fresh b q (by omega) hq,
                fun q hq => by rw [(hflag _ q).1]; exact h.alive q hq, ?_, ?_⟩, rfl, hlen,
                fun q => (hflag _ q).2⟩
              · rw [foldl_decr_count, h.counts r]
                have := liveUses_kill st p K op h.distinct (List.getElem?_mem hB) hop hlive r
                omega
              · intro b i o ho hd
                rw [hop'] at ho
                split at ho
                · simp only [Option.some.injEq] at ho
                  subst ho
                  exact ⟨hkill.1, hguard.2, dest, hdest, fun b' i' o ho' hl' =>
                    liveUses_zero st dest hz b' i' o (hliveop b' i' o ho' hl') hl'⟩
                · obtain ⟨h1, h2, d, h3, h4⟩ := h.sound b i o ho hd
                  exact ⟨h1, h2, d, h3, fun b' i' o' ho' hl' =>
                    h4 b' i' o' (hliveop b' i' o' ho' hl') hl'⟩
              · intro b i o d ho hs h1 h2 h3 h4 h5
                have ho' := hliveop b i o ho h1
                have hne : (b, i) ≠ (B, K) := by
                  intro he
                  simp only [Prod.mk.injEq] at he
                  rw [hop', if_pos he] at ho
                  simp only [Option.some.injEq] at ho
                  rw [← ho] at h1
                  simp at h1
                have hs0 : SweptAt st B K b i := sweptAt_congr hs rfl hlen
                obtain ⟨b', i', w, h6, h7, h8⟩ := h.served b i o d ho' (hold b i hs0 hne)
                  h1 h2 h3 h4 h5
                by_cases hw : b' = B ∧ i' = K
                · refine ⟨B, K, { op with dead := true }, by rw [hop']; simp, ?_, Or.inr ?_⟩
                  · rw [hw.1, hw.2, hat] at h6
                    cases h6
                    exact h7
                  · obtain ⟨_, _, h9⟩ := hs0
                    rcases h9 with h9 | ⟨h9, h10⟩
                    · exact Or.inl h9
                    · refine Or.inr ⟨h9.symm, ?_⟩
                      have : i ≠ K := fun hik => hne (by rw [h9, hik])
                      omega
                · exact ⟨b', i', w, by rw [hop', if_neg hw]; exact h6, h7, h8⟩
            · rename_i hkeep
              simp only [Except.ok.injEq, Prod.mk.injEq] at hvo
              obtain ⟨hc1, hop1⟩ := hvo
              subst hc1 hop1
              refine same _ rfl (by simp) hset (fun q => (hflag op q).1)
                (fun q => (hflag op q).2) ?_
              intro _ hp _ _ d hd
              rw [hdest] at hd
              cases hd
              exact Counts.pos_of_ne_zero h.counts dest (fun h0 => hkeep ⟨hp, h0⟩)
        · rename_i hguard
          simp only [Except.ok.injEq, Prod.mk.injEq] at hvo
          obtain ⟨hc1, hop1⟩ := hvo
          subst hc1 hop1
          refine same _ rfl (by simp) hset (fun q => (hflag op q).1) (fun q => (hflag op q).2) ?_
          intro _ _ hd hn _ _
          exact absurd ⟨hn, hd⟩ hguard
    · simp only [Bool.not_eq_false] at hlive
      simp only [hlive, Bool.not_true, Bool.false_eq_true, if_false, Except.ok.injEq,
        Prod.mk.injEq] at hv
      obtain ⟨hc', hst'⟩ := hv
      subst hc' hst'
      refine same _ rfl rfl (fun _ => rfl) (fun _ => rfl) (fun _ => rfl) ?_
      intro hl
      rw [hl] at hlive
      cases hlive


theorem backLoop_inv {σ : Type} (body : σ → Nat → Except Fault σ) (I : Nat → σ → Prop)
    (hstep : ∀ i s s', I (i + 1) s → body s i = .ok s' → I i s') :
    ∀ (n : Nat) (s s' : σ), I n s → backLoop body n s = .ok s' → I 0 s' := by
  intro n
  induction n with
  | zero =>
    intro s s' hI h
    simp only [backLoop, Except.ok.injEq] at h
    exact h ▸ hI
  | succ n ih =>
    intro s s' hI h
    simp only [backLoop] at h
    split at h
    · simp at h
    · rename_i s1 hs1
      exact ih s1 s' (hstep n s s1 hI hs1) h

theorem sizePred_le (n i : Nat) (hn : n < 2 ^ 64) (hi : sizePred n ≤ i) : ¬ (i + 1 < n) := by
  unfold sizePred at hi
  omega

theorem foldl_modify_bbs (f : BasicBlock → BasicBlock) : ∀ (l : List Nat) (st : CompilerState),
    (l.foldl (fun s p => s.modify p f) st).bbs = st.bbs ∧
    (l.foldl (fun s p => s.modify p f) st).heap.length = st.heap.length
  | [], st => ⟨rfl, rfl⟩
  | p :: l, st => by
    have := foldl_modify_bbs f l (st.modify p f)
    simpa using this

theorem foldl_modify_deref (f : BasicBlock → BasicBlock) (hf : ∀ b, f (f b) = f b) :
    ∀ (l : List Nat) (st : CompilerState) (q : Nat),
    (l.foldl (fun s p => s.modify p f) st).deref q =
      if q ∈ l ∧ q < st.heap.length then f (st.deref q) else st.deref q
  | [], st, q => by simp
  | p :: l, st, q => by
    rw [List.foldl_cons, foldl_modify_deref f hf l (st.modify p f) q, deref_modify]
    simp only [modify_heap_length, List.mem_cons]
    by_cases h1 : q = p
    · subst h1
      by_cases h2 : q < st.heap.length
      · simp [h2, hf]
      · simp [h2]
    · simp [h1]

theorem resetVisited_bbs (st : CompilerState) : (resetVisited st).bbs = st.bbs :=
  (foldl_modify_bbs _ st.bbs st).1

theorem resetVisited_heap_length (st : CompilerState) :
    (resetVisited st).heap.length = st.heap.length :=
  (foldl_modify_bbs _ st.bbs st).2

theorem resetVisited_deref (st : CompilerState) (q : Nat) :
    (resetVisited st).deref q =
      if q ∈ st.bbs ∧ q < st.heap.length then { st.deref q with visited := false }
      else st.deref q :=
  foldl_modify_deref (fun b => { b with visited := false }) (fun _ => rfl) st.bbs st q

theorem resetVisited_code (st : CompilerState) (q : Nat) :
    ((resetVisited st).deref q).code = (st.deref q).code := by
  rw [resetVisited_deref]; split <;> rfl

theorem resetVisited_dead (st : CompilerState) (q : Nat) :
    ((resetVisited st).deref q).dead = (st.deref q).dead := by
  rw [resetVisited_deref]; split <;> rfl

theorem resetVisited_exits (st : CompilerState) (q : Nat) :
    ((resetVisited st).deref q).exits = (st.deref q).exits := by
  rw [resetVisited_deref]; split <;> rfl

theorem resetVisited_entries (st : CompilerState) (q : Nat) :
    ((resetVisited st).deref q).entries = (st.deref q).entries := by
  rw [resetVisited_deref]; split <;> rfl

theorem resetVisited_visited (st : CompilerState) (hW : st.WF) (q : Nat) (hq : q ∈ st.bbs) :
    ((resetVisited st).deref q).visited = false := by
  rw [resetVisited_deref, if_pos ⟨hq, hW q hq⟩]

/-- The op loop of the sweep on block `B`. -/
theorem SweepInv.visit_bb {cfg : Config} {B p : Nat} {c c' : Counts} {st st' : CompilerState}
    (h : SweepInv cfg (B + 1) 0 c st) (hB : st.bbs[B]? = some p)
    (hv : BackwardPass.visit_bb (DeadCodeElim.visit_op cfg) c st p = .ok (c', st')) :
    SweepInv cfg B 0 c' st' ∧ st'.bbs = st.bbs ∧
      (∀ q, (st'.deref q).visited = (st.deref q).visited) := by
  unfold BackwardPass.visit_bb at hv
  have hstart : SweepInv cfg B (sizePred (st.deref p).code.length) c st := by
    refine ⟨h.distinct, h.sized, h.counts, fun b q hb hq => h.fresh b q (by omega) hq, h.alive,
      h.sound, ?_⟩
    intro b i op d ho hs
    refine h.served b i op d ho ⟨hs.1, hs.2.1, ?_⟩
    rcases hs.2.2 with h1 | ⟨h1, h2⟩
    · omega
    · exfalso
      have h3 := hs.1
      unfold opAt at h3
      rw [h1, hB] at h3
      simp only [Option.some_bind, Option.isSome_iff_exists] at h3
      obtain ⟨a, ha⟩ := h3
      exact sizePred_le _ _ (h.sized.2 p (List.getElem?_mem hB)) h2
        (List.getElem?_eq_some.mp ha).1
  have := backLoop_inv (BackwardPass.visit_at (DeadCodeElim.visit_op cfg) p)
    (fun K s => SweepInv cfg B K s.1 s.2 ∧ s.2.bbs = st.bbs ∧
      (∀ q, (s.2.deref q).visited = (st.deref q).visited))
    (fun i s s' hI hs => by
      obtain ⟨h1, h2, h3⟩ := hI
      obtain ⟨h4, h5, _, h7⟩ := @SweepInv.visit_at cfg B i p s.1 s'.1 s.2 s'.2 h1 (h2 ▸ hB) hs
      exact ⟨h4, h5.trans h2, fun q => (h7 q).trans (h3 q)⟩)
    _ (c, st) (c', st') ⟨hstart, rfl, fun _ => rfl⟩ hv
  exact this

theorem visit_block_ok {σ : Type} (visit_op : σ → CompilerOp → Except Fault (σ × CompilerOp))
    (a : σ) (st : CompilerState) (i : Nat) (r : σ × CompilerState)
    (h : BackwardPass.visit_block visit_op (a, st) i = .ok r) :
    ∃ p, st.bbs[i]? = some p ∧
      (((!(st.deref p).visited && !(st.deref p).dead) = true ∧
          ∃ a1 st1, BackwardPass.visit_bb visit_op a st p = .ok (a1, st1) ∧
            r = (a1, st1.modify p (fun b => { b with visited := true }))) ∨
       ((!(st.deref p).visited && !(st.deref p).dead) = false ∧ r = (a, st))) := by
  unfold BackwardPass.visit_block at h
  split at h
  · cases h
  · rename_i p hp
    refine ⟨p, hp, ?_⟩
    split at h
    · rename_i hf
      left
      refine ⟨hf, ?_⟩
      split at h
      · cases h
      · rename_i a1 st1 hvb
        cases h
        exact ⟨a1, st1, hvb, rfl⟩
    · rename_i hf
      right
      cases h
      exact ⟨by simpa using hf, rfl⟩

/-- One iteration of the block loop of the sweep. -/
theorem SweepInv.visit_block {cfg : Config} {B : Nat} {c c' : Counts} {st st' : CompilerState}
    (h : SweepInv cfg (B + 1) 0 c st)
    (hv : BackwardPass.visit_block (DeadCodeElim.visit_op cfg) (c, st) B = .ok (c', st')) :
    SweepInv cfg B 0 c' st' := by
  obtain ⟨p, hp, hcase⟩ := visit_block_ok _ _ _ _ _ hv
  have hpm : p ∈ st.bbs := List.getElem?_mem hp
  have hflags : (!(st.deref p).visited && !(st.deref p).dead) = true := by
    rw [h.fresh B p (by omega) hp, h.alive p hpm]
    rfl
  rcases hcase with ⟨_, a1, st1, hvb, hr⟩ | ⟨hf, _⟩
  · injection hr with hc hst
    subst hc hst
    obtain ⟨h1, h2, h3⟩ := SweepInv.visit_bb h hp hvb
    refine h1.congr rfl (by simp) (fun q => ?_) (fun q => ?_) (fun b q hb hq => ?_)
    · rw [deref_modify]; split <;> rfl
    · rw [deref_modify]; split <;> rfl
    · simp only [modify_bbs] at hq
      rw [deref_modify]
      have hne : q ≠ p := by
        intro he
        rw [he, h2] at hq
        have := nodup_getElem?_inj h.distinct.1 hq hp
        omega
      simp only [hne, false_and, if_false]
      exact h1.fresh b q hb hq
  · rw [hflags] at hf
    cases hf

theorem opAt_resetVisited (st : CompilerState) (b i : Nat) :
    opAt (resetVisited st) b i = opAt st b i :=
  opAt_congr st (resetVisited st) (resetVisited_bbs st) (resetVisited_code st) b i

/-- The invariant holds when the block loop of the sweep starts. -/
theorem SweepInv.init {cfg : Config} {c : Counts} {st : CompilerState} (hD : st.Distinct)
    (hsz : st.bbs.length < 2 ^ 64 ∧ ∀ p ∈ st.bbs, (st.deref p).code.length < 2 ^ 64)
    (hops : st.NoDeadOps) (hbl : st.NoDeadBlocks) (hc : count_uses st (fun _ => 0) = .ok c) :
    SweepInv cfg (sizePred st.bbs.length) 0 c (resetVisited st) := by
  have hlive : ∀ b i op, opAt (resetVisited st) b i = some op → op.dead = false := by
    intro b i op ho
    rw [opAt_resetVisited] at ho
    obtain ⟨p, hp, hm⟩ := mem_of_opAt _ _ _ _ ho
    exact hops p hp op hm
  refine ⟨⟨by rw [resetVisited_bbs]; exact hD.1, fun p hp => ?_⟩,
    ⟨by rw [resetVisited_bbs]; exact hsz.1, fun p hp => ?_⟩, fun r => ?_, fun b p _ hp => ?_,
    fun p hp => ?_, fun b i op ho hd => ?_, fun b i op d ho hs => ?_⟩
  · rw [resetVisited_heap_length]; rw [resetVisited_bbs] at hp; exact hD.2 p hp
  · rw [resetVisited_code]; rw [resetVisited_bbs] at hp; exact hsz.2 p hp
  · rw [liveUses_congr st _ (resetVisited_bbs st) (resetVisited_code st)]
    exact count_uses_liveUses st c hops hc r
  · rw [resetVisited_bbs] at hp
    exact resetVisited_visited st hD.2 p (List.getElem?_mem hp)
  · rw [resetVisited_dead]; rw [resetVisited_bbs] at hp; exact hbl p hp
  · rw [hlive b i op ho] at hd; cases hd
  · exfalso
    obtain ⟨_, h2, h3⟩ := hs
    rw [resetVisited_bbs] at h2
    have := sizePred_le st.bbs.length b hsz.1
    rcases h3 with h3 | ⟨h3, _⟩
    · exact this (by omega) h2
    · exact this (by omega) h2

/-- The sweep of `DeadCodeElim`, on a program without dead ops or blocks, ends with the
invariant at block 0, op 0. -/
theorem DeadCodeElim.sweep_inv {cfg : Config} {c : Counts} {st st1 : CompilerState}
    (hD : st.Distinct)
    (hsz : st.bbs.length < 2 ^ 64 ∧ ∀ p ∈ st.bbs, (st.deref p).code.length < 2 ^ 64)
    (hops : st.NoDeadOps) (hbl : st.NoDeadBlocks)
    (h : DeadCodeElim.sweep cfg st = .ok (c, st1)) : SweepInv cfg 0 0 c st1 := by
  unfold DeadCodeElim.sweep at h
  split at h
  · cases h
  · rename_i c0 hc0
    unfold BackwardPass.sweep at h
    exact backLoop_inv (BackwardPass.visit_block (DeadCodeElim.visit_op cfg))
      (fun K s => SweepInv cfg K 0 s.1 s.2)
      (fun i s s' hI hs => @SweepInv.visit_block cfg i s.1 s'.1 s.2 s'.2
        hI hs)
      _ (c0, resetVisited st) (c, st1) (SweepInv.init hD hsz hops hbl hc0) h

theorem remove_dead_ops_idem (b : BasicBlock) :
    remove_dead_ops (remove_dead_ops b) = remove_dead_ops b := by
  simp [remove_dead_ops, List.filter_filter]

/-- The first loop of `remove_dead_code`. -/
theorem remove_dead_fold : ∀ (l : List Nat) (st : CompilerState),
    (l.foldl (fun s p => if (s.deref p).dead then s else s.modify p remove_dead_ops) st).bbs
        = st.bbs ∧
    (l.foldl (fun s p => if (s.deref p).dead then s else s.modify p remove_dead_ops)
        st).heap.length = st.heap.length ∧
    ∀ q, (l.foldl (fun s p => if (s.deref p).dead then s else s.modify p remove_dead_ops)
        st).deref q =
      if q ∈ l ∧ q < st.heap.length ∧ (st.deref q).dead = false then remove_dead_ops (st.deref q)
      else st.deref q
  | [], st => by simp
  | p :: l, st => by
    rw [List.foldl_cons]
    by_cases hd : (st.deref p).dead = true
    · rw [if_pos hd]
      obtain ⟨h1, h2, h3⟩ := remove_dead_fold l st
      refine ⟨h1, h2, fun q => ?_⟩
      rw [h3 q]
      by_cases hq : q = p
      · subst hq
        simp [hd]
      · simp [hq]
    · rw [if_neg hd]
      obtain ⟨h1, h2, h3⟩ := remove_dead_fold l (st.modify p remove_dead_ops)
      refine ⟨h1, h2.trans (modify_heap_length _ _ _), fun q => ?_⟩
      rw [h3 q, deref_modify, modify_heap_length]
      have hd' : (st.deref p).dead = false := by simpa using hd
      by_cases hq : q = p
      · subst hq
        by_cases hl : q < st.heap.length
        · simp [hl, hd', remove_dead_ops_idem, remove_dead_ops]
        · simp [hl]
      · simp [hq]

theorem remove_dead_code_bbs (st : CompilerState) (hbl : st.NoDeadBlocks) :
    (remove_dead_code st).bbs = st.bbs := by
  unfold remove_dead_code
  simp only
  rw [List.filter_eq_self]
  intro p hp
  rw [(remove_dead_fold st.bbs st).2.2 p]
  split
  · simp [remove_dead_ops, hbl p hp]
  · simp [hbl p hp]

theorem remove_dead_code_code (st : CompilerState) (hW : st.WF) (hbl : st.NoDeadBlocks)
    (p : Nat) (hp : p ∈ st.bbs) :
    ((remove_dead_code st).deref p).code = (st.deref p).code.filter (fun op => !op.dead) := by
  unfold remove_dead_code
  show ((st.bbs.foldl _ st).deref p).code = _
  rw [(remove_dead_fold st.bbs st).2.2 p, if_pos ⟨hp, hW p hp, hbl p hp⟩]
  rfl

/-- **C9** (soundness of `DeadCodeElim`).  On a program in which no op and no block is dead
on entry (the blocks of `bbs` distinct and allocated, the vector sizes below `2 ^ 64`),
every op that the sweep of `DeadCodeElim` leaves marked dead is pure, has a destination,
and its destination register is an input of no op that is still live: neither in the
state the sweep leaves, nor in the blocks `remove_dead_code` leaves at the end of the
pass.  In particular an op that is not pure is never marked dead. -/
theorem deadCodeElim_sound (cfg : Config) (st st1 : CompilerState) (c : Counts)
    (hD : st.Distinct)
    (hsz : st.bbs.length < 2 ^ 64 ∧ ∀ p ∈ st.bbs, (st.deref p).code.length < 2 ^ 64)
    (hops : st.NoDeadOps) (hbl : st.NoDeadBlocks)
    (h : DeadCodeElim.sweep cfg st = .ok (c, st1)) :
    DeadCodeElim cfg st = .ok (remove_dead_code st1) ∧
    ∀ b i op, opAt st1 b i = some op → op.dead = true →
      is_pure cfg op.code = true ∧ op.has_dest = true ∧
      ∃ d, op.regs[op.num_inputs]? = some d ∧
        (∀ b' i' o, opAt st1 b' i' = some o → o.dead = false → d ∉ o.inputs) ∧
        (∀ p ∈ (remove_dead_code st1).bbs, ∀ o ∈ ((remove_dead_code st1).deref p).code,
          d ∉ o.inputs) := by
  have hinv := DeadCodeElim.sweep_inv hD hsz hops hbl h
  refine ⟨by unfold DeadCodeElim; rw [h], fun b i op ho hd => ?_⟩
  obtain ⟨h1, h2, d, h3, h4⟩ := hinv.sound b i op ho hd
  refine ⟨h1, h2, d, h3, h4, fun p hp o hmem => ?_⟩
  rw [remove_dead_code_bbs st1 hinv.alive] at hp
  rw [remove_dead_code_code st1 hinv.distinct.2 hinv.alive p hp, List.mem_filter] at hmem
  obtain ⟨b', i', ho'⟩ := opAt_of_mem st1 p o hp hmem.1
  exact h4 b' i' o ho' (by simpa using hmem.2)

theorem deadCodeElim_sound_witness :
    ∃ c st1, DeadCodeElim.sweep sampleConfig deadLoadProgram = .ok (c, st1) ∧
      opAt st1 0 0 = some { add_dest_op2 LOAD_FAST 0 0 3 with dead := true } ∧
      (DeadCodeElim sampleConfig deadLoadProgram = .ok (remove_dead_code st1) ∧
      ∀ b i op, opAt st1 b i = some op → op.dead = true →
        is_pure sampleConfig op.code = true ∧ op.has_dest = true ∧
        ∃ d, op.regs[op.num_inputs]? = some d ∧
          (∀ b' i' o, opAt st1 b' i' = some o → o.dead = false → d ∉ o.inputs) ∧
          (∀ p ∈ (remove_dead_code st1).bbs, ∀ o ∈ ((remove_dead_code st1).deref p).code,
            d ∉ o.inputs)) :=
  ⟨_, _, rfl, rfl, deadCodeElim_sound sampleConfig deadLoadProgram _ _
    (by decide) ⟨by decide, by decide⟩ (by decide) (by decide) rfl⟩

set_option synthInstance.maxSize 2000 in
/-- **C7** (P5, use counts after `DeadCodeElim`).  The claim fails on the code: `visit_op`
only looks at an op when `n_inputs > 0`, although `is_pure` lists `LOAD_GLOBAL`,
`LOAD_NAME`, `LOAD_LOCALS`, `LOAD_DEREF` and `LOAD_CLOSURE`, which `registerize` emits with
a destination and no input register; such an op is never marked dead.  On a program whose
first block starts with a `LOAD_GLOBAL` into register 1, a register no op reads,
`DeadCodeElim` returns with that op still in place: it is live and pure and has a
destination, and no op of any block of the result has register 1 among its inputs.  The op
is neither the last of its block nor in the last block, so `visit_op` is called on it.  The
same happens on the bytecode of `y = g; if a: return 1; return 2`: after `optimize` the
entry block is `y = LOAD_GLOBAL; POP_JUMP_IF_FALSE a` (`y` is register 4), the `LOAD_GLOBAL`
is live, and no op of the three blocks reads register 4.  The loop bounds of
`BackwardPass` break the claim as well: on the bytecode of `b = a; return 1` the only block
is the last of `bbs`, `visit_op` is never called, and `r4 = LOAD_FAST a` stays live with
no op that reads register 4. -/
theorem deadCodeElim_keeps_unused_load :
    (∃ st1, DeadCodeElim sampleConfig unusedGlobalProgram = .ok st1 ∧
      opAt st1 0 0 = some (add_dest_op1 LOAD_GLOBAL 0 1) ∧
      (st1.deref 0).dead = false ∧
      (add_dest_op1 LOAD_GLOBAL 0 1).dead = false ∧
      is_pure sampleConfig (add_dest_op1 LOAD_GLOBAL 0 1).code = true ∧
      (add_dest_op1 LOAD_GLOBAL 0 1).has_dest = true ∧
      (add_dest_op1 LOAD_GLOBAL 0 1).regs[(add_dest_op1 LOAD_GLOBAL 0 1).num_inputs]? = some 1 ∧
      ∀ p ∈ st1.bbs, ∀ o ∈ (st1.deref p).code, (1 : Int) ∉ o.inputs) ∧
    (optimizeFrom sampleConfig sampleStack unusedGlobalCode 3 2).map (Except.map (fun s =>
        (s.bbs, s.bbs.map s.listing, opAt s 0 0, (s.deref 0).dead,
          s.bbs.all (fun p => (s.deref p).code.all (fun o => decide ((4 : Int) ∉ o.inputs)))))) =
      some (.ok ([0, 4, 6],
        [([(LOAD_GLOBAL, [4]), (POP_JUMP_IF_FALSE, [3])], [some 4, some 6]),
         ([(RETURN_VALUE, [1])], []),
         ([(LOAD_FAST, [2, 8]), (RETURN_VALUE, [2])], [])],
        some (add_dest_op1 LOAD_GLOBAL 0 4), false, true)) ∧
    (add_dest_op1 LOAD_GLOBAL 0 4).dead = false ∧
    is_pure sampleConfig (add_dest_op1 LOAD_GLOBAL 0 4).code = true ∧
    (add_dest_op1 LOAD_GLOBAL 0 4).has_dest = true ∧
    (add_dest_op1 LOAD_GLOBAL 0 4).regs[(add_dest_op1 LOAD_GLOBAL 0 4).num_inputs]? = some 4 ∧
    (optimizeFrom sampleConfig sampleStack deadCopyCode 2 2).map (Except.map (fun s =>
        (s.bbs, s.bbs.map s.listing, opAt s 0 0, (s.deref 0).dead,
          s.bbs.all (fun p => (s.deref p).code.all (fun o => decide ((4 : Int) ∉ o.inputs)))))) =
      some (.ok ([0],
        [([(LOAD_FAST, [2, 4]), (STORE_FAST, [2, 3]), (LOAD_FAST, [1, 5]), (RETURN_VALUE, [1])],
          [])],
        some (add_dest_op2 LOAD_FAST 0 2 4), false, true)) ∧
    (add_dest_op2 LOAD_FAST 0 2 4).dead = false ∧
    is_pure sampleConfig (add_dest_op2 LOAD_FAST 0 2 4).code = true ∧
    (add_dest_op2 LOAD_FAST 0 2 4).has_dest = true ∧
    (add_dest_op2 LOAD_FAST 0 2 4).regs[(add_dest_op2 LOAD_FAST 0 2 4).num_inputs]? = some 4 := by
  refine ⟨⟨_, rfl, rfl, rfl, rfl, rfl, rfl, rfl, by decide⟩, ?_, rfl, rfl, rfl, rfl, ?_,
    rfl, rfl, rfl, rfl⟩
  · decide!
  · decide!

/-- Use counts after the sweep of `DeadCodeElim`, before `remove_dead_code`, for the ops
the sweep visits.  On a program in which no op and no
block is dead on entry, after the sweep of `DeadCodeElim` every live pure op with a
destination and at least one input register, that is not the last op of its block and
whose block is not the last of `bbs`, has its destination among the inputs of an op that
is live, or that comes before it in program order (and was marked dead after the op was
visited). -/
theorem deadCodeElim_served (cfg : Config) (st st1 : CompilerState) (c : Counts)
    (hD : st.Distinct)
    (hsz : st.bbs.length < 2 ^ 64 ∧ ∀ p ∈ st.bbs, (st.deref p).code.length < 2 ^ 64)
    (hops : st.NoDeadOps) (hbl : st.NoDeadBlocks)
    (h : DeadCodeElim.sweep cfg st = .ok (c, st1)) :
    ∀ b i op d, opAt st1 b i = some op → (opAt st1 b (i + 1)).isSome →
      b + 1 < st1.bbs.length → op.dead = false → is_pure cfg op.code = true →
      op.has_dest = true → 0 < op.num_inputs → op.regs[op.num_inputs]? = some d →
      ∃ b' i' o, opAt st1 b' i' = some o ∧ d ∈ o.inputs ∧
        (o.dead = false ∨ b' < b ∨ (b' = b ∧ i' < i)) := by
  intro b i op d ho hnext hb hlive hpure hdest hin hd
  refine (DeadCodeElim.sweep_inv hD hsz hops hbl h).served b i op d ho ⟨hnext, hb, ?_⟩
    hlive hpure hdest hin hd
  omega

theorem deadCodeElim_served_witness :
    ∃ c st1, DeadCodeElim.sweep sampleConfig twoBlockProgram = .ok (c, st1) ∧
      opAt st1 0 0 = some (add_dest_op2 LOAD_FAST 0 0 3) ∧
      ∀ b i op d, opAt st1 b i = some op → (opAt st1 b (i + 1)).isSome →
        b + 1 < st1.bbs.length → op.dead = false → is_pure sampleConfig op.code = true →
        op.has_dest = true → 0 < op.num_inputs → op.regs[op.num_inputs]? = some d →
        ∃ b' i' o, opAt st1 b' i' = some o ∧ d ∈ o.inputs ∧
          (o.dead = false ∨ b' < b ∨ (b' = b ∧ i' < i)) :=
  ⟨_, _, rfl, rfl, deadCodeElim_served sampleConfig twoBlockProgram _ _
    (by decide) ⟨by decide, by decide⟩ (by decide) (by decide) rfl⟩

/-! ## Block fusion -/

theorem valid_of_exits (st : CompilerState) (p : Nat) (h : (st.deref p).exits ≠ []) :
    p < st.heap.length := by
  by_contra hlt
  apply h
  unfold CompilerState.deref
  rw [List.getElem?_eq_none (Nat.le_of_not_lt hlt)]
  rfl

theorem valid_of_entries (st : CompilerState) (p : Nat) (h : (st.deref p).entries ≠ []) :
    p < st.heap.length := by
  by_contra hlt
  apply h
  unfold CompilerState.deref
  rw [List.getElem?_eq_none (Nat.le_of_not_lt hlt)]
  rfl

theorem deref_modify_entries (st : CompilerState) (p : Nat) (f : BasicBlock → BasicBlock)
    (q : Nat) (h : ∀ b, (f b).entries = b.entries) :
    ((st.modify p f).deref q).entries = (st.deref q).entries := by
  rw [deref_modify]
  split
  · exact h _
  · rfl

theorem deref_modify_exits (st : CompilerState) (p : Nat) (f : BasicBlock → BasicBlock)
    (q : Nat) (h : ∀ b, (f b).exits = b.exits) :
    ((st.modify p f).deref q).exits = (st.deref q).exits := by
  rw [deref_modify]
  split
  · exact h _
  · rfl

theorem deref_modify_visited (st : CompilerState) (p : Nat) (f : BasicBlock → BasicBlock)
    (q : Nat) (h : ∀ b, (f b).visited = b.visited) :
    ((st.modify p f).deref q).visited = (st.deref q).visited := by
  rw [deref_modify]
  split
  · exact h _
  · rfl

theorem splice_entries (st : CompilerState) (bb next q : Nat) :
    ((FuseBasicBlocks.splice st bb next).deref q).entries = (st.deref q).entries := by
  unfold FuseBasicBlocks.splice
  dsimp only
  refine Eq.trans (deref_modify_entries _ _ _ _ ?_) ?_
  · intro _; rfl
  refine Eq.trans (deref_modify_entries _ _ _ _ ?_) ?_
  · intro _; rfl
  refine deref_modify_entries _ _ _ _ ?_
  intro _; rfl

theorem splice_exits_other (st : CompilerState) (bb next q : Nat) (hq : q ≠ bb) :
    ((FuseBasicBlocks.splice st bb next).deref q).exits = (st.deref q).exits := by
  unfold FuseBasicBlocks.splice
  dsimp only
  rw [deref_modify, if_neg (fun h => hq h.1)]
  refine Eq.trans (deref_modify_exits _ _ _ _ ?_) ?_
  · intro _; rfl
  refine deref_modify_exits _ _ _ _ ?_
  intro _; rfl

theorem splice_exits_self (st : CompilerState) (bb next : Nat) (hbb : bb < st.heap.length) :
    ((FuseBasicBlocks.splice st bb next).deref bb).exits = (st.deref next).exits := by
  unfold FuseBasicBlocks.splice
  dsimp only
  rw [deref_modify, if_pos ⟨rfl, by simpa using hbb⟩]
  dsimp only
  refine Eq.trans (deref_modify_exits _ _ _ _ ?_) ?_
  · intro _; rfl
  refine deref_modify_exits _ _ _ _ ?_
  intro _; rfl

theorem splice_visited_eq (st : CompilerState) (bb next q : Nat) :
    ((FuseBasicBlocks.splice st bb next).deref q).visited =
      if q = next ∧ next < st.heap.length then true else (st.deref q).visited := by
  unfold FuseBasicBlocks.splice
  dsimp only
  refine Eq.trans (deref_modify_visited _ _ _ _ ?_) ?_
  · intro _; rfl
  rw [deref_modify, modify_heap_length]
  split
  · rfl
  · refine deref_modify_visited _ _ _ _ ?_
    intro _; rfl

theorem splice_visited (st : CompilerState) (bb next q : Nat)
    (h : ((FuseBasicBlocks.splice st bb next).deref q).visited = false) :
    (st.deref q).visited = false ∧ (q = next → ¬ next < st.heap.length) := by
  rw [splice_visited_eq] at h
  split at h
  · cases h
  · rename_i hc
    exact ⟨h, fun hq hlt => hc ⟨hq, hlt⟩⟩

theorem LogOK.append {log : List SpliceEvent} {ev : SpliceEvent} (h : LogOK log)
    (hev : SpliceOK log ev) : LogOK (log ++ [ev]) := by
  intro i e hi
  by_cases hlt : i < log.length
  · rw [List.getElem?_append_left hlt] at hi
    rw [List.take_append_of_le_length (Nat.le_of_lt hlt)]
    exact h i e hi
  · have hle : log.length ≤ i := Nat.le_of_not_lt hlt
    rw [List.getElem?_append_right hle] at hi
    have h0 : i - log.length = 0 := by
      by_contra hne
      obtain ⟨k, hk⟩ := Nat.exists_eq_succ_of_ne_zero hne
      rw [hk] at hi
      simp at hi
    rw [h0] at hi
    simp only [List.getElem?_cons_zero, Option.some.injEq] at hi
    have hi2 : i = log.length := by omega
    subst hi hi2
    rw [List.take_append_of_le_length (Nat.le_refl _), List.take_length]
    exact hev

/-- The `while` loop of `FuseBasicBlocks::visit_bb`: `cur` is the block whose exits `bb`
carries at the head of the loop. -/
theorem FuseBasicBlocks.loop_inv (s0 : CompilerState) (hM : s0.Marked) :
    ∀ (fuel bb : Nat) (next : Option Nat) (log : List SpliceEvent) (st : CompilerState)
      (cur : Nat), FuseInv s0 (some bb) log st →
      (cur = bb ∨ ∃ e ∈ log, e.into = bb ∧ e.block = cur) →
      (s0.deref cur).exits = [next] → (st.deref bb).exits = [next] →
      (∀ log1 st1, FuseBasicBlocks.loop fuel bb next log st = .ok (log1, st1) →
        FuseInv s0 (some bb) log1 st1) ∧
      (∀ f log1, FuseBasicBlocks.loop fuel bb next log st = .error (f, log1) → LogOK log1) := by
  intro fuel
  induction fuel with
  | zero =>
    intro bb next log st cur h _ _ _
    refine ⟨fun log1 st1 hr => ?_, fun f log1 hr => ?_⟩
    · simp [FuseBasicBlocks.loop] at hr
    · simp only [FuseBasicBlocks.loop, Except.error.injEq, Prod.mk.injEq] at hr
      exact hr.2 ▸ h.log
  | succ fuel ih =>
    intro bb next log st cur h hcur hexits hbbex
    cases next with
    | none =>
      refine ⟨fun log1 st1 hr => ?_, fun f log1 hr => ?_⟩
      · simp [FuseBasicBlocks.loop] at hr
      · simp only [FuseBasicBlocks.loop, Except.error.injEq, Prod.mk.injEq] at hr
        exact hr.2 ▸ h.log
    | some n =>
      by_cases hg : (decide (1 < (st.deref n).entries.length) || (st.deref n).visited) = true
      · refine ⟨fun log1 st1 hr => ?_, fun f log1 hr => ?_⟩
        · simp only [FuseBasicBlocks.loop, hg, if_true, Except.ok.injEq, Prod.mk.injEq] at hr
          exact hr.1 ▸ hr.2 ▸ h
        · simp [FuseBasicBlocks.loop, hg] at hr
      · have hg1 : ¬ 1 < (st.deref n).entries.length := by
          intro hc; apply hg; simp [hc]
        have hg2 : (st.deref n).visited = false := by
          cases hv : (st.deref n).visited
          · rfl
          · exfalso; apply hg; simp [hv]
        have hbbv : bb < st.heap.length := valid_of_exits st bb (by rw [hbbex]; simp)
        -- the spliced block has exactly `cur` as its recorded predecessor
        have hmem : cur ∈ (st.deref n).entries := by
          rw [h.entries n]
          exact hM cur n (by rw [hexits]; simp)
        have hent : (st.deref n).entries = [cur] := by
          cases hl : (st.deref n).entries with
          | nil => rw [hl] at hmem; cases hmem
          | cons x xs =>
            rw [hl] at hmem hg1
            cases xs with
            | nil => rw [List.mem_singleton.mp hmem]
            | cons y ys => simp at hg1
        have hev : SpliceOK log { into := bb, block := n, entries := (st.deref n).entries } :=
          ⟨cur, hent, hcur⟩
        have hinv : FuseInv s0 (some bb)
            (log ++ [{ into := bb, block := n, entries := (st.deref n).entries }])
            (FuseBasicBlocks.splice st bb n) := by
          refine ⟨?_, fun q => ?_, fun q hq hne => ?_, h.log.append hev⟩
          · rw [← h.len]
            simp [FuseBasicBlocks.splice]
          · rw [splice_entries]; exact h.entries q
          · have hne1 : q ≠ bb := fun hc => hne (by rw [hc])
            rw [splice_exits_other st bb n q hne1]
            exact h.exits q (splice_visited st bb n q hq).1 hne
        have hnew : ((FuseBasicBlocks.splice st bb n).deref bb).exits = (st.deref n).exits :=
          splice_exits_self st bb n hbbv
        -- the block whose exits `bb` carries from now on
        have hcur1 : ∃ cur1, (cur1 = bb ∨ ∃ e ∈ log ++
              [{ into := bb, block := n, entries := (st.deref n).entries }],
              e.into = bb ∧ e.block = cur1) ∧ (s0.deref cur1).exits = (st.deref n).exits := by
          by_cases hnb : n = bb
          · refine ⟨cur, ?_, ?_⟩
            · rcases hcur with hc | ⟨e, he, he2⟩
              · exact Or.inl hc
              · exact Or.inr ⟨e, List.mem_append_left _ he, he2⟩
            · rw [hexits, hnb, hbbex, hnb]
          · refine ⟨n, Or.inr ⟨_, List.mem_append_right _ (List.mem_singleton.mpr rfl), rfl, rfl⟩,
              ?_⟩
            exact (h.exits n hg2 (fun hc => hnb (Option.some.inj hc))).symm
        obtain ⟨cur1, hc1, hc2⟩ := hcur1
        have hloop : FuseBasicBlocks.loop (fuel + 1) bb (some n) log st =
            match ((FuseBasicBlocks.splice st bb n).deref bb).exits with
            | [e] => FuseBasicBlocks.loop fuel bb e
                (log ++ [{ into := bb, block := n, entries := (st.deref n).entries }])
                (FuseBasicBlocks.splice st bb n)
            | _ => .ok (log ++ [{ into := bb, block := n, entries := (st.deref n).entries }],
                FuseBasicBlocks.splice st bb n) := by
          simp only [FuseBasicBlocks.loop, hg, if_false]
          rfl
        rw [hloop]
        split
        · rename_i e he
          exact ih bb e _ _ cur1 hinv hc1 (by rw [hc2, ← hnew, he]) he
        · refine ⟨fun log1 st1 hr => ?_, fun f log1 hr => ?_⟩
          · simp only [Except.ok.injEq, Prod.mk.injEq] at hr
            exact hr.1 ▸ hr.2 ▸ hinv
          · cases hr


theorem forwardLoop_inv {σ ε : Type}
    (visit_bb : σ → CompilerState → Nat → Except ε (σ × CompilerState))
    (I : List Nat → σ → CompilerState → Prop) (E : ε → Prop)
    (hstep : ∀ p ps a st, I (p :: ps) a st →
      ((!(st.deref p).visited && !(st.deref p).dead) = true →
        (∀ a1 st1, visit_bb a st p = .ok (a1, st1) →
          I ps a1 (st1.modify p (fun b => { b with visited := true }))) ∧
        (∀ e, visit_bb a st p = .error e → E e)) ∧
      ((!(st.deref p).visited && !(st.deref p).dead) = false → I ps a st)) :
    ∀ ps a st, I ps a st →
      (∀ a1 st1, forwardLoop visit_bb ps a st = .ok (a1, st1) → I [] a1 st1) ∧
      (∀ e, forwardLoop visit_bb ps a st = .error e → E e) := by
  intro ps
  induction ps with
  | nil =>
    intro a st hI
    refine ⟨fun a1 st1 hr => ?_, fun e hr => ?_⟩
    · simp only [forwardLoop, Except.ok.injEq, Prod.mk.injEq] at hr
      exact hr.1 ▸ hr.2 ▸ hI
    · simp [forwardLoop] at hr
  | cons p ps ih =>
    intro a st hI
    obtain ⟨h1, h2⟩ := hstep p ps a st hI
    by_cases hc : (!(st.deref p).visited && !(st.deref p).dead) = true
    · obtain ⟨h3, h4⟩ := h1 hc
      cases hv : visit_bb a st p with
      | error e =>
        refine ⟨fun a1 st1 hr => ?_, fun e1 hr => ?_⟩
        · simp [forwardLoop, hc, hv] at hr
        · simp only [forwardLoop, hc, if_true, hv, Except.error.injEq] at hr
          exact hr ▸ h4 e hv
      | ok res =>
        obtain ⟨a1, st1⟩ := res
        have := ih a1 _ (h3 a1 st1 hv)
        simpa only [forwardLoop, hc, if_true, hv] using this
    · have hc2 : (!(st.deref p).visited && !(st.deref p).dead) = false := by simpa using hc
      have := ih a st (h2 hc2)
      simpa only [forwardLoop, hc2, Bool.false_eq_true, if_false] using this

theorem FuseBasicBlocks.visit_bb_inv (s0 : CompilerState) (hM : s0.Marked) (fuel bb : Nat)
    (log : List SpliceEvent) (st : CompilerState) (h : FuseInv s0 none log st) :
    (∀ log1 st1, FuseBasicBlocks.visit_bb fuel log st bb = .ok (log1, st1) →
      FuseInv s0 (some bb) log1 st1) ∧
    (∀ f log1, FuseBasicBlocks.visit_bb fuel log st bb = .error (f, log1) → LogOK log1) := by
  have hweak : FuseInv s0 (some bb) log st :=
    ⟨h.len, h.entries, fun q hq _ => h.exits q hq (by simp), h.log⟩
  unfold FuseBasicBlocks.visit_bb
  split
  · refine ⟨fun log1 st1 hr => ?_, fun f log1 hr => ?_⟩
    · simp only [Except.ok.injEq, Prod.mk.injEq] at hr
      exact hr.1 ▸ hr.2 ▸ hweak
    · cases hr
  · rename_i hflags
    split
    · rename_i next hnext
      have hv : (st.deref bb).visited = false := by
        cases hx : (st.deref bb).visited
        · rfl
        · exfalso; apply hflags; simp [hx]
      exact FuseBasicBlocks.loop_inv s0 hM fuel bb next log st bb hweak (Or.inl rfl)
        (by rw [← h.exits bb hv (by simp), hnext]) hnext
    · refine ⟨fun log1 st1 hr => ?_, fun f log1 hr => ?_⟩
      · simp only [Except.ok.injEq, Prod.mk.injEq] at hr
        exact hr.1 ▸ hr.2 ▸ hweak
      · cases hr

theorem FuseInv.visited {s0 : CompilerState} {bb : Nat} {log : List SpliceEvent}
    {st : CompilerState} (h : FuseInv s0 (some bb) log st) :
    FuseInv s0 none log (st.modify bb (fun b => { b with visited := true })) := by
  refine ⟨by rw [modify_heap_length]; exact h.len, fun q => ?_, fun q hq _ => ?_, h.log⟩
  · refine Eq.trans (deref_modify_entries _ _ _ _ ?_) (h.entries q)
    intro _; rfl
  · rw [deref_modify] at hq
    split at hq
    · cases hq
    · rename_i hc
      refine Eq.trans (deref_modify_exits _ _ _ _ ?_) ?_
      · intro _; rfl
      by_cases hqb : q = bb
      · have hnv : ¬ bb < st.heap.length := fun hlt => hc ⟨hqb, hlt⟩
        subst hqb
        unfold CompilerState.deref
        rw [List.getElem?_eq_none (Nat.le_of_not_lt hnv),
          List.getElem?_eq_none (by rw [← h.len]; exact Nat.le_of_not_lt hnv)]
      · exact h.exits q hq (fun hc2 => hqb (Option.some.inj hc2))

/-- The splices of `FuseBasicBlocks`, run from a state in which every edge is recorded, are
sound, whatever the fuel and whether or not the run returns. -/
theorem FuseBasicBlocks.trace_ok (fuel : Nat) (st : CompilerState) (hM : st.Marked) :
    LogOK (FuseBasicBlocks.trace fuel st) := by
  have hM0 : (resetVisited st).Marked := by
    intro p q hq
    rw [resetVisited_exits] at hq
    rw [resetVisited_entries]
    exact hM p q hq
  have hloop := forwardLoop_inv (FuseBasicBlocks.visit_bb fuel)
    (fun _ log s => FuseInv (resetVisited st) none log s)
    (fun e => LogOK e.2)
    (fun p ps a s hI => by
      refine ⟨fun _ => ?_, fun _ => hI⟩
      obtain ⟨h1, h2⟩ := FuseBasicBlocks.visit_bb_inv (resetVisited st) hM0 fuel p a s hI
      exact ⟨fun a1 st1 hr => (h1 a1 st1 hr).visited, fun e hr => h2 e.1 e.2 hr⟩)
    st.bbs [] (resetVisited st)
    ⟨rfl, fun _ => rfl, fun _ _ _ => rfl, fun i ev hi => by simp at hi⟩
  unfold FuseBasicBlocks.trace FuseBasicBlocks.run CompilerPass.visit_fn
  cases hr : forwardLoop (FuseBasicBlocks.visit_bb fuel) st.bbs [] (resetVisited st) with
  | error e => exact hloop.2 e hr
  | ok res => exact (hloop.1 res.1 res.2 hr).log

/-! ## `MarkEntries` -/

theorem remove_dead_code_deref (st : CompilerState) (q : Nat) :
    ((remove_dead_code st).deref q).exits = (st.deref q).exits ∧
    ((remove_dead_code st).deref q).entries = (st.deref q).entries := by
  unfold remove_dead_code
  show ((st.bbs.foldl _ st).deref q).exits = _ ∧ ((st.bbs.foldl _ st).deref q).entries = _
  rw [(remove_dead_fold st.bbs st).2.2 q]
  split <;> exact ⟨rfl, rfl⟩

/-- The loop of `MarkEntries::visit_bb` over the exits `l` of block `p`. -/
theorem markEntries_fold (p : Nat) : ∀ (l : List (Option Nat)) (s s1 : CompilerState),
    l.foldlM (fun (s : Unit × CompilerState) next =>
        match next with
        | none => Except.error Fault.nullDeref
        | some n => Except.ok ((), s.2.modify n (fun b => { b with entries := b.entries ++ [p] })))
      ((), s) = .ok ((), s1) →
    s1.heap.length = s.heap.length ∧ s1.bbs = s.bbs ∧
    (∀ q, (s1.deref q).exits = (s.deref q).exits ∧ (s1.deref q).visited = (s.deref q).visited ∧
      (s1.deref q).dead = (s.deref q).dead ∧ (s1.deref q).code = (s.deref q).code) ∧
    (∀ q x, x ∈ (s.deref q).entries → x ∈ (s1.deref q).entries) ∧
    (∀ n, some n ∈ l → n < s.heap.length → p ∈ (s1.deref n).entries)
  | [], s, s1, h => by
    simp only [List.foldlM_nil, pure, Except.pure, Except.ok.injEq, Prod.mk.injEq, true_and] at h
    subst h
    exact ⟨rfl, rfl, fun _ => ⟨rfl, rfl, rfl, rfl⟩, fun _ _ hx => hx, fun _ hn => by simp at hn⟩
  | none :: l, s, s1, h => by
    simp [List.foldlM_cons, bind, Except.bind] at h
  | some n :: l, s, s1, h => by
    simp only [List.foldlM_cons, bind, Except.bind] at h
    obtain ⟨h1, h2, h3, h4, h5⟩ := markEntries_fold p l _ s1 h
    have hd : ∀ q, (s.modify n (fun b => { b with entries := b.entries ++ [p] })).deref q =
        if q = n ∧ n < s.heap.length then
          { s.deref q with entries := (s.deref q).entries ++ [p] } else s.deref q :=
      fun q => deref_modify s n _ q
    refine ⟨h1.trans (modify_heap_length _ _ _), h2, fun q => ?_, fun q x hx => ?_,
      fun m hm hlt => ?_⟩
    · obtain ⟨a, b, c, d⟩ := h3 q
      rw [a, b, c, d, hd q]
      split <;> exact ⟨rfl, rfl, rfl, rfl⟩
    · apply h4
      rw [hd q]
      split
      · exact List.mem_append_left _ hx
      · exact hx
    · rcases List.mem_cons.mp hm with hm1 | hm1
      · have hmn : m = n := (Option.some.inj hm1)
        subst hmn
        apply h4
        rw [hd m, if_pos ⟨rfl, hlt⟩]
        exact List.mem_append_right _ (List.mem_singleton.mpr rfl)
      · exact h5 m hm1 (by rw [modify_heap_length]; exact hlt)

theorem deref_modify_dead (st : CompilerState) (p : Nat) (f : BasicBlock → BasicBlock)
    (q : Nat) (h : ∀ b, (f b).dead = b.dead) :
    ((st.modify p f).deref q).dead = (st.deref q).dead := by
  rw [deref_modify]
  split
  · exact h _
  · rfl

theorem exits_of_invalid (st : CompilerState) (p : Nat) (h : ¬ p < st.heap.length) :
    (st.deref p).exits = [] := by
  unfold CompilerState.deref
  rw [List.getElem?_eq_none (Nat.le_of_not_lt h)]
  rfl

/-- After `MarkEntries` on what `registerize` leaves, every edge is recorded. -/
theorem MarkEntries.marked (st st1 : CompilerState) (hF : st.Fresh)
    (h : MarkEntries st = .ok st1) : st1.Marked := by
  have hloop := forwardLoop_inv MarkEntries.visit_bb
    (fun ps _ s => s.heap.length = st.heap.length ∧
      (∀ q, (s.deref q).exits = (st.deref q).exits ∧ (s.deref q).dead = false) ∧
      (∀ q ∈ ps, (s.deref q).visited = false) ∧ ps.Nodup ∧
      (∀ p ∈ st.bbs, p ∉ ps → ∀ n, some n ∈ (st.deref p).exits → p ∈ (s.deref n).entries))
    (fun _ => True)
    (fun p ps a s hI => by
      obtain ⟨i1, i2, i3, i4, i5⟩ := hI
      have hcond : (!(s.deref p).visited && !(s.deref p).dead) = true := by
        rw [i3 p (List.mem_cons_self _ _), (i2 p).2]; rfl
      refine ⟨fun _ => ⟨fun a1 s1 hr => ?_, fun _ _ => trivial⟩, fun hc => ?_⟩
      · obtain ⟨h1, h2, h3, h4, h5⟩ := markEntries_fold p (s.deref p).exits s s1 hr
        have hpn : p ∉ ps := (List.nodup_cons.mp i4).1
        refine ⟨by rw [modify_heap_length, h1, i1], fun q => ⟨?_, ?_⟩, fun q hq => ?_,
          (List.nodup_cons.mp i4).2, fun p1 hp1 hp1n n hn => ?_⟩
        · refine Eq.trans (deref_modify_exits _ _ _ _ ?_) ((h3 q).1.trans (i2 q).1)
          intro _; rfl
        · refine Eq.trans (deref_modify_dead _ _ _ _ ?_) ((h3 q).2.2.1.trans (i2 q).2)
          intro _; rfl
        · rw [deref_modify, if_neg (fun (hc : q = p ∧ p < s1.heap.length) => hpn (hc.1 ▸ hq)),
            (h3 q).2.1]
          exact i3 q (List.mem_cons_of_mem _ hq)
        · have he : ∀ m, ((s1.modify p (fun b => { b with visited := true })).deref m).entries =
              (s1.deref m).entries := fun m => deref_modify_entries _ _ _ _ (fun _ => rfl)
          rw [he]
          by_cases hp1p : p1 = p
          · subst hp1p
            refine h5 n ?_ ?_
            · rw [(i2 p1).1]; exact hn
            · rw [i1]; exact hF.wf n (hF.exitsIn p1 n hn)
          · exact h4 n p1 (i5 p1 hp1 (fun hc => by
              rcases List.mem_cons.mp hc with hc | hc
              · exact hp1p hc
              · exact hp1n hc) n hn)
      · rw [hcond] at hc; cases hc)
    st.bbs () (resetVisited st)
    ⟨resetVisited_heap_length st, fun q => ⟨resetVisited_exits st q, by
        rw [resetVisited_dead]; exact hF.alive q⟩,
      fun q hq => resetVisited_visited st hF.wf q hq, hF.nodup, fun p hp hpn => absurd hp hpn⟩
  unfold MarkEntries CompilerPass.visit_fn at h
  cases hr : forwardLoop MarkEntries.visit_bb st.bbs () (resetVisited st) with
  | error e => rw [hr] at h; cases h
  | ok res =>
    rw [hr] at h
    simp only [Except.ok.injEq] at h
    obtain ⟨_, i2, _, _, i5⟩ := hloop.1 res.1 res.2 hr
    intro p q hq
    rw [← h] at hq ⊢
    rw [(remove_dead_code_deref res.2 p).1, (i2 p).1] at hq
    rw [(remove_dead_code_deref res.2 q).2]
    have hp : p ∈ st.bbs := by
      by_contra hn
      have : ¬ p < st.heap.length := fun hlt => hn (hF.all p hlt)
      rw [exits_of_invalid st p this] at hq
      cases hq
    exact i5 p hp (by simp) q hq

/-! ## What `registerize` leaves to the passes -/

theorem deref_invalid (st : CompilerState) (p : Nat) (h : ¬ p < st.heap.length) :
    st.deref p = BasicBlock.new 0 0 := by
  unfold CompilerState.deref
  rw [List.getElem?_eq_none (Nat.le_of_not_lt h)]
  rfl

theorem fresh_push_exit {st : CompilerState} (h : st.Fresh) (b : Nat) (e : Option Nat)
    (he : ∀ p, e = some p → p ∈ st.bbs) : (st.push_exit b e).Fresh := by
  refine ⟨h.nodup, fun p hp => ?_, fun p hp => ?_, fun p => ?_, fun p => ?_, fun p q hq => ?_⟩
  · rw [push_exit_heap_length]; exact h.wf p hp
  · rw [push_exit_heap_length] at hp; exact h.all p hp
  · rw [deref_push_exit]; split <;> exact h.noEntries p
  · rw [deref_push_exit]; split <;> exact h.alive p
  · rw [deref_push_exit] at hq
    split at hq
    · rcases List.mem_append.mp hq with hq | hq
      · exact h.exitsIn p q hq
      · exact he q (List.mem_singleton.mp hq).symm
    · exact h.exitsIn p q hq

theorem fresh_block {st : CompilerState} (h : st.Fresh) (offset : Int) (last : Option Nat)
    (e : Emit) (hl : ∀ l, last = some l → l ∈ st.bbs) :
    ((st.start_block offset last).2.emit st.heap.length e).Fresh := by
  have hlv : ∀ l, last = some l → l < st.heap.length := fun l hh => h.wf l (hl l hh)
  have hcases : ∀ p, (p < st.heap.length ∧
        ((st.start_block offset last).2.emit st.heap.length e).deref p =
          if last = some p then
            { st.deref p with exits := (st.deref p).exits ++ [some st.heap.length] }
          else st.deref p) ∨
      (p = st.heap.length ∧
        ((st.start_block offset last).2.emit st.heap.length e).deref p =
          { BasicBlock.new offset st.bbs.length with code := e.ops }) ∨
      (((st.start_block offset last).2.emit st.heap.length e).deref p = BasicBlock.new 0 0) := by
    intro p
    rcases Nat.lt_trichotomy p st.heap.length with hp | hp | hp
    · exact Or.inl ⟨hp, deref_block_old st offset last e p hp⟩
    · exact Or.inr (Or.inl ⟨hp, hp ▸ deref_block_new st offset last e hlv⟩)
    · refine Or.inr (Or.inr (deref_invalid _ p ?_))
      simp only [emit_heap_length, start_block_heap_length]
      omega
  refine ⟨?_, fun p hp => ?_, fun p hp => ?_, fun p => ?_, fun p => ?_, fun p q hq => ?_⟩
  · simp only [emit_bbs, start_block_bbs]
    refine List.Nodup.append h.nodup (List.nodup_singleton _) ?_
    intro x hx hx2
    rw [List.mem_singleton] at hx2
    have := h.wf x hx
    omega
  · simp only [emit_bbs, start_block_bbs, List.mem_append, List.mem_singleton] at hp
    simp only [emit_heap_length, start_block_heap_length]
    rcases hp with hp | hp
    · have := h.wf p hp; omega
    · omega
  · simp only [emit_heap_length, start_block_heap_length] at hp
    simp only [emit_bbs, start_block_bbs, List.mem_append, List.mem_singleton]
    by_cases hlt : p < st.heap.length
    · exact Or.inl (h.all p hlt)
    · exact Or.inr (by omega)
  · rcases hcases p with ⟨_, hd⟩ | ⟨_, hd⟩ | hd
    · rw [hd]; split <;> exact h.noEntries p
    · rw [hd]; rfl
    · rw [hd]; rfl
  · rcases hcases p with ⟨_, hd⟩ | ⟨_, hd⟩ | hd
    · rw [hd]; split <;> exact h.alive p
    · rw [hd]; rfl
    · rw [hd]; rfl
  · simp only [emit_bbs, start_block_bbs, List.mem_append, List.mem_singleton]
    rcases hcases p with ⟨_, hd⟩ | ⟨_, hd⟩ | hd
    · rw [hd] at hq
      split at hq
      · rcases List.mem_append.mp hq with hq | hq
        · exact Or.inl (h.exitsIn p q hq)
        · exact Or.inr (Option.some.inj (List.mem_singleton.mp hq))
      · exact Or.inl (h.exitsIn p q hq)
    · rw [hd] at hq
      simp [BasicBlock.new] at hq
    · rw [hd] at hq
      simp [BasicBlock.new] at hq

theorem registerizeLoop_fresh (cfg : Config) (fuel : Nat) (st : CompilerState)
    (stack : RegisterStack) (offset : Int) (ep last r : Option Nat) (st' : CompilerState)
    (stack' : RegisterStack) (hF : st.Fresh)
    (hep : ∀ p, ep = some p → p ∈ st.bbs) (hlast : ∀ p, last = some p → p ∈ st.bbs)
    (h : registerizeLoop cfg fuel st stack offset ep last = some (.ok (r, st', stack'))) :
    st'.Fresh := by
  refine (registerizeLoop_inv cfg (fun st _ => st.Fresh) (fun _ _ => True)
    (fun _ => trivial) (fun _ _ _ _ _ => trivial) (fun _ _ _ _ h _ => h) ?_ ?_
    (fun _ _ _ _ _ h _ => h) fuel st stack offset ep last r st' stack' hF hF.wf hep hlast h).1
  · intro st s b e hQ _ _ he
    exact ⟨fresh_push_exit hQ b e he, trivial⟩
  · intro st s offset last opcode oparg e hQ hW hfind hl _ _
    exact ⟨fresh_block hQ offset last e hl, trivial, fun _ _ _ _ _ _ =>
      ⟨fresh_block hQ offset last e hl, fresh_block hQ offset last e hl⟩⟩

/-- What `registerize(state, stack, 0)` leaves, run on a state with no blocks. -/
theorem registerize_fresh (cfg : Config) (code : List (Fin 256)) (nc nl : Nat)
    (stack : RegisterStack) (r : Option Nat) (st : CompilerState) (stack' : RegisterStack)
    (h : registerize cfg (CompilerState.ofCode code nc nl) stack 0 = some (.ok (r, st, stack'))) :
    st.Fresh := by
  have h0 : (CompilerState.ofCode code nc nl).Fresh := by
    refine ⟨List.nodup_nil, fun p hp => ?_, fun p hp => ?_, fun p => rfl, fun p => rfl,
      fun p q hq => ?_⟩
    · simp [CompilerState.ofCode] at hp
    · simp [CompilerState.ofCode] at hp
    · rw [deref_invalid _ p (by simp [CompilerState.ofCode])] at hq
      simp [BasicBlock.new] at hq
  unfold registerize registerizeFuel enterWith at h
  split at h
  · simp only [Option.some.injEq, Except.ok.injEq, Prod.mk.injEq] at h
    exact h.2.1 ▸ h0
  · exact registerizeLoop_fresh cfg _ _ stack 0 none none r st stack' h0 (by simp) (by simp) h

/-- **C10** (P6, fusion safety).  Let `registerize(state, stack, 0)` return on a state with
no blocks, and let `MarkEntries` return on what it leaves.  Then in the run of
`FuseBasicBlocks` that follows, at every splice of a block `next` into a block `bb`
(`ev.block` into `ev.into`), `next->entries` holds exactly one block, and that block is
`bb` itself or the block of an earlier splice into `bb`.  This holds for every splice the
run makes, whether or not the run returns (for every fuel). -/
theorem fuse_splice_safety (cfg : Config) (code : List (Fin 256)) (nc nl : Nat)
    (stack : RegisterStack) (r : Option Nat) (st : CompilerState) (stack' : RegisterStack)
    (st1 : CompilerState) (fuel : Nat)
    (hreg : registerize cfg (CompilerState.ofCode code nc nl) stack 0 =
      some (.ok (r, st, stack')))
    (hmark : MarkEntries st = .ok st1) :
    ∀ i ev, (FuseBasicBlocks.trace fuel st1)[i]? = some ev →
      ∃ x, ev.entries = [x] ∧
        (x = ev.into ∨
          ∃ e ∈ (FuseBasicBlocks.trace fuel st1).take i, e.into = ev.into ∧ e.block = x) :=
  FuseBasicBlocks.trace_ok fuel st1
    (MarkEntries.marked st st1 (registerize_fresh cfg code nc nl stack r st stack' hreg) hmark)

theorem fuse_splice_safety_witness :
    ∃ r st stack' st1,
      registerize sampleConfig (CompilerState.ofCode constAddCode 2 0) sampleStack 0 =
        some (.ok (r, st, stack')) ∧
      MarkEntries st = .ok st1 ∧
      FuseBasicBlocks.trace 5 st1 =
        [{ into := 0, block := 1, entries := [0] }, { into := 0, block := 2, entries := [1] },
         { into := 0, block := 3, entries := [2] }] ∧
      ∀ i ev, (FuseBasicBlocks.trace 5 st1)[i]? = some ev →
        ∃ x, ev.entries = [x] ∧
          (x = ev.into ∨
            ∃ e ∈ (FuseBasicBlocks.trace 5 st1).take i, e.into = ev.into ∧ e.block = x) :=
  ⟨_, _, _, _, rfl, rfl, rfl,
    fuse_splice_safety sampleConfig constAddCode 2 0 sampleStack _ _ _ _ 5 rfl rfl⟩

/-! ## Scenarios of `registerize` -/

/-- **C16** (symbolic stack capacity).  The claim fails on the code: `push_register` asserts
`stack_pos < REG_MAX_STACK` and then writes `regs[++stack_pos]`, so on a stack that holds
`REG_MAX_STACK` registers (`stack_pos == REG_MAX_STACK - 1`) the assertion passes and the
write goes to `regs[REG_MAX_STACK]`, one past the array.  With room for eight registers, the
ninth push is no assertion failure but an access out of bounds, also when it comes from
`registerize` on nine `LOAD_FAST` in a row; only the tenth push would fail the assertion. -/
theorem push_register_writes_past_the_array :
    fullStack.regs.length = sampleConfig.REG_MAX_STACK ∧
    fullStack.stack_pos + 1 = sampleConfig.REG_MAX_STACK ∧
    fullStack.push_register sampleConfig 9 = .error .outOfBounds ∧
    RegisterStack.push_register sampleConfig { fullStack with stack_pos := 8 } 9 =
      .error .stackAssert ∧
    registerize sampleConfig (CompilerState.ofCode nineLoadsCode 0 1) sampleStack 0 =
      some (.error .outOfBounds) := by
  refine ⟨rfl, rfl, rfl, rfl, rfl⟩

/-- **C17** (fall-through convention).  The claim fails on the code for
`JUMP_IF_TRUE_OR_POP` and `JUMP_IF_FALSE_OR_POP`: their case registerizes the taken target
before the fall-through.  On the bytecode of `return a or b` the branch block (offset 3) is
`bbs[1]`; its `exits[0]` is the block of the fall-through offset 6 and its `exits[1]` the
block of the target 9, as claimed, but the block allocated right after the branch block,
`bbs[2]`, is the block of the target, `exits[1]`, and not `exits[0]`. -/
theorem jump_if_or_pop_allocates_target_first :
    ∃ r st stack1,
      registerize sampleConfig (CompilerState.ofCode orCode 0 2) sampleStack 0 =
        some (.ok (r, st, stack1)) ∧
      st.bbs = [0, 1, 2, 3] ∧
      (st.deref 1).py_offset = 3 ∧
      (st.deref 1).code = [add_op1 JUMP_IF_TRUE_OR_POP 9 2] ∧
      (st.deref 1).exits = [some 3, some 2] ∧
      (st.deref 3).py_offset = 3 + CODESIZE JUMP_IF_TRUE_OR_POP ∧
      (st.deref 2).py_offset = 9 ∧
      st.bbs[1 + 1]? = some 2 ∧ (st.deref 1).exits[0]? ≠ some (st.bbs[1 + 1]?) :=
  ⟨_, _, _, rfl, rfl, rfl, rfl, rfl, rfl, rfl, rfl, by decide⟩

/-- **C20** (`CONTINUE_LOOP`).  The claim fails on the code: the case of `CONTINUE_LOOP` ends
in `break`, not in `return entry_point`, so the walk goes on with the next instruction and
links its block as a second exit.  On `SETUP_LOOP; LOAD_FAST 0; POP_TOP; CONTINUE_LOOP 3;
LOAD_CONST 0; RETURN_VALUE` the block of `CONTINUE_LOOP` (offset 7) gets the exits
`[block at 3, block at 10]`, and the blocks at offsets 10 and 13 are made by the same walk. -/
theorem continue_loop_falls_through :
    ∃ r st stack1,
      registerize sampleConfig (CompilerState.ofCode continueCode 1 1) sampleStack 0 =
        some (.ok (r, st, stack1)) ∧
      st.offsets = [0, 3, 6, 7, 10, 13] ∧
      (st.deref 3).code = [add_op0 CONTINUE_LOOP 3] ∧
      (st.deref 3).exits = [some 1, some 4] ∧
      (st.deref 4).py_offset = 7 + CODESIZE CONTINUE_LOOP ∧
      (st.deref 4).exits = [some 5] :=
  ⟨_, _, _, rfl, rfl, rfl, rfl, rfl, rfl⟩

/-! ## Lowering: the layout of the buffer -/

theorem lowerOps_size (L : Layout) : ∀ (cs : List CompilerOp) (out out1 : Lowered),
    lowerOps L cs out = .ok out1 → out1.size = out.size + (cs.map (op_size L)).sum
  | [], out, out1, h => by
    simp only [lowerOps, Except.ok.injEq] at h
    simp [← h]
  | c :: cs, out, out1, h => by
    unfold lowerOps at h
    split at h
    · cases h
    · split at h
      · cases h
      · split at h
        · have := lowerOps_size L cs _ out1 h
          dsimp only at this
          simp only [List.map_cons, List.sum_cons]
          omega
        · cases h

theorem blocksSize_congr (L : Layout) (st st1 : CompilerState)
    (hc : ∀ q, (st1.deref q).code = (st.deref q).code) (ps : List Nat) :
    blocksSize L st1 ps = blocksSize L st ps := by
  unfold blocksSize codeSize
  simp only [hc]

theorem deref_modify_code (st : CompilerState) (p : Nat) (f : BasicBlock → BasicBlock)
    (q : Nat) (h : ∀ b, (f b).code = b.code) :
    ((st.modify p f).deref q).code = (st.deref q).code := by
  rw [deref_modify]
  split
  · exact h _
  · rfl

/-- The first pass of the lowering over the blocks `ps`. -/
theorem lowerBlocks_layout (L : Layout) : ∀ (ps : List Nat) (st : CompilerState)
    (out : Lowered) (st1 : CompilerState) (out1 : Lowered),
    lowerBlocks L ps st out = .ok (st1, out1) → ps.Nodup → (∀ p ∈ ps, p < st.heap.length) →
    out1.size = out.size + blocksSize L st ps ∧ st1.bbs = st.bbs ∧
    st1.heap.length = st.heap.length ∧
    (∀ q, (st1.deref q).code = (st.deref q).code ∧ (q ∉ ps → st1.deref q = st.deref q)) ∧
    (∀ i p, ps[i]? = some p →
      (st1.deref p).reg_offset = out.size + blocksSize L st (ps.take i))
  | [], st, out, st1, out1, h, _, _ => by
    simp only [lowerBlocks, Except.ok.injEq, Prod.mk.injEq] at h
    obtain ⟨h1, h2⟩ := h
    subst h1 h2
    refine ⟨by simp [blocksSize], rfl, rfl, fun q => ⟨rfl, fun _ => rfl⟩, fun i p hp => ?_⟩
    simp at hp
  | p :: ps, st, out, st1, out1, h, hnd, hv => by
    unfold lowerBlocks at h
    split at h
    · cases h
    · split at h
      · cases h
      · rename_i out2 hops
        have hsz := lowerOps_size L _ _ _ hops
        have hpn : p ∉ ps := (List.nodup_cons.mp hnd).1
        have hcode : ∀ q, ((st.modify p (fun b => { b with reg_offset := out.size })).deref q).code
            = (st.deref q).code := fun q => deref_modify_code _ _ _ _ (fun _ => rfl)
        obtain ⟨i1, i2, i3, i4, i5⟩ := lowerBlocks_layout L ps _ out2 st1 out1 h
          (List.nodup_cons.mp hnd).2
          (fun q hq => by rw [modify_heap_length]; exact hv q (List.mem_cons_of_mem _ hq))
        rw [blocksSize_congr L st _ hcode] at i1
        refine ⟨?_, i2, i3.trans (modify_heap_length _ _ _), fun q => ⟨?_, fun hq => ?_⟩,
          fun i q hq => ?_⟩
        · rw [i1, hsz]
          simp only [blocksSize, codeSize, List.map_cons, List.sum_cons]
          omega
        · rw [(i4 q).1, hcode q]
        · rw [(i4 q).2 (fun hc => hq (List.mem_cons_of_mem _ hc)), deref_modify,
            if_neg (fun (hc : q = p ∧ p < st.heap.length) => hq (hc.1 ▸ List.mem_cons_self _ _))]
        · cases i with
          | zero =>
            simp only [List.getElem?_cons_zero, Option.some.injEq] at hq
            subst hq
            rw [(i4 p).2 hpn, deref_modify, if_pos ⟨rfl, hv p (List.mem_cons_self _ _)⟩]
            simp [blocksSize]
          | succ i =>
            simp only [List.getElem?_cons_succ] at hq
            rw [i5 i q hq, blocksSize_congr L st _ hcode, hsz]
            simp only [blocksSize, codeSize, List.take_succ_cons, List.map_cons, List.sum_cons]
            omega

theorem sum_take_le : ∀ (l : List Nat) (i j : Nat), i ≤ j → (l.take i).sum ≤ (l.take j).sum
  | [], i, j, _ => by simp
  | a :: l, 0, j, _ => by simp
  | a :: l, i + 1, 0, h => by omega
  | a :: l, i + 1, j + 1, h => by
    simp only [List.take_succ_cons, List.sum_cons]
    have := sum_take_le l i j (by omega)
    omega

/-- **C13** (layout).  Let the first pass of `lower_register_code` return on a program whose
`bbs` holds distinct allocated blocks, with a prelude of positive size.  Then the
`reg_offset` of the block at position `i` of `bbs` is the size of the prelude plus the sum
of `op_size` over the ops of the blocks at the positions before `i`; so every `reg_offset`
is positive, the `reg_offset`s do not decrease along `bbs`, and the length of the output is
the size of the prelude plus the sum of the sizes of all ops. -/
theorem lowering_layout (L : Layout) (st st1 : CompilerState) (out : Lowered)
    (hD : st.Distinct) (hP : 0 < L.sizeofRegisterPrelude)
    (h : lowerBlocks L st.bbs st { ops := [], size := L.sizeofRegisterPrelude } =
      .ok (st1, out)) :
    st1.bbs = st.bbs ∧
    (∀ i p, st.bbs[i]? = some p →
      (st1.deref p).reg_offset = L.sizeofRegisterPrelude + blocksSize L st (st.bbs.take i)) ∧
    (∀ p ∈ st.bbs, 0 < (st1.deref p).reg_offset) ∧
    (∀ (i j : Nat) p q, i ≤ j → st.bbs[i]? = some p → st.bbs[j]? = some q →
      (st1.deref p).reg_offset ≤ (st1.deref q).reg_offset) ∧
    out.size = L.sizeofRegisterPrelude + blocksSize L st st.bbs := by
  obtain ⟨h1, h2, _, _, h5⟩ := lowerBlocks_layout L st.bbs st _ st1 out h hD.1 hD.2
  refine ⟨h2, h5, fun p hp => ?_, fun i j p q hij hp hq => ?_, h1⟩
  · obtain ⟨i, hi, hpi⟩ := List.getElem_of_mem hp
    have := h5 i p (by rw [List.getElem?_eq_getElem hi, hpi])
    dsimp only at this
    omega
  · have e1 := h5 i p hp
    have e2 := h5 j q hq
    dsimp only at e1 e2
    rw [e1, e2]
    unfold blocksSize
    rw [List.map_take, List.map_take]
    have := sum_take_le (st.bbs.map (codeSize L st)) i j hij
    omega

theorem lowering_layout_witness :
    ∃ st1 out,
      lowerBlocks sampleLayout twoBlockProgram.bbs twoBlockProgram
        { ops := [], size := sampleLayout.sizeofRegisterPrelude } = .ok (st1, out) ∧
      (st1.deref 0).reg_offset = 12 ∧ (st1.deref 1).reg_offset = 44 ∧ out.size = 76 ∧
      (st1.bbs = twoBlockProgram.bbs ∧
      (∀ i p, twoBlockProgram.bbs[i]? = some p →
        (st1.deref p).reg_offset = sampleLayout.sizeofRegisterPrelude +
          blocksSize sampleLayout twoBlockProgram (twoBlockProgram.bbs.take i)) ∧
      (∀ p ∈ twoBlockProgram.bbs, 0 < (st1.deref p).reg_offset) ∧
      (∀ (i j : Nat) p q, i ≤ j → twoBlockProgram.bbs[i]? = some p → twoBlockProgram.bbs[j]? = some q →
        (st1.deref p).reg_offset ≤ (st1.deref q).reg_offset) ∧
      out.size = sampleLayout.sizeofRegisterPrelude +
        blocksSize sampleLayout twoBlockProgram twoBlockProgram.bbs) :=
  ⟨_, _, rfl, rfl, rfl, rfl,
    lowering_layout sampleLayout twoBlockProgram _ _ (by decide) (by decide) rfl⟩

/-! ## Lowering: the size of an op -/

/-- **C14**, counterexample.  With 16 bytes for an op and 4 bytes for a register, no constant
`base` makes `op_size` of a `BUILD_TUPLE` with `k` registers equal to `base + k * 4` for
every `k`: with one register and with two the op takes 16 bytes. -/
theorem op_size_not_linear :
    op_size sampleLayout (add_varargs_op BUILD_TUPLE 0 [5]) = 16 ∧
    op_size sampleLayout (add_varargs_op CALL_FUNCTION 0 [5, 6]) = 16 ∧
    ¬ ∃ base, ∀ k, op_size sampleLayout (add_varargs_op BUILD_TUPLE 0 (List.replicate k 0)) =
      base + k * sampleLayout.sizeofRegister := by
  refine ⟨rfl, rfl, ?_⟩
  rintro ⟨base, h⟩
  have h1 := h 1
  have h2 := h 2
  have e1 : op_size sampleLayout (add_varargs_op BUILD_TUPLE 0 (List.replicate 1 0)) = 16 := rfl
  have e2 : op_size sampleLayout (add_varargs_op BUILD_TUPLE 0 (List.replicate 2 0)) = 16 := rfl
  have e3 : sampleLayout.sizeofRegister = 4 := rfl
  rw [e1, e3] at h1
  rw [e2, e3] at h2
  omega

/-- **C14**, amended (size of a varargs op).  For every varargs op with `k` registers,
`op_size` reserves `sizeof(RMachineOp) + (k - 2) * sizeof(Register)` bytes when `k >= 2` and
`sizeof(RMachineOp)` bytes when `k < 2`: the size is linear in `k` from two registers on,
and an op has room for two registers in any case. -/
theorem op_size_varargs (L : Layout) (op : CompilerOp) (hv : L.is_varargs op.code = true) :
    (2 ≤ op.regs.length →
      op_size L op + 2 * L.sizeofRegister =
        L.sizeofRMachineOp + op.regs.length * L.sizeofRegister) ∧
    (op.regs.length < 2 → op_size L op = L.sizeofRMachineOp) := by
  unfold op_size
  rw [if_pos hv]
  constructor
  · intro h
    obtain ⟨m, hm⟩ : ∃ m, op.regs.length = m + 2 := ⟨op.regs.length - 2, by omega⟩
    rw [hm, Nat.add_sub_cancel, Nat.mul_comm L.sizeofRegister m, Nat.add_mul]
    omega
  · intro h
    have : op.regs.length - 2 = 0 := by omega
    rw [this, Nat.mul_zero, Nat.add_zero]

theorem op_size_varargs_witness :
    (2 ≤ (add_varargs_op CALL_FUNCTION 1 [5, 6, 7]).regs.length →
      op_size sampleLayout (add_varargs_op CALL_FUNCTION 1 [5, 6, 7]) +
          2 * sampleLayout.sizeofRegister =
        sampleLayout.sizeofRMachineOp +
          (add_varargs_op CALL_FUNCTION 1 [5, 6, 7]).regs.length * sampleLayout.sizeofRegister) ∧
    ((add_varargs_op CALL_FUNCTION 1 [5, 6, 7]).regs.length < 2 →
      op_size sampleLayout (add_varargs_op CALL_FUNCTION 1 [5, 6, 7]) =
        sampleLayout.sizeofRMachineOp) :=
  op_size_varargs sampleLayout (add_varargs_op CALL_FUNCTION 1 [5, 6, 7]) rfl

/-! ## Lowering: labels -/

theorem opAt_setLabel (out : Lowered) (pos l : Nat) :
    (out.setLabel pos l).opAt pos = (out.opAt pos).map (fun r => { r with label := l }) := by
  unfold Lowered.setLabel Lowered.opAt
  simp only
  induction out.ops with
  | nil => rfl
  | cons x xs ih =>
    by_cases hx : x.1 = pos
    · simp [List.find?, hx]
    · simp only [List.map_cons, hx, if_false, List.find?_cons, decide_False]
      exact ih

theorem patchBlock_label (L : Layout) (st : CompilerState) (s s1 : Lowered × Nat)
    (i bb pos1 o : Nat) (rop : RMachineOp)
    (hskip : skipOps L s.1 (st.deref bb).code s.2 none = .ok (pos1, some o))
    (hop : s.1.opAt o = some rop) (hbr : L.is_branch rop.code = true)
    (hret : rop.code ≠ RETURN_VALUE) (h : patchBlock L st s i bb = .ok s1) :
    ∃ jmp, jumpTarget st i bb = .ok jmp ∧
      s1.1.opAt o = some { rop with label := (st.deref jmp).reg_offset } := by
  unfold patchBlock at h
  rw [hskip] at h
  simp only [hop, hbr, hret, ne_eq, not_false_eq_true, and_self, if_true] at h
  split at h
  · cases h
  · rename_i jmp hj
    split at h
    · simp only [Except.ok.injEq] at h
      refine ⟨jmp, hj, ?_⟩
      rw [← h]
      simp only
      rw [opAt_setLabel, hop]
      rfl
    · cases h

/-- **C12** (label resolution).  In the second pass of the lowering, let the last op of the
block `bbs[i]` be a branch other than `RETURN_VALUE` and let the pass get past the block.
If the block has exactly one exit, the label written into that op is the `reg_offset` of the
exit.  If it has two exits and one of them is `bbs[i + 1]`, the label written is the
`reg_offset` of the other exit.  (The code tells blocks apart by their `idx`; the first
exit is taken to have the `idx` of `bbs[i + 1]` only when it is that block.) -/
theorem label_resolution (L : Layout) (st : CompilerState) (s s1 : Lowered × Nat)
    (i bb pos1 o : Nat) (rop : RMachineOp)
    (hskip : skipOps L s.1 (st.deref bb).code s.2 none = .ok (pos1, some o))
    (hop : s.1.opAt o = some rop) (hbr : L.is_branch rop.code = true)
    (hret : rop.code ≠ RETURN_VALUE) (h : patchBlock L st s i bb = .ok s1) :
    (∀ j, (st.deref bb).exits = [some j] →
      s1.1.opAt o = some { rop with label := (st.deref j).reg_offset }) ∧
    (∀ a b ft, (st.deref bb).exits = [some a, some b] → st.bbs[i + 1]? = some ft →
      ((st.deref a).idx = (st.deref ft).idx → a = ft) →
      (a = ft → s1.1.opAt o = some { rop with label := (st.deref b).reg_offset }) ∧
      (b = ft → s1.1.opAt o = some { rop with label := (st.deref a).reg_offset })) := by
  obtain ⟨jmp, hj, hl⟩ := patchBlock_label L st s s1 i bb pos1 o rop hskip hop hbr hret h
  constructor
  · intro j hex
    simp only [jumpTarget, hex, List.length_singleton, if_true, exitAt, List.getElem?_cons_zero,
      Except.ok.injEq] at hj
    rw [hj]
    exact hl
  · intro a b ft hex hft hidx
    have hlen : ¬ ((st.deref bb).exits.length = 1) := by rw [hex]; simp
    unfold jumpTarget at hj
    rw [if_neg hlen] at hj
    simp only [exitAt, hex, List.getElem?_cons_zero, List.getElem?_cons_succ, hft] at hj
    split at hj
    · simp only [Except.ok.injEq] at hj
      constructor
      · intro haf
        rw [if_pos (by rw [haf])] at hj
        rw [hj]
        exact hl
      · intro hbf
        by_cases hc : (st.deref a).idx = (st.deref ft).idx
        · rw [if_pos hc] at hj
          rw [hidx hc, ← hbf, hj]
          exact hl
        · rw [if_neg hc] at hj
          rw [hj]
          exact hl
    · cases hj

theorem label_resolution_witness :
    lowerBlocks sampleLayout branchProgram.bbs branchProgram
      { ops := [], size := sampleLayout.sizeofRegisterPrelude } = .ok (branchLaid, branchBuffer) ∧
    patchBlock sampleLayout branchLaid (branchBuffer, 12) 0 0 =
      .ok (branchBuffer.setLabel 12 44, 28) ∧
    (branchLaid.deref 1).reg_offset = 12 + 16 ∧ (branchLaid.deref 2).reg_offset = 44 ∧
    ((∀ j, (branchLaid.deref 0).exits = [some j] →
      (branchBuffer.setLabel 12 44, 28).1.opAt 12 =
        some { code := POP_JUMP_IF_FALSE, arg := 10, regs := [2, -1], label := (branchLaid.deref j).reg_offset }) ∧
    (∀ a b ft, (branchLaid.deref 0).exits = [some a, some b] →
      branchLaid.bbs[0 + 1]? = some ft →
      ((branchLaid.deref a).idx = (branchLaid.deref ft).idx → a = ft) →
      (a = ft → (branchBuffer.setLabel 12 44, 28).1.opAt 12 =
        some { code := POP_JUMP_IF_FALSE, arg := 10, regs := [2, -1], label := (branchLaid.deref b).reg_offset }) ∧
      (b = ft → (branchBuffer.setLabel 12 44, 28).1.opAt 12 =
        some { code := POP_JUMP_IF_FALSE, arg := 10, regs := [2, -1], label := (branchLaid.deref a).reg_offset }))) :=
  ⟨rfl, rfl, rfl, rfl,
    label_resolution sampleLayout branchLaid (branchBuffer, 12) (branchBuffer.setLabel 12 44, 28)
      0 0 28 12 { code := POP_JUMP_IF_FALSE, arg := 10, regs := [2, -1], label := 0 }
      rfl rfl rfl (by decide) rfl⟩

set_option synthInstance.maxSize 2000 in
/-- **C11** (P3, branch patching).  The claim fails on the code: the second pass of the
lowering looks at the last op of every block only.  In the bytecode of `if a: x = 1` /
`else: return 2` / `return x` the block of `JUMP_FORWARD` has one exit, whose block has
one entry, so `FuseBasicBlocks` splices the target behind the `JUMP_ABSOLUTE` that
`registerize` emitted; after `optimize` block 2 is `JUMP_ABSOLUTE 19; RETURN_VALUE r1`, and
`lower_register_code` returns with the label of that `JUMP_ABSOLUTE` (at byte 28) still 0,
while the `POP_JUMP_IF_FALSE` that ends block 0 (at byte 12) got its label. -/
theorem fused_jump_keeps_label_zero :
    sampleLayout.is_branch JUMP_ABSOLUTE = true ∧
    (compileByteCode sampleConfig sampleLayout sampleStack ifElseJoinCode 3 2).map
      (Except.map (Option.map (fun r => (r.1.bbs, (r.1.deref 2).code, r.2.opAt 28, r.2.opAt 12))))
      = some (.ok (some ([0, 2, 7], [add_op0 JUMP_ABSOLUTE 19, add_op1 RETURN_VALUE 0 1],
          some { code := JUMP_ABSOLUTE, arg := 19, regs := [-1, -1], label := 0 },
          some { code := POP_JUMP_IF_FALSE, arg := 15, regs := [3, -1], label := 60 }))) := by
  refine ⟨rfl, ?_⟩
  decide!

/-! ## Scenarios of the pipeline -/

/-- **C19** (scenario 6, a dead pure load).  The claim fails on the code: registerizing
`LOAD_CONST 0; POP_TOP; RETURN_VALUE` with the register 1 on the stack and running
`optimize` leaves one block, `r2 = LOAD_FAST r0; DECREF r0; RETURN_VALUE r1`.  Register 2 is
read by no op, yet the `LOAD_FAST` that writes it is still there, not marked dead: the block
is the last of `bbs`, and the block loop of `BackwardPass::visit_fn` starts below the last
block, so `DeadCodeElim` never calls `visit_op` on its ops.  The `DECREF` is kept. -/
theorem dead_load_survives_optimize :
    (optimizeFrom sampleConfig oneRegStack popTopCode 1 1).map
        (Except.map (fun s => (s.bbs, (s.deref 0).code))) =
      some (.ok ([0], [add_dest_op2 LOAD_FAST 0 0 2, add_op1 sampleConfig.DECREF 0 0,
        add_op1 RETURN_VALUE 0 1])) ∧
    (add_dest_op2 LOAD_FAST 0 0 2).dead = false := by
  refine ⟨?_, rfl⟩
  decide!

/-- **C21** (`SLICE+n` operands).  The claim fails on the code for `n = 2`: the case pops
the stop operand into `r3`, leaves `r2 == -1`, and the test `if (r2 == -1)` then emits the
op with the container and the destination only.  On the bytecode of `return a[:b]` the
`SLICE+2` op has the registers `[3, 5]` (container, fresh destination): the popped
register 4 (`b`) is dropped, and the op has 2 registers, not `2 + popcount(2) = 3`. -/
theorem slice_stop_operand_dropped :
    ∃ r st stack1,
      registerize sampleConfig (CompilerState.ofCode sliceStopCode 1 2) sampleStack 0 =
        some (.ok (r, st, stack1)) ∧
      (st.deref 0).code = [add_dest_op2 LOAD_FAST 0 1 3] ∧
      (st.deref 1).code = [add_dest_op2 LOAD_FAST 0 2 4] ∧
      (st.deref 2).code = [add_dest_op2 (SLICE + 2) 0 3 5] ∧
      (st.deref 3).code = [add_op1 RETURN_VALUE 0 5] :=
  ⟨_, _, _, rfl, rfl, rfl, rfl, rfl⟩

/-- **C22** (`STORE_SLICE` / `DELETE_SLICE` pops).  The claim fails on the code for
`DELETE_SLICE`: its case is the one of `STORE_SLICE`, with the pop of the assignment value,
so `DELETE_SLICE+n` pops `2 + popcount(n)` registers.  From a stack that holds two registers
`DELETE_SLICE+0` pops both; on the bytecode of `del a[:]`, where the stack holds the
container only, the second pop fails the assertion of `pop_register`. -/
theorem delete_slice_pops_a_value :
    (dispatch sampleConfig 1 8 3 twoRegStack (DELETE_SLICE + 0) 0 3).map
        (fun e => (e.ops, e.stack.stack_pos)) =
      .ok ([add_op2 (DELETE_SLICE + 0) 0 4 5], -1) ∧
    registerize sampleConfig (CompilerState.ofCode deleteSliceCode 1 1) sampleStack 0 =
      some (.error .stackAssert) :=
  ⟨rfl, rfl⟩

/-- **C23** (destination ops).  The claim fails on the code for the overload of
`add_dest_op` with four registers: it calls `_add_op`, not `_add_dest_op`, so its op has
`has_dest == false` and `num_inputs() == 4`.  This is the op of `SLICE+3`: on the bytecode of
`return a[b:c]` the `SLICE+3` op counts its destination register 7 as an input. -/
theorem add_dest_op_four_registers_has_no_dest :
    (∀ opcode arg r1 r2 r3 r4,
      (add_dest_op4 opcode arg r1 r2 r3 r4).has_dest = false ∧
      (add_dest_op4 opcode arg r1 r2 r3 r4).num_inputs = 4) ∧
    ∃ r st stack1,
      registerize sampleConfig (CompilerState.ofCode sliceBothCode 1 3) sampleStack 0 =
        some (.ok (r, st, stack1)) ∧
      (st.deref 3).code = [add_dest_op4 (SLICE + 3) 0 4 5 6 7] ∧
      (st.deref 3).code.map CompilerOp.inputs = [[4, 5, 6, 7]] :=
  ⟨fun _ _ _ _ _ _ => ⟨rfl, rfl⟩, _, _, _, rfl, rfl, rfl⟩

/-- **C29** (fusion and the absorbing block).  The claim fails on the code: nothing in
`FuseBasicBlocks::visit_bb` keeps `next` apart from `bb`.  On the single instruction
`JUMP_ABSOLUTE 0` the entry block is its own only exit and its own only entry, so the pass
splices block 0 into block 0, marks it dead, and `remove_dead_code` leaves `bbs` empty. -/
theorem fuse_splices_block_into_itself :
    ∃ r st stack1 st1,
      registerize sampleConfig (CompilerState.ofCode selfLoopCode 1 0) sampleStack 0 =
        some (.ok (r, st, stack1)) ∧
      r = some 0 ∧ st.bbs = [0] ∧ (st.deref 0).exits = [some 0] ∧
      MarkEntries st = .ok st1 ∧
      FuseBasicBlocks.trace (st1.heap.length + 1) st1 =
        [{ into := 0, block := 0, entries := [0] }] ∧
      (FuseBasicBlocks st1).map (Except.map (fun s => (s.bbs, (s.deref 0).dead))) =
        some (.ok ([], true)) :=
  ⟨_, _, _, _, rfl, rfl, rfl, rfl, rfl, rfl, rfl⟩

/-- **C30** (index safety of the backward pass).  The claim fails on the code: on a block
with no op `BackwardPass::visit_bb` starts at `n_ops - 1 = 2^64 - 1`, the test `i-- > 0`
passes, and the body reads `bb->code[2^64 - 2]`.  On `LOAD_FAST 0; LOAD_FAST 0;
POP_JUMP_IF_FALSE 10; DUP_TOP; RETURN_VALUE` the block of `DUP_TOP` has no op and is still
the second of three blocks when `DeadCodeElim` runs, so `optimize` reads out of bounds. -/
theorem backward_pass_reads_outside_empty_block :
    sizePred 0 = 2 ^ 64 - 1 ∧
    BackwardPass.visit_at recordVisit 0 ([], CompilerState.ofCode [] 0 0) (2 ^ 64 - 2) =
      .error .outOfBounds ∧
    (beforeDeadCodeElim sampleConfig sampleStack emptyBlockCode 1 1).map
        (Except.map (fun s => (s.bbs, s.bbs.map (fun p => (s.deref p).code.length)))) =
      some (.ok ([0, 3, 4], [3, 0, 1])) ∧
    optimizeFrom sampleConfig sampleStack emptyBlockCode 1 1 = some (.error .outOfBounds) := by
  refine ⟨rfl, rfl, ?_, ?_⟩
  · decide!
  · decide!

/-! ## The passes against the reference interpretation -/

set_option synthInstance.maxSize 2000 in
/-- **C27** (`CopyPropagation` and the meaning of a block).  The claim fails on the code:
`env` is never cleared of an entry whose source register is written again.  For the swap
`a, b = b, a` the fused block is `r3 = b; r4 = a; a = r3; b = r4` (`a`, `b` the registers 1,
2); run from the store in which every register holds its own number it ends with `a = 2`,
`b = 1`.  `CopyPropagation` turns it into `r3 = b; r4 = a; a = b; b = a`, which ends with
`a = 2`, `b = 2`: the second store reads `a` after the first one wrote it. -/
theorem copy_propagation_breaks_swap :
    (fusedFrom sampleConfig sampleStack swapCode 1 2).map (Except.map (fun s =>
        ((s.deref 0).code.map CompilerOp.regs,
         [1, 2].map (specEvalBlock sampleFun (fun r => r) (s.deref 0).code)))) =
      some (.ok ([[2, 3], [1, 4], [3, 1], [4, 2], [0, 5], [5]], [2, 1])) ∧
    (fusedFrom sampleConfig sampleStack swapCode 1 2).map (Except.map (fun s =>
        (CopyPropagation s).map (fun s1 =>
          ((s1.deref 0).code.map CompilerOp.regs,
           [1, 2].map (specEvalBlock sampleFun (fun r => r) (s1.deref 0).code))))) =
      some (.ok (.ok ([[2, 3], [1, 4], [2, 1], [1, 2], [0, 5], [0]], [2, 2]))) := by
  constructor
  · decide!
  · decide!

set_option synthInstance.maxSize 2000 in
/-- **C28** (`StoreElim` and the meaning of a block).  The claim fails on the code: the pass
does not look at the ops between the definition and the move.  For `y, z = a + b, y` the
fused block is `r7 = r6 + r5; r8 = y; y = r7; z = r8` after the two loads (`y`, `z` the
registers 3, 4); from the store in which every register holds its own number it ends with
`y = 103`, `z = 3`.  `StoreElim` eliminates the move `r7 -> y` by making the addition write
`y`, and the move `r8 -> z` by making the load of `y` write `z`: the block becomes
`y = r6 + r5; z = y`, the load in between reads the new `y`, and `z` ends as 103. -/
theorem store_elim_breaks_pair_assignment :
    (fusedFrom sampleConfig sampleStack pairAssignCode 1 4).map (Except.map (fun s =>
        ((s.deref 0).code.map CompilerOp.regs,
         [3, 4].map (specEvalBlock sampleFun (fun r => r) (s.deref 0).code)))) =
      some (.ok ([[1, 5], [2, 6], [6, 5, 7], [3, 8], [7, 3], [8, 4], [0, 9], [9]], [103, 3])) ∧
    (fusedFrom sampleConfig sampleStack pairAssignCode 1 4).map (Except.map (fun s =>
        (StoreElim s).map (fun s1 =>
          ((s1.deref 0).code.map CompilerOp.regs,
           [3, 4].map (specEvalBlock sampleFun (fun r => r) (s1.deref 0).code))))) =
      some (.ok (.ok ([[1, 5], [2, 6], [6, 5, 3], [3, 4], [0, 9], [9]], [103, 103]))) := by
  constructor
  · decide!
  · decide!

/-! ## Case bodies on a stack with known contents -/

theorem holds_getElem {s : RegisterStack} {l : List Int} (h : s.Holds l) (i : Nat) (r : Int)
    (hi : l[i]? = some r) : s.regs[i]? = some r := by
  obtain ⟨t, ht⟩ := h.2.1
  rw [← ht]
  have hlt : i < l.length := (List.getElem?_eq_some.mp hi).1
  rw [List.getElem?_append_left hlt]
  exact hi

theorem pop_holds {s : RegisterStack} {l : List Int} {r : Int} (h : s.Holds (l ++ [r])) :
    s.pop_register = .ok (r, { s with stack_pos := s.stack_pos - 1 }) ∧
    RegisterStack.Holds { s with stack_pos := s.stack_pos - 1 } l := by
  have hlen : s.stack_pos = (l.length : Int) := by
    have := h.1
    simp only [List.length_append, List.length_singleton] at this
    omega
  have hr : s.regs[l.length]? = some r := holds_getElem h l.length r (by simp)
  constructor
  · unfold RegisterStack.pop_register readAt
    rw [if_pos (by omega), if_pos (by omega)]
    have : s.stack_pos.toNat = l.length := by omega
    simp only [this, List.get?_eq_getElem?, hr]
    rw [if_pos (h.2.2 r (by simp))]
  · refine ⟨by simp only; omega, ?_, fun x hx => h.2.2 x (List.mem_append_left _ hx)⟩
    exact (List.prefix_append l [r]).trans h.2.1

theorem push_holds (cfg : Config) {s : RegisterStack} {l : List Int} (r : Int) (h : s.Holds l)
    (hroom : l.length < s.regs.length) (hmax : (l.length : Int) ≤ cfg.REG_MAX_STACK)
    (hr : -1 ≤ r) :
    s.push_register cfg r =
      .ok (r, { s with regs := s.regs.set l.length r, stack_pos := s.stack_pos + 1 }) ∧
    RegisterStack.Holds { s with regs := s.regs.set l.length r, stack_pos := s.stack_pos + 1 }
      (l ++ [r]) := by
  have hlen : s.stack_pos + 1 = (l.length : Int) := h.1
  constructor
  · unfold RegisterStack.push_register writeAt
    rw [if_pos (by omega)]
    have : (s.stack_pos + 1).toNat = l.length := by omega
    rw [this, if_pos ⟨by omega, hroom⟩]
  · refine ⟨by simp only [List.length_append, List.length_singleton]; omega, ?_, ?_⟩
    · obtain ⟨t, ht⟩ := h.2.1
      simp only
      rw [← ht]
      cases t with
      | nil =>
        rw [← ht] at hroom
        simp at hroom
      | cons x t =>
        refine ⟨t, ?_⟩
        rw [List.set_append_right _ _ (Nat.le_refl _)]
        simp
    · intro x hx
      rcases List.mem_append.mp hx with hx | hx
      · exact h.2.2 x hx
      · rw [List.mem_singleton.mp hx]; exact hr

theorem popN_holds : ∀ (rs : List Int) (s : RegisterStack) (l : List Int),
    s.Holds (l ++ rs.reverse) →
    popN rs.length s = .ok (rs, { s with stack_pos := s.stack_pos - rs.length }) ∧
    RegisterStack.Holds { s with stack_pos := s.stack_pos - rs.length } l
  | [], s, l, h => by
    simp only [List.reverse_nil, List.append_nil] at h
    simp only [List.length_nil, popN, Nat.cast_zero, sub_zero]
    exact ⟨trivial, h⟩
  | r :: rs, s, l, h => by
    have h1 : s.Holds ((l ++ rs.reverse) ++ [r]) := by
      simpa only [List.reverse_cons, List.append_assoc] using h
    obtain ⟨e1, h2⟩ := pop_holds h1
    obtain ⟨e2, h3⟩ := popN_holds rs _ l h2
    simp only [List.length_cons, popN, e1, e2, bind, Except.bind, pure, Except.pure]
    have : s.stack_pos - 1 - (rs.length : Int) = s.stack_pos - ((rs.length + 1 : Nat) : Int) := by
      push_cast; omega
    simp only [this] at h3 ⊢
    exact ⟨trivial, h3⟩

theorem pop_ok {s : RegisterStack} {l : List Int} {r : Int} (h : s.Holds (l ++ [r])) :
    ∃ s1, s.pop_register = .ok (r, s1) ∧ s1.Holds l ∧ s1.regs.length = s.regs.length :=
  ⟨_, (pop_holds h).1, (pop_holds h).2, rfl⟩

theorem push_ok (cfg : Config) {s : RegisterStack} {l : List Int} (r : Int) (h : s.Holds l)
    (hroom : l.length < s.regs.length) (hmax : (l.length : Int) ≤ cfg.REG_MAX_STACK)
    (hr : -1 ≤ r) :
    ∃ s1, s.push_register cfg r = .ok (r, s1) ∧ s1.Holds (l ++ [r]) ∧
      s1.regs.length = s.regs.length :=
  ⟨_, (push_holds cfg r h hroom hmax hr).1, (push_holds cfg r h hroom hmax hr).2, by simp⟩

theorem popN_ok (args : List Int) {s : RegisterStack} {l : List Int}
    (h : s.Holds (l ++ args)) :
    ∃ s1, popN args.length s = .ok (args.reverse, s1) ∧ s1.Holds l ∧
      s1.regs.length = s.regs.length := by
  have h1 : s.Holds (l ++ args.reverse.reverse) := by rw [List.reverse_reverse]; exact h
  obtain ⟨e1, h2⟩ := popN_holds args.reverse s l h1
  rw [List.length_reverse] at e1 h2
  exact ⟨_, e1, h2, rfl⟩

theorem unpackLoop_ok (cfg : Config) (seq : Int) : ∀ (r : Nat) (s : RegisterStack)
    (l : List Int) (num_reg : Int), s.Holds l → l.length + r ≤ s.regs.length →
    (s.regs.length : Int) = cfg.REG_MAX_STACK → 0 ≤ num_reg →
    ∃ s1, unpackLoop cfg seq r s num_reg =
        .ok ((List.range r).map (fun (j : Nat) =>
          add_dest_op2 cfg.CONST_INDEX ((r - 1 - j : Nat) : Int) seq (num_reg + (j : Int))),
          s1, num_reg + (r : Int)) ∧
      s1.Holds (l ++ (List.range r).map (fun (j : Nat) => num_reg + (j : Int))) ∧
      s1.regs.length = s.regs.length
  | 0, s, l, num_reg, h, _, _, _ => by
    refine ⟨s, ?_, by simpa using h, rfl⟩
    simp [unpackLoop]
  | r + 1, s, l, num_reg, h, hroom, hext, hnr => by
    obtain ⟨s1, e1, h1, g1⟩ := push_ok cfg num_reg h (by omega) (by omega) (by omega)
    obtain ⟨s2, e2, h2, g2⟩ := unpackLoop_ok cfg seq r s1 (l ++ [num_reg]) (num_reg + 1) h1
      (by simp only [List.length_append, List.length_singleton]; omega) (by rw [g1]; exact hext)
      (by omega)
    refine ⟨s2, ?_, ?_, g2.trans g1⟩
    · simp only [unpackLoop, e1, e2, bind, Except.bind, pure, Except.pure]
      rw [List.range_succ_eq_map]
      simp only [List.map_cons, List.map_map, Nat.cast_zero, add_zero, Nat.sub_zero,
        Nat.add_sub_cancel]
      congr 2
      · congr 1
        apply List.map_congr_left
        intro j _
        simp only [Function.comp, Nat.cast_succ]
        congr 1
        · congr 1; omega
        · omega
      · congr 1
        push_cast
        omega
    · rw [List.range_succ_eq_map]
      simp only [List.map_cons, List.map_map, Nat.cast_zero, add_zero]
      rw [List.append_assoc] at h2
      have : (List.range r).map (fun (j : Nat) => num_reg + 1 + (j : Int)) =
          (List.range r).map ((fun (j : Nat) => num_reg + (j : Int)) ∘ Nat.succ) := by
        apply List.map_congr_left
        intro j _
        simp only [Function.comp, Nat.cast_succ]
        omega
      rw [← this]
      exact h2

/-- **C25**, counterexample.  The claim fails for an `arg` that the stack has no room for:
with room for eight registers and the registers 4 and 5 on the stack, `UNPACK_SEQUENCE 8`
pops the sequence 5 and pushes the fresh registers 6, 7, ... above the register 4; the
eighth push goes past the array, so the case does not emit eight `CONST_INDEX` ops and
leaves no stack to pop from.  The same happens in a run of `registerize` from the empty
stack. -/
theorem unpack_sequence_without_room :
    twoRegStack.Holds ([4] ++ [5]) ∧
    (twoRegStack.regs.length : Int) = sampleConfig.REG_MAX_STACK ∧
    dispatch sampleConfig 1 8 6 twoRegStack UNPACK_SEQUENCE 8 3 = .error .outOfBounds ∧
    registerize sampleConfig (CompilerState.ofCode unpackEightCode 0 1) sampleStack 0 =
      some (.error .outOfBounds) := by
  refine ⟨⟨rfl, ⟨[0, 0, 0, 0, 0, 0], rfl⟩, by decide⟩, rfl, rfl, rfl⟩

/-- **C25**, amended (`UNPACK_SEQUENCE`).  Let the stack hold the registers `l` and, on
top, `seq`, in an array of the declared extent with room for `oparg` registers above `l`.  Then the case
of `UNPACK_SEQUENCE` pops `seq` and emits exactly `oparg` `CONST_INDEX` ops with the
immediates `oparg - 1, ..., 0` in that order, each with the registers `[seq, d]`, the
destinations being the fresh registers `num_reg, num_reg + 1, ...` (the op with immediate
`i` writes `num_reg + (oparg - 1 - i)`).  It leaves these registers on the stack above `l`,
so the next `oparg` pops return the destination of immediate 0 first, then of immediate 1,
and so on. -/
theorem unpack_sequence_layout (cfg : Config) (nc codelen num_reg : Int) (s : RegisterStack)
    (oparg : Nat) (offset : Int) (l : List Int) (seq : Int)
    (hs : s.Holds (l ++ [seq])) (hext : (s.regs.length : Int) = cfg.REG_MAX_STACK)
    (hroom : l.length + oparg ≤ s.regs.length) (hnr : 0 ≤ num_reg) :
    ∃ s1 s2, dispatch cfg nc codelen num_reg s UNPACK_SEQUENCE oparg offset =
        .ok ⟨(List.range oparg).map (fun (j : Nat) =>
          add_dest_op2 cfg.CONST_INDEX ((oparg - 1 - j : Nat) : Int) seq (num_reg + (j : Int))),
          s1, num_reg + (oparg : Int), .next⟩ ∧
      s1.Holds (l ++ (List.range oparg).map (fun (j : Nat) => num_reg + (j : Int))) ∧
      popN oparg s1 =
        .ok ((List.range oparg).reverse.map (fun (j : Nat) => num_reg + (j : Int)), s2) ∧
      s2.Holds l := by
  obtain ⟨s0, e0, h0, g0⟩ := pop_ok hs
  obtain ⟨s1, e1, h1, g1⟩ := unpackLoop_ok cfg seq oparg s0 l num_reg h0 (by omega)
    (by rw [g0]; exact hext) hnr
  obtain ⟨s2, e2, h2, _⟩ := popN_ok _ h1
  refine ⟨s1, s2, ?_, h1, ?_, h2⟩
  · unfold dispatch
    have hc : classify UNPACK_SEQUENCE = .unpackSequence := rfl
    rw [hc]
    simp only [e0, e1, bind, Except.bind, pure, Except.pure]
  · simpa only [List.length_map, List.length_range, List.map_reverse] using e2

theorem unpack_sequence_layout_witness :
    ∃ s1 s2, dispatch sampleConfig 1 8 6 twoRegStack UNPACK_SEQUENCE 2 3 =
        .ok ⟨(List.range 2).map (fun (j : Nat) =>
          add_dest_op2 sampleConfig.CONST_INDEX ((2 - 1 - j : Nat) : Int) 5 (6 + (j : Int))),
          s1, 6 + ((2 : Nat) : Int), .next⟩ ∧
      s1.Holds ([4] ++ (List.range 2).map (fun (j : Nat) => 6 + (j : Int))) ∧
      popN 2 s1 = .ok ((List.range 2).reverse.map (fun (j : Nat) => 6 + (j : Int)), s2) ∧
      s2.Holds [4] :=
  unpack_sequence_layout sampleConfig 1 8 6 twoRegStack 2 3 [4] 5
    ⟨rfl, ⟨[0, 0, 0, 0, 0, 0], rfl⟩, by decide⟩ rfl (by decide) (by decide)

theorem for_iter_dispatch (cfg : Config) (nc codelen num_reg : Int) (s : RegisterStack)
    (oparg : Nat) (offset : Int) (l : List Int) (r : Int)
    (hs : s.Holds (l ++ [r])) (hext : (s.regs.length : Int) = cfg.REG_MAX_STACK)
    (hroom : l.length + 2 ≤ s.regs.length) (hnr : 0 ≤ num_reg) :
    ∃ a s0, dispatch cfg nc codelen num_reg s FOR_ITER oparg offset =
        .ok ⟨[add_dest_op2 FOR_ITER 0 r num_reg], s0, num_reg + 1,
          .fork a (offset + 3) s0 (offset + 3 + (oparg : Int)) true⟩ ∧
      a.Holds (l ++ [r, num_reg]) ∧ s0.Holds l := by
  obtain ⟨s0, e0, h0, g0⟩ := pop_ok hs
  obtain ⟨a1, e1, h1, g1⟩ := push_ok cfg r h0 (by omega) (by omega)
    (hs.2.2 r (by simp))
  obtain ⟨a2, e2, h2, _⟩ := push_ok cfg num_reg h1
    (by simp only [List.length_append, List.length_singleton]; omega)
    (by simp only [List.length_append, List.length_singleton]; push_cast; omega) (by omega)
  refine ⟨a2, s0, ?_, by simpa using h2, h0⟩
  unfold dispatch
  have hc : classify FOR_ITER = .forIter := rfl
  have hsz : CODESIZE FOR_ITER = 3 := rfl
  rw [hc]
  simp only [e0, e1, e2, bind, Except.bind, pure, Except.pure, hsz]

/-- **C26**, counterexample.  The claim fails on a stack that is full: with `REG_MAX_STACK`
registers on the stack, the iterator on top, the case of `FOR_ITER` pops the iterator,
pushes it back on the copy `a`, and the push of the fresh register then goes past the
array.  No op is emitted and no recursive call is made; the run of `registerize` ends
there. -/
theorem for_iter_on_full_stack :
    fullStack.Holds ([0, 1, 2, 3, 4, 5, 6] ++ [7]) ∧
    (fullStack.regs.length : Int) = sampleConfig.REG_MAX_STACK ∧
    dispatch sampleConfig 1 5 6 fullStack FOR_ITER 1 0 = .error .outOfBounds ∧
    registerizeLoop sampleConfig (9 + 1) (CompilerState.ofCode forIterCode 1 5) fullStack 0
      none none = some (.error .outOfBounds) := by
  refine ⟨⟨rfl, ⟨[], rfl⟩, by decide⟩, rfl, rfl, rfl⟩

/-- **C26**, amended (the fork of `FOR_ITER`, scenario 5).  Let the loop of `registerize`
reach a `FOR_ITER oparg` at `offset`, where no block starts yet, with the stack holding
the registers `l` and the iterator `r` on top, in an array of the declared extent with room
for one more register.  Then the new block `bb` gets the op `FOR_ITER` with the registers
`[r, d]`, `d = num_reg` fresh, with a destination, and the step is: the first recursive
call at `offset + 3` with a stack `a` holding `l`, `r`, `d`; when it returns, the second
one at `offset + 3 + oparg`, on the state the first call left, with the stack `s0` of the
fork that holds `l` only, whatever the first call did to its stack; when that returns, the
results `x`, `y` of the two calls are pushed on `bb->exits`, and the step returns
`entry_point` if both are blocks and `NULL` otherwise.  A fault of a recursive call is the
fault of the step.  After two calls that return, `bb->exits` is `[x, y]`. -/
theorem for_iter_fork (cfg : Config) (fuel : Nat) (st : CompilerState) (s : RegisterStack)
    (offset : Int) (ep last : Option Nat) (oparg : Nat) (l : List Int) (r : Int)
    (hW : st.WF) (hlast : ∀ p, last = some p → p ∈ st.bbs)
    (hoff : offset < st.py_codelen) (hfetch : fetch st offset = .ok (FOR_ITER, oparg))
    (hfind : st.find_bb offset = none)
    (hs : s.Holds (l ++ [r])) (hext : (s.regs.length : Int) = cfg.REG_MAX_STACK)
    (hroom : l.length + 2 ≤ s.regs.length) (hnr : 0 ≤ st.num_reg) :
    ∃ a s0,
      a.Holds (l ++ [r, st.num_reg]) ∧ s0.Holds l ∧
      (add_dest_op2 FOR_ITER 0 r st.num_reg).has_dest = true ∧
      registerizeLoop cfg (fuel + 1) st s offset ep last =
        (match enterWith (registerizeLoop cfg fuel)
            ((st.start_block offset last).2.emit st.heap.length
              ⟨[add_dest_op2 FOR_ITER 0 r st.num_reg], s0, st.num_reg + 1,
                .fork a (offset + 3) s0 (offset + 3 + (oparg : Int)) true⟩)
            a (offset + 3) with
          | none => none
          | some (.error f) => some (.error f)
          | some (.ok (x, st4, _)) =>
            match enterWith (registerizeLoop cfg fuel) st4 s0 (offset + 3 + (oparg : Int)) with
            | none => none
            | some (.error f) => some (.error f)
            | some (.ok (y, st5, _)) =>
              some (.ok (if x.isSome && y.isSome then some (ep.getD st.heap.length) else none,
                (st5.push_exit st.heap.length x).push_exit st.heap.length y, s0))) ∧
      ∀ x st4 sa y st5 sb,
        enterWith (registerizeLoop cfg fuel)
          ((st.start_block offset last).2.emit st.heap.length
            ⟨[add_dest_op2 FOR_ITER 0 r st.num_reg], s0, st.num_reg + 1,
              .fork a (offset + 3) s0 (offset + 3 + (oparg : Int)) true⟩)
          a (offset + 3) = some (.ok (x, st4, sa)) →
        enterWith (registerizeLoop cfg fuel) st4 s0 (offset + 3 + (oparg : Int)) =
          some (.ok (y, st5, sb)) →
        (((st5.push_exit st.heap.length x).push_exit st.heap.length y).deref
          st.heap.length).exits = [x, y] := by
  obtain ⟨a, s0, hd, ha, h0⟩ := for_iter_dispatch cfg st.num_consts st.py_codelen st.num_reg s
    oparg offset l r hs hext hroom hnr
  have hfold : foldStack cfg FOR_ITER s = none := rfl
  refine ⟨a, s0, ha, h0, rfl, ?_, ?_⟩
  · rw [registerizeLoop, if_pos hoff, hfetch]
    simp only [hfold, hfind, start_block_num_consts, start_block_codelen, start_block_num_reg,
      hd, start_block_fst]
    cases h1 : enterWith (registerizeLoop cfg fuel)
        ((st.start_block offset last).2.emit st.heap.length
          ⟨[add_dest_op2 FOR_ITER 0 r st.num_reg], s0, st.num_reg + 1,
            .fork a (offset + 3) s0 (offset + 3 + (oparg : Int)) true⟩)
        a (offset + 3) with
    | none => rfl
    | some res1 =>
      cases res1 with
      | error f => rfl
      | ok v1 =>
        obtain ⟨x, st4, sa⟩ := v1
        simp only
        cases h2 : enterWith (registerizeLoop cfg fuel) st4 s0 (offset + 3 + (oparg : Int)) with
        | none => rfl
        | some res2 =>
          cases res2 with
          | error f => rfl
          | ok v2 =>
            obtain ⟨y, st5, sb⟩ := v2
            cases x <;> cases y <;> rfl
  · intro x st4 sa y st5 sb hx hy
    have hW3 : ((st.start_block offset last).2.emit st.heap.length
        ⟨[add_dest_op2 FOR_ITER 0 r st.num_reg], s0, st.num_reg + 1,
          .fork a (offset + 3) s0 (offset + 3 + (oparg : Int)) true⟩).WF :=
      (Grows.block st offset last _ hW).wf
    obtain ⟨_, g4, _⟩ := enterWith_free cfg fuel _ a (offset + 3) x st4 sa hW3 hx
    obtain ⟨_, g5, _⟩ := enterWith_free cfg fuel st4 s0 _ y st5 sb g4.wf hy
    have hlt3 : st.heap.length < ((st.start_block offset last).2.emit st.heap.length
        ⟨[add_dest_op2 FOR_ITER 0 r st.num_reg], s0, st.num_reg + 1,
          .fork a (offset + 3) s0 (offset + 3 + (oparg : Int)) true⟩).heap.length := by
      simp
    have e5 : (st5.deref st.heap.length).exits = [] := by
      rw [g5.exits _ (Nat.lt_of_lt_of_le hlt3 g4.len) (by simp), g4.exits _ hlt3 (by simp),
        deref_block_new st offset last _ (fun p hp => hW p (hlast p hp))]
      rfl
    have hlt5 : st.heap.length < st5.heap.length :=
      Nat.lt_of_lt_of_le (Nat.lt_of_lt_of_le hlt3 g4.len) g5.len
    rw [deref_push_exit, if_pos ⟨rfl, by simpa using hlt5⟩]
    simp only
    rw [deref_push_exit, if_pos ⟨rfl, hlt5⟩]
    simp only [e5, List.nil_append, List.cons_append]

theorem for_iter_fork_witness :
    (∃ res st1 stack1,
      registerizeLoop sampleConfig (9 + 1) (CompilerState.ofCode forIterCode 1 5) twoRegStack 0
        none none = some (.ok (res, st1, stack1)) ∧
      st1.offsets = [0, 3, 4] ∧ (st1.deref 0).exits = [some 1, some 2] ∧
      (st1.deref 0).code = [add_dest_op2 FOR_ITER 0 5 6]) ∧
    ∃ a s0,
      a.Holds ([4] ++ [5, (CompilerState.ofCode forIterCode 1 5).num_reg]) ∧ s0.Holds [4] ∧
      (add_dest_op2 FOR_ITER 0 5 (CompilerState.ofCode forIterCode 1 5).num_reg).has_dest
        = true ∧
      registerizeLoop sampleConfig (9 + 1) (CompilerState.ofCode forIterCode 1 5) twoRegStack 0
          none none =
        (match enterWith (registerizeLoop sampleConfig 9)
            (((CompilerState.ofCode forIterCode 1 5).start_block 0 none).2.emit
              (CompilerState.ofCode forIterCode 1 5).heap.length
              ⟨[add_dest_op2 FOR_ITER 0 5 (CompilerState.ofCode forIterCode 1 5).num_reg], s0,
                (CompilerState.ofCode forIterCode 1 5).num_reg + 1,
                .fork a (0 + 3) s0 (0 + 3 + ((1 : Nat) : Int)) true⟩)
            a (0 + 3) with
          | none => none
          | some (.error f) => some (.error f)
          | some (.ok (x, st4, _)) =>
            match enterWith (registerizeLoop sampleConfig 9) st4 s0
                (0 + 3 + ((1 : Nat) : Int)) with
            | none => none
            | some (.error f) => some (.error f)
            | some (.ok (y, st5, _)) =>
              some (.ok (if x.isSome && y.isSome then
                  some ((none : Option Nat).getD (CompilerState.ofCode forIterCode 1 5).heap.length)
                else none,
                (st5.push_exit (CompilerState.ofCode forIterCode 1 5).heap.length x).push_exit
                  (CompilerState.ofCode forIterCode 1 5).heap.length y, s0))) ∧
      ∀ x st4 sa y st5 sb,
        enterWith (registerizeLoop sampleConfig 9)
          (((CompilerState.ofCode forIterCode 1 5).start_block 0 none).2.emit
            (CompilerState.ofCode forIterCode 1 5).heap.length
            ⟨[add_dest_op2 FOR_ITER 0 5 (CompilerState.ofCode forIterCode 1 5).num_reg], s0,
              (CompilerState.ofCode forIterCode 1 5).num_reg + 1,
              .fork a (0 + 3) s0 (0 + 3 + ((1 : Nat) : Int)) true⟩)
          a (0 + 3) = some (.ok (x, st4, sa)) →
        enterWith (registerizeLoop sampleConfig 9) st4 s0 (0 + 3 + ((1 : Nat) : Int)) =
          some (.ok (y, st5, sb)) →
        (((st5.push_exit (CompilerState.ofCode forIterCode 1 5).heap.length x).push_exit
          (CompilerState.ofCode forIterCode 1 5).heap.length y).deref
          (CompilerState.ofCode forIterCode 1 5).heap.length).exits = [x, y] :=
  ⟨⟨_, _, _, rfl, rfl, rfl, rfl⟩,
    for_iter_fork sampleConfig 9 (CompilerState.ofCode forIterCode 1 5) twoRegStack 0 none none
      1 [4] 5 (by decide) (by simp) (by decide) rfl rfl
      ⟨rfl, ⟨[0, 0, 0, 0, 0, 0], rfl⟩, by decide⟩ rfl (by decide) (by decide)⟩

/-! ## A second run of `optimize` -/

theorem sameFlow_rfl (a : CompilerState) : SameFlow a a :=
  ⟨rfl, rfl, fun _ => ⟨rfl, rfl, rfl⟩⟩

theorem sameFlow_trans {a b c : CompilerState} (h1 : SameFlow a b) (h2 : SameFlow b c) :
    SameFlow a c :=
  ⟨h2.1.trans h1.1, h2.2.1.trans h1.2.1, fun q =>
    ⟨(h2.2.2 q).1.trans (h1.2.2 q).1, (h2.2.2 q).2.1.trans (h1.2.2 q).2.1,
      (h2.2.2 q).2.2.trans (h1.2.2 q).2.2⟩⟩

theorem sameFlow_modify (st : CompilerState) (p : Nat) (f : BasicBlock → BasicBlock)
    (h1 : ∀ b, (f b).exits = b.exits) (h2 : ∀ b, (f b).entries = b.entries)
    (h3 : ∀ b, (f b).dead = b.dead) : SameFlow st (st.modify p f) :=
  ⟨modify_heap_length _ _ _, rfl, fun q =>
    ⟨deref_modify_exits st p f q h1, deref_modify_entries st p f q h2,
      deref_modify_dead st p f q h3⟩⟩

theorem sameFlow_resetVisited (st : CompilerState) : SameFlow st (resetVisited st) :=
  ⟨resetVisited_heap_length st, resetVisited_bbs st, fun q =>
    ⟨resetVisited_exits st q, resetVisited_entries st q, resetVisited_dead st q⟩⟩

theorem pruned_remove_dead_code (st : CompilerState) : Pruned st (remove_dead_code st) := by
  have hd : ∀ q, ((st.bbs.foldl
      (fun s p => if (s.deref p).dead then s else s.modify p remove_dead_ops) st).deref q).dead
      = (st.deref q).dead := by
    intro q
    rw [(remove_dead_fold st.bbs st).2.2 q]
    split <;> rfl
  refine ⟨(remove_dead_fold st.bbs st).2.1, ?_, fun q => ?_⟩
  · unfold remove_dead_code
    simp only
    apply List.filter_congr
    intro p _
    rw [hd p]
  · refine ⟨(remove_dead_code_deref st q).1, (remove_dead_code_deref st q).2, ?_⟩
    unfold remove_dead_code
    exact hd q

theorem pruned_of_sameFlow {a b c : CompilerState} (h1 : SameFlow a b) (h2 : Pruned b c) :
    Pruned a c := by
  refine ⟨h2.1.trans h1.1, ?_, fun q =>
    ⟨(h2.2.2 q).1.trans (h1.2.2 q).1, (h2.2.2 q).2.1.trans (h1.2.2 q).2.1,
      (h2.2.2 q).2.2.trans (h1.2.2 q).2.2⟩⟩
  rw [h2.2.1, h1.2.1]
  apply List.filter_congr
  intro p _
  rw [(h1.2.2 p).2.2]

theorem pruned_trans {a b c : CompilerState} (h1 : Pruned a b) (h2 : Pruned b c) :
    Pruned a c := by
  refine ⟨h2.1.trans h1.1, ?_, fun q =>
    ⟨(h2.2.2 q).1.trans (h1.2.2 q).1, (h2.2.2 q).2.1.trans (h1.2.2 q).2.1,
      (h2.2.2 q).2.2.trans (h1.2.2 q).2.2⟩⟩
  rw [h2.2.1, h1.2.1, List.filter_filter]
  apply List.filter_congr
  intro p _
  rw [(h1.2.2 p).2.2, Bool.and_self]

theorem pruned_noDeadBlocks {a b : CompilerState} (h : Pruned a b) : b.NoDeadBlocks := by
  intro p hp
  rw [h.2.1, List.mem_filter] at hp
  rw [(h.2.2 p).2.2]
  simpa using hp.2

theorem pruned_bbs {a b : CompilerState} (h : Pruned a b) (ha : a.NoDeadBlocks) :
    b.bbs = a.bbs := by
  rw [h.2.1, List.filter_eq_self]
  intro p hp
  simp [ha p hp]

theorem pruned_distinct {a b : CompilerState} (h : Pruned a b) (ha : a.Distinct) :
    b.Distinct := by
  refine ⟨?_, fun p hp => ?_⟩
  · rw [h.2.1]; exact ha.1.filter _
  · rw [h.2.1] at hp
    rw [h.1]
    exact ha.2 p (List.mem_filter.mp hp).1

theorem pruned_entered {a b : CompilerState} (h : Pruned a b) (ha : a.Entered) :
    b.Entered := by
  intro p q hq
  rw [(h.2.2 p).1] at hq
  rw [(h.2.2 q).2.1]
  exact ha p q hq

/-- A pass of `CompilerPass::visit_fn` whose `visit_bb` keeps the flow graph keeps it, up
to the blocks `remove_dead_code` takes out of `bbs`. -/
theorem visit_fn_pruned {σ ε : Type}
    (visit_bb : σ → CompilerState → Nat → Except ε (σ × CompilerState))
    (hv : ∀ a st p a1 st1, visit_bb a st p = .ok (a1, st1) → SameFlow st st1)
    (a : σ) (st : CompilerState) (a1 : σ) (st1 : CompilerState)
    (h : CompilerPass.visit_fn visit_bb a st = .ok (a1, st1)) : Pruned st st1 := by
  have hloop := forwardLoop_inv visit_bb (fun _ _ s => SameFlow st s) (fun _ => True)
    (fun p ps a s hI => by
      refine ⟨fun _ => ⟨fun a1 s1 hr => ?_, fun _ _ => trivial⟩, fun _ => hI⟩
      exact sameFlow_trans (sameFlow_trans hI (hv a s p a1 s1 hr))
        (sameFlow_modify s1 p _ (fun _ => rfl) (fun _ => rfl) (fun _ => rfl)))
    st.bbs a (resetVisited st) (sameFlow_resetVisited st)
  unfold CompilerPass.visit_fn at h
  cases hr : forwardLoop visit_bb st.bbs a (resetVisited st) with
  | error e => rw [hr] at h; cases h
  | ok res =>
    rw [hr] at h
    simp only [Except.ok.injEq, Prod.mk.injEq] at h
    rw [← h.2]
    exact pruned_of_sameFlow (hloop.1 res.1 res.2 hr) (pruned_remove_dead_code res.2)

theorem copyPropagation_pruned (st st1 : CompilerState) (h : CopyPropagation st = .ok st1) :
    Pruned st st1 := by
  unfold CopyPropagation at h
  cases hr : CompilerPass.visit_fn CopyPropagation.visit_bb () st with
  | error e => rw [hr] at h; cases h
  | ok res =>
    rw [hr] at h
    simp only [Except.ok.injEq] at h
    rw [← h]
    refine visit_fn_pruned CopyPropagation.visit_bb ?_ () st res.1 res.2 hr
    intro a s p a1 s1 hv
    unfold CopyPropagation.visit_bb at hv
    split at hv
    · cases hv
    · simp only [Except.ok.injEq, Prod.mk.injEq] at hv
      rw [← hv.2]
      exact sameFlow_modify s p _ (fun _ => rfl) (fun _ => rfl) (fun _ => rfl)

theorem storeElim_pruned (st st1 : CompilerState) (h : StoreElim st = .ok st1) :
    Pruned st st1 := by
  unfold StoreElim at h
  split at h
  · cases h
  · rename_i c _
    cases hr : CompilerPass.visit_fn (StoreElim.visit_bb c) () st with
    | error e => rw [hr] at h; cases h
    | ok res =>
      rw [hr] at h
      simp only [Except.ok.injEq] at h
      rw [← h]
      refine visit_fn_pruned (StoreElim.visit_bb c) ?_ () st res.1 res.2 hr
      intro a s p a1 s1 hv
      unfold StoreElim.visit_bb at hv
      split at hv
      · cases hv
      · simp only [Except.ok.injEq, Prod.mk.injEq] at hv
        rw [← hv.2]
        exact sameFlow_modify s p _ (fun _ => rfl) (fun _ => rfl) (fun _ => rfl)

theorem visit_at_flow {σ : Type} (visit_op : σ → CompilerOp → Except Fault (σ × CompilerOp))
    (p : Nat) (s s1 : σ × CompilerState) (i : Nat)
    (h : BackwardPass.visit_at visit_op p s i = .ok s1) : SameFlow s.2 s1.2 := by
  unfold BackwardPass.visit_at at h
  split at h
  · cases h
  · split at h
    · split at h
      · cases h
      · simp only [Except.ok.injEq] at h
        rw [← h]
        exact sameFlow_modify s.2 p _ (fun _ => rfl) (fun _ => rfl) (fun _ => rfl)
    · simp only [Except.ok.injEq] at h
      rw [← h]
      exact sameFlow_rfl _

theorem visit_bb_flow {σ : Type} (visit_op : σ → CompilerOp → Except Fault (σ × CompilerOp))
    (a : σ) (st : CompilerState) (p : Nat) (r : σ × CompilerState)
    (h : BackwardPass.visit_bb visit_op a st p = .ok r) : SameFlow st r.2 :=
  backLoop_inv (BackwardPass.visit_at visit_op p) (fun _ s => SameFlow st s.2)
    (fun i s s1 hI hs => sameFlow_trans hI (visit_at_flow visit_op p s s1 i hs))
    _ (a, st) r (sameFlow_rfl st) h

theorem sweep_flow {σ : Type} (visit_op : σ → CompilerOp → Except Fault (σ × CompilerOp))
    (a : σ) (st : CompilerState) (r : σ × CompilerState)
    (h : BackwardPass.sweep visit_op a st = .ok r) : SameFlow st r.2 :=
  backLoop_inv (BackwardPass.visit_block visit_op) (fun _ s => SameFlow st s.2)
    (fun i s s1 hI hs => by
      obtain ⟨p, _, hc⟩ := visit_block_ok visit_op s.1 s.2 i s1 hs
      rcases hc with ⟨_, a1, st1, hvb, hr⟩ | ⟨_, hr⟩
      · rw [hr]
        exact sameFlow_trans (sameFlow_trans hI (visit_bb_flow visit_op s.1 s.2 p (a1, st1) hvb))
          (sameFlow_modify st1 p _ (fun _ => rfl) (fun _ => rfl) (fun _ => rfl))
      · rw [hr]; exact hI)
    _ (a, resetVisited st) r (sameFlow_resetVisited st) h

theorem deadCodeElim_pruned (cfg : Config) (st st1 : CompilerState)
    (h : DeadCodeElim cfg st = .ok st1) : Pruned st st1 := by
  unfold DeadCodeElim at h
  split at h
  · cases h
  · rename_i c s1 hs
    simp only [Except.ok.injEq] at h
    rw [← h]
    unfold DeadCodeElim.sweep at hs
    split at hs
    · cases hs
    · exact pruned_of_sameFlow (sweep_flow _ _ st (c, s1) hs) (pruned_remove_dead_code s1)

/-- The loop of `MarkEntries::visit_bb` over the exits `l` of block `p`: no list of entries
gets shorter, and the list of every exit gets longer. -/
theorem markEntries_fold_length (p : Nat) : ∀ (l : List (Option Nat)) (s s1 : CompilerState),
    l.foldlM (fun (s : Unit × CompilerState) next =>
        match next with
        | none => Except.error Fault.nullDeref
        | some n => Except.ok ((), s.2.modify n (fun b => { b with entries := b.entries ++ [p] })))
      ((), s) = .ok ((), s1) →
    (∀ q, (s.deref q).entries.length ≤ (s1.deref q).entries.length) ∧
    (∀ n, some n ∈ l → n < s.heap.length →
      (s.deref n).entries.length < (s1.deref n).entries.length)
  | [], s, s1, h => by
    simp only [List.foldlM_nil, pure, Except.pure, Except.ok.injEq, Prod.mk.injEq, true_and] at h
    subst h
    exact ⟨fun _ => Nat.le_refl _, fun _ hn => by simp at hn⟩
  | none :: l, s, s1, h => by
    simp [List.foldlM_cons, bind, Except.bind] at h
  | some n :: l, s, s1, h => by
    simp only [List.foldlM_cons, bind, Except.bind] at h
    obtain ⟨h4, h5⟩ := markEntries_fold_length p l _ s1 h
    have hd : ∀ q, (s.modify n (fun b => { b with entries := b.entries ++ [p] })).deref q =
        if q = n ∧ n < s.heap.length then
          { s.deref q with entries := (s.deref q).entries ++ [p] } else s.deref q :=
      fun q => deref_modify s n _ q
    have hle : ∀ q, (s.deref q).entries.length ≤
        ((s.modify n (fun b => { b with entries := b.entries ++ [p] })).deref q).entries.length := by
      intro q
      rw [hd q]
      split
      · simp
      · exact Nat.le_refl _
    refine ⟨fun q => Nat.le_trans (hle q) (h4 q), fun m hm hlt => ?_⟩
    rcases List.mem_cons.mp hm with hm1 | hm1
    · have hmn : m = n := (Option.some.inj hm1)
      subst hmn
      refine Nat.lt_of_lt_of_le ?_ (h4 m)
      rw [hd m, if_pos ⟨rfl, hlt⟩]
      simp
    · exact Nat.lt_of_le_of_lt (hle m) (h5 m hm1 (by rw [modify_heap_length]; exact hlt))

/-- A run of `MarkEntries` on a state in which every exit has an entry recorded already:
afterwards every exit of a block of `bbs` has two entries or more. -/
theorem MarkEntries.again (st st1 : CompilerState) (hD : st.Distinct) (hA : st.NoDeadBlocks)
    (hE : st.Entered) (h : MarkEntries st = .ok st1) :
    st1.heap.length = st.heap.length ∧ st1.bbs = st.bbs ∧
    (∀ q, (st1.deref q).exits = (st.deref q).exits ∧ (st1.deref q).dead = (st.deref q).dead) ∧
    (∀ p ∈ st.bbs, ∀ n, some n ∈ (st.deref p).exits → 1 < (st1.deref n).entries.length) := by
  have hloop := forwardLoop_inv MarkEntries.visit_bb
    (fun ps _ s => s.heap.length = st.heap.length ∧ s.bbs = st.bbs ∧
      (∀ q, (s.deref q).exits = (st.deref q).exits ∧ (s.deref q).dead = (st.deref q).dead) ∧
      (∀ q ∈ ps, (s.deref q).visited = false) ∧ ps.Nodup ∧ (∀ q ∈ ps, q ∈ st.bbs) ∧
      (∀ q, (st.deref q).entries.length ≤ (s.deref q).entries.length) ∧
      (∀ p ∈ st.bbs, p ∉ ps → ∀ n, some n ∈ (st.deref p).exits →
        (st.deref n).entries.length < (s.deref n).entries.length))
    (fun _ => True)
    (fun p ps a s hI => by
      obtain ⟨i1, ib, i2, i3, i4, im, i6, i5⟩ := hI
      have hcond : (!(s.deref p).visited && !(s.deref p).dead) = true := by
        rw [i3 p (List.mem_cons_self _ _), (i2 p).2, hA p (im p (List.mem_cons_self _ _))]; rfl
      refine ⟨fun _ => ⟨fun a1 s1 hr => ?_, fun _ _ => trivial⟩, fun hc => ?_⟩
      · obtain ⟨h1, h2, h3, _, _⟩ := markEntries_fold p (s.deref p).exits s s1 hr
        obtain ⟨h4, h5⟩ := markEntries_fold_length p (s.deref p).exits s s1 hr
        have hpn : p ∉ ps := (List.nodup_cons.mp i4).1
        have he : ∀ m, ((s1.modify p (fun b => { b with visited := true })).deref m).entries =
            (s1.deref m).entries := fun m => deref_modify_entries _ _ _ _ (fun _ => rfl)
        refine ⟨by rw [modify_heap_length, h1, i1], by rw [modify_bbs, h2, ib],
          fun q => ⟨?_, ?_⟩, fun q hq => ?_,
          (List.nodup_cons.mp i4).2, fun q hq => im q (List.mem_cons_of_mem _ hq),
          fun q => ?_, fun p1 hp1 hp1n n hn => ?_⟩
        · refine Eq.trans (deref_modify_exits _ _ _ _ ?_) ((h3 q).1.trans (i2 q).1)
          intro _; rfl
        · refine Eq.trans (deref_modify_dead _ _ _ _ ?_) ((h3 q).2.2.1.trans (i2 q).2)
          intro _; rfl
        · rw [deref_modify, if_neg (fun (hc : q = p ∧ p < s1.heap.length) => hpn (hc.1 ▸ hq)),
            (h3 q).2.1]
          exact i3 q (List.mem_cons_of_mem _ hq)
        · rw [he]; exact Nat.le_trans (i6 q) (h4 q)
        · rw [he]
          by_cases hp1p : p1 = p
          · subst hp1p
            refine Nat.lt_of_le_of_lt (i6 n) (h5 n ?_ ?_)
            · rw [(i2 p1).1]; exact hn
            · rw [i1]; exact valid_of_entries st n (hE p1 n hn)
          · exact Nat.lt_of_lt_of_le (i5 p1 hp1 (fun hc => by
              rcases List.mem_cons.mp hc with hc | hc
              · exact hp1p hc
              · exact hp1n hc) n hn) (h4 n)
      · rw [hcond] at hc; cases hc)
    st.bbs () (resetVisited st)
    ⟨resetVisited_heap_length st, resetVisited_bbs st,
      fun q => ⟨resetVisited_exits st q, resetVisited_dead st q⟩,
      fun q hq => resetVisited_visited st hD.2 q hq, hD.1, fun _ hq => hq,
      fun q => by rw [resetVisited_entries], fun p hp hpn => absurd hp hpn⟩
  unfold MarkEntries CompilerPass.visit_fn at h
  cases hr : forwardLoop MarkEntries.visit_bb st.bbs () (resetVisited st) with
  | error e => rw [hr] at h; cases h
  | ok res =>
    rw [hr] at h
    simp only [Except.ok.injEq] at h
    obtain ⟨i1, ib, i2, _, _, _, _, i5⟩ := hloop.1 res.1 res.2 hr
    have hP := pruned_remove_dead_code res.2
    rw [h] at hP
    have hA2 : res.2.NoDeadBlocks := by
      intro p hp
      rw [(i2 p).2]
      exact hA p (ib ▸ hp)
    refine ⟨hP.1.trans i1, (pruned_bbs hP hA2).trans ib, fun q =>
      ⟨(hP.2.2 q).1.trans (i2 q).1, (hP.2.2 q).2.2.trans (i2 q).2⟩, fun p hp n hn => ?_⟩
    rw [(hP.2.2 n).2.1]
    have h0 : 0 < (st.deref n).entries.length := List.length_pos.mpr (hE p n hn)
    have := i5 p hp (by simp) n hn
    omega

theorem splice_bbs (st : CompilerState) (bb next : Nat) :
    (FuseBasicBlocks.splice st bb next).bbs = st.bbs := rfl

theorem splice_heap_length (st : CompilerState) (bb next : Nat) :
    (FuseBasicBlocks.splice st bb next).heap.length = st.heap.length := by
  simp [FuseBasicBlocks.splice]

/-- A splice keeps every exit entered: the block spliced into takes over the exits of the
spliced block, and no list of entries changes. -/
theorem splice_entered (st : CompilerState) (bb next : Nat) (hE : st.Entered) :
    (FuseBasicBlocks.splice st bb next).Entered := by
  intro p q hq
  rw [splice_entries]
  by_cases hp : p = bb
  · subst hp
    by_cases hv : p < st.heap.length
    · rw [splice_exits_self st p next hv] at hq
      exact hE next q hq
    · rw [exits_of_invalid _ p (by rw [splice_heap_length]; exact hv)] at hq
      cases hq
  · rw [splice_exits_other st bb next p hp] at hq
    exact hE p q hq

/-- The `while` loop of `FuseBasicBlocks::visit_bb` keeps every exit entered. -/
theorem FuseBasicBlocks.loop_entered :
    ∀ (fuel bb : Nat) (next : Option Nat) (log log1 : List SpliceEvent) (st st1 : CompilerState),
      st.Entered → FuseBasicBlocks.loop fuel bb next log st = .ok (log1, st1) →
      st1.Entered ∧ st1.heap.length = st.heap.length ∧ st1.bbs = st.bbs := by
  intro fuel
  induction fuel with
  | zero =>
    intro bb next log log1 st st1 _ hr
    simp [FuseBasicBlocks.loop] at hr
  | succ fuel ih =>
    intro bb next log log1 st st1 hE hr
    cases next with
    | none => simp [FuseBasicBlocks.loop] at hr
    | some n =>
      by_cases hg : (decide (1 < (st.deref n).entries.length) || (st.deref n).visited) = true
      · simp only [FuseBasicBlocks.loop, hg, if_true, Except.ok.injEq, Prod.mk.injEq] at hr
        rw [← hr.2]
        exact ⟨hE, rfl, rfl⟩
      · have hloop : FuseBasicBlocks.loop (fuel + 1) bb (some n) log st =
            match ((FuseBasicBlocks.splice st bb n).deref bb).exits with
            | [e] => FuseBasicBlocks.loop fuel bb e
                (log ++ [{ into := bb, block := n, entries := (st.deref n).entries }])
                (FuseBasicBlocks.splice st bb n)
            | _ => .ok (log ++ [{ into := bb, block := n, entries := (st.deref n).entries }],
                FuseBasicBlocks.splice st bb n) := by
          simp only [FuseBasicBlocks.loop, hg, if_false]
          rfl
        rw [hloop] at hr
        split at hr
        · obtain ⟨h1, h2, h3⟩ := ih bb _ _ log1 _ st1 (splice_entered st bb n hE) hr
          exact ⟨h1, h2.trans (splice_heap_length st bb n), h3.trans (splice_bbs st bb n)⟩
        · simp only [Except.ok.injEq, Prod.mk.injEq] at hr
          rw [← hr.2]
          exact ⟨splice_entered st bb n hE, splice_heap_length st bb n, splice_bbs st bb n⟩

theorem entered_modify (st : CompilerState) (p : Nat) (f : BasicBlock → BasicBlock)
    (h1 : ∀ b, (f b).exits = b.exits) (h2 : ∀ b, (f b).entries = b.entries) (hE : st.Entered) :
    (st.modify p f).Entered := by
  intro a b hb
  rw [deref_modify_exits st p f a h1] at hb
  rw [deref_modify_entries st p f b h2]
  exact hE a b hb

/-- The pass `FuseBasicBlocks` keeps every exit entered; the blocks it leaves in `bbs` are
blocks that were there, and none of them is dead. -/
theorem FuseBasicBlocks.entered (st st1 : CompilerState) (hE : st.Entered)
    (h : FuseBasicBlocks st = some (.ok st1)) :
    st1.Entered ∧ st1.heap.length = st.heap.length ∧ st1.bbs.Sublist st.bbs ∧
      st1.NoDeadBlocks := by
  have hloop := forwardLoop_inv (FuseBasicBlocks.visit_bb (st.heap.length + 1))
    (fun _ _ s => s.Entered ∧ s.heap.length = st.heap.length ∧ s.bbs = st.bbs)
    (fun _ => True)
    (fun p ps a s hI => by
      refine ⟨fun _ => ⟨fun a1 s1 hr => ?_, fun _ _ => trivial⟩, fun _ => hI⟩
      have hstep : s1.Entered ∧ s1.heap.length = s.heap.length ∧ s1.bbs = s.bbs := by
        unfold FuseBasicBlocks.visit_bb at hr
        split at hr
        · simp only [Except.ok.injEq, Prod.mk.injEq] at hr
          rw [← hr.2]; exact ⟨hI.1, rfl, rfl⟩
        · split at hr
          · exact FuseBasicBlocks.loop_entered _ p _ a a1 s s1 hI.1 hr
          · simp only [Except.ok.injEq, Prod.mk.injEq] at hr
            rw [← hr.2]; exact ⟨hI.1, rfl, rfl⟩
      exact ⟨entered_modify s1 p _ (fun _ => rfl) (fun _ => rfl) hstep.1,
        by rw [modify_heap_length, hstep.2.1, hI.2.1], by rw [modify_bbs, hstep.2.2, hI.2.2]⟩)
    st.bbs [] (resetVisited st)
    ⟨fun p q hq => by
        rw [resetVisited_exits] at hq
        rw [resetVisited_entries]
        exact hE p q hq, resetVisited_heap_length st, resetVisited_bbs st⟩
  unfold FuseBasicBlocks FuseBasicBlocks.run CompilerPass.visit_fn at h
  cases hr : forwardLoop (FuseBasicBlocks.visit_bb (st.heap.length + 1)) st.bbs []
      (resetVisited st) with
  | error e =>
    rw [hr] at h
    obtain ⟨f, l⟩ := e
    cases f <;> simp at h
  | ok res =>
    rw [hr] at h
    simp only [Option.some.injEq, Except.ok.injEq] at h
    obtain ⟨i1, i2, i3⟩ := hloop.1 res.1 res.2 hr
    have hP := pruned_remove_dead_code res.2
    rw [h] at hP
    refine ⟨pruned_entered hP i1, hP.1.trans i2, ?_, pruned_noDeadBlocks hP⟩
    rw [hP.2.1, i3]
    exact List.filter_sublist _

/-- A run of `FuseBasicBlocks` on a state in which every exit of a block of `bbs` has two
entries or more, and no block of `bbs` is dead, splices nothing. -/
theorem FuseBasicBlocks.idle (st st1 : CompilerState) (hA : st.NoDeadBlocks)
    (hE : ∀ p ∈ st.bbs, ∀ n, some n ∈ (st.deref p).exits → 1 < (st.deref n).entries.length)
    (h : FuseBasicBlocks st = some (.ok st1)) : SameFlow st st1 := by
  have hloop := forwardLoop_inv (FuseBasicBlocks.visit_bb (st.heap.length + 1))
    (fun ps _ s => SameFlow st s ∧ ∀ q ∈ ps, q ∈ st.bbs)
    (fun _ => True)
    (fun p ps a s hI => by
      refine ⟨fun _ => ⟨fun a1 s1 hr => ?_, fun _ _ => trivial⟩,
        fun _ => ⟨hI.1, fun q hq => hI.2 q (List.mem_cons_of_mem _ hq)⟩⟩
      have hstep : s1 = s := by
        unfold FuseBasicBlocks.visit_bb at hr
        split at hr
        · simp only [Except.ok.injEq, Prod.mk.injEq] at hr
          exact hr.2.symm
        · split at hr
          · rename_i next hnext
            cases next with
            | none => simp [FuseBasicBlocks.loop] at hr
            | some n =>
              have hn : 1 < (s.deref n).entries.length := by
                rw [(hI.1.2.2 n).2.1]
                refine hE p (hI.2 p (List.mem_cons_self _ _)) n ?_
                rw [← (hI.1.2.2 p).1, hnext]
                exact List.mem_singleton.mpr rfl
              simp only [FuseBasicBlocks.loop, hn, decide_True, Bool.true_or, if_true,
                Except.ok.injEq, Prod.mk.injEq] at hr
              exact hr.2.symm
          · simp only [Except.ok.injEq, Prod.mk.injEq] at hr
            exact hr.2.symm
      rw [hstep]
      exact ⟨sameFlow_trans hI.1
        (sameFlow_modify s p _ (fun _ => rfl) (fun _ => rfl) (fun _ => rfl)),
        fun q hq => hI.2 q (List.mem_cons_of_mem _ hq)⟩)
    st.bbs [] (resetVisited st) ⟨sameFlow_resetVisited st, fun _ hq => hq⟩
  unfold FuseBasicBlocks FuseBasicBlocks.run CompilerPass.visit_fn at h
  cases hr : forwardLoop (FuseBasicBlocks.visit_bb (st.heap.length + 1)) st.bbs []
      (resetVisited st) with
  | error e =>
    rw [hr] at h
    obtain ⟨f, l⟩ := e
    cases f <;> simp at h
  | ok res =>
    rw [hr] at h
    simp only [Option.some.injEq, Except.ok.injEq] at h
    obtain ⟨i1, _⟩ := hloop.1 res.1 res.2 hr
    have hP := pruned_of_sameFlow i1 (pruned_remove_dead_code res.2)
    rw [h] at hP
    exact ⟨hP.1, pruned_bbs hP hA, hP.2.2⟩

/-- The passes of `optimize`, one by one. -/
theorem optimize_ok (cfg : Config) (st s : CompilerState) (h : optimize cfg st = some (.ok s)) :
    ∃ m f c e, MarkEntries st = .ok m ∧ FuseBasicBlocks m = some (.ok f) ∧
      CopyPropagation f = .ok c ∧ StoreElim c = .ok e ∧ DeadCodeElim cfg e = .ok s := by
  unfold optimize at h
  split at h
  · cases h
  · rename_i m hm
    split at h
    · cases h
    · cases h
    · rename_i f hf
      split at h
      · cases h
      · rename_i c hc
        split at h
        · cases h
        · rename_i e he
          exact ⟨m, f, c, e, hm, hf, hc, he, Option.some.inj h⟩

/-- The passes that follow `FuseBasicBlocks` in `optimize`. -/
theorem optimize_tail_pruned (cfg : Config) (f c e s : CompilerState)
    (hc : CopyPropagation f = .ok c) (he : StoreElim c = .ok e)
    (hs : DeadCodeElim cfg e = .ok s) : Pruned f s :=
  pruned_trans (pruned_trans (copyPropagation_pruned f c hc) (storeElim_pruned c e he))
    (deadCodeElim_pruned cfg e s hs)

/-- The pass `MarkEntries` changes no exit and no `dead` flag and adds no block. -/
theorem MarkEntries.frame (st st1 : CompilerState) (h : MarkEntries st = .ok st1) :
    st1.heap.length = st.heap.length ∧ st1.bbs.Sublist st.bbs := by
  have hloop := forwardLoop_inv MarkEntries.visit_bb
    (fun _ _ s => s.heap.length = st.heap.length ∧ s.bbs = st.bbs)
    (fun _ => True)
    (fun p ps a s hI => by
      refine ⟨fun _ => ⟨fun a1 s1 hr => ?_, fun _ _ => trivial⟩, fun _ => hI⟩
      obtain ⟨h1, h2, _⟩ := markEntries_fold p (s.deref p).exits s s1 hr
      exact ⟨by rw [modify_heap_length, h1, hI.1], by rw [modify_bbs, h2, hI.2]⟩)
    st.bbs () (resetVisited st) ⟨resetVisited_heap_length st, resetVisited_bbs st⟩
  unfold MarkEntries CompilerPass.visit_fn at h
  cases hr : forwardLoop MarkEntries.visit_bb st.bbs () (resetVisited st) with
  | error e => rw [hr] at h; cases h
  | ok res =>
    rw [hr] at h
    simp only [Except.ok.injEq] at h
    obtain ⟨i1, i2⟩ := hloop.1 res.1 res.2 hr
    have hP := pruned_remove_dead_code res.2
    rw [h] at hP
    refine ⟨hP.1.trans i1, ?_⟩
    rw [hP.2.1, i2]
    exact List.filter_sublist _

theorem distinct_of_sublist {a b : CompilerState} (hl : b.heap.length = a.heap.length)
    (hs : b.bbs.Sublist a.bbs) (ha : a.Distinct) : b.Distinct :=
  ⟨ha.1.sublist hs, fun p hp => hl ▸ ha.2 p (hs.subset hp)⟩

/-- What a first run of `optimize` on the blocks of `registerize` leaves. -/
theorem optimize_first (cfg : Config) (st s1 : CompilerState) (hF : st.Fresh)
    (h1 : optimize cfg st = some (.ok s1)) :
    s1.Distinct ∧ s1.NoDeadBlocks ∧ s1.Entered := by
  obtain ⟨m, f, c, e, hm, hf, hc, he, hs⟩ := optimize_ok cfg st s1 h1
  have hM : m.Entered := fun p q hq hnil => by
    have := MarkEntries.marked st m hF hm p q hq
    rw [hnil] at this
    cases this
  obtain ⟨hl, hsub⟩ := MarkEntries.frame st m hm
  obtain ⟨f1, f2, f3, _⟩ := FuseBasicBlocks.entered m f hM hf
  have hP := optimize_tail_pruned cfg f c e s1 hc he hs
  exact ⟨pruned_distinct hP (distinct_of_sublist f2 f3
    (distinct_of_sublist hl hsub ⟨hF.nodup, hF.wf⟩)), pruned_noDeadBlocks hP,
    pruned_entered hP f1⟩

/-- A run of `optimize` on a state a first run has left fuses nothing. -/
theorem optimize_second (cfg : Config) (s1 s2 : CompilerState) (hD : s1.Distinct)
    (hA : s1.NoDeadBlocks) (hE : s1.Entered) (h2 : optimize cfg s1 = some (.ok s2)) :
    s2.bbs = s1.bbs ∧
    ∀ p, (s2.deref p).exits = (s1.deref p).exits ∧ (s2.deref p).dead = (s1.deref p).dead := by
  obtain ⟨m, f, c, e, hm, hf, hc, he, hs⟩ := optimize_ok cfg s1 s2 h2
  obtain ⟨_, m2, m3, m4⟩ := MarkEntries.again s1 m hD hA hE hm
  have hAm : m.NoDeadBlocks := fun p hp => by
    rw [(m3 p).2]; exact hA p (m2 ▸ hp)
  have hfl : SameFlow m f := FuseBasicBlocks.idle m f hAm (fun p hp n hn => by
    rw [(m3 p).1] at hn
    exact m4 p (m2 ▸ hp) n hn) hf
  have hAf : f.NoDeadBlocks := fun p hp => by
    rw [(hfl.2.2 p).2.2]; exact hAm p (hfl.2.1 ▸ hp)
  have hP := optimize_tail_pruned cfg f c e s2 hc he hs
  refine ⟨(pruned_bbs hP hAf).trans (hfl.2.1.trans m2), fun p => ⟨?_, ?_⟩⟩
  · exact (hP.2.2 p).1.trans ((hfl.2.2 p).1.trans (m3 p).1)
  · exact (hP.2.2 p).2.2.trans ((hfl.2.2 p).2.2.trans (m3 p).2)

set_option synthInstance.maxSize 2000 in
/-- **C15** (R1, idempotence of the pipeline).  The claim fails on the code: the passes run
once each, in a fixed order, and a later pass can enable an earlier one.  On the bytecode of
`y = z = a + b; if a: return y; return b` the first run of `optimize` leaves the entry
block as `r7 = b + a; y = r7; POP_JUMP_IF_FALSE a`: `StoreElim` saw two uses of `r7` (the
stores to `y` and `z`) and kept both stores, then `DeadCodeElim` removed the store to the
unused `z`.  The second run finds one use of `r7`, so `StoreElim` makes the addition write
`y` and drops the store: the block is `y = b + a; POP_JUMP_IF_FALSE a`, one op and one
register fewer, and the lowered buffer shrinks from 108 to 92 bytes. -/
theorem optimize_twice_changes_ops :
    (optimizeFrom sampleConfig sampleStack chainAssignCode 1 4).map
        (Except.map (fun s => (s.bbs, s.listing 0,
          (lower_register_code sampleLayout s).map (fun r => r.2.size)))) =
      some (.ok ([0, 8, 10],
        ([(BINARY_ADD, [2, 1, 7]), (STORE_FAST, [7, 3]), (POP_JUMP_IF_FALSE, [1])],
          [some 8, some 10]), .ok 108)) ∧
    (optimizeAgain sampleConfig (optimizeFrom sampleConfig sampleStack chainAssignCode 1 4)).map
        (Except.map (fun s => (s.bbs, s.listing 0,
          (lower_register_code sampleLayout s).map (fun r => r.2.size)))) =
      some (.ok ([0, 8, 10],
        ([(BINARY_ADD, [2, 1, 3]), (POP_JUMP_IF_FALSE, [1])], [some 8, some 10]), .ok 92)) := by
  constructor
  · decide!
  · decide!

/-- **C15**, amended: the second run keeps the flow graph.  Let `registerize(state, stack,
0)` return a block on a state with no blocks, let `optimize` return on what it leaves, and
let a second call of `optimize` return on the result.  Then the second call leaves `bbs`
as the first call left it, and every block with the exits and the `dead` flag it had: the
second run fuses no block and removes none.  (The ops of a block and their registers can
change.) -/
theorem optimize_twice_keeps_flow (cfg : Config) (stack : RegisterStack)
    (code : List (Fin 256)) (nc nl : Nat) (s1 s2 : CompilerState)
    (h1 : optimizeFrom cfg stack code nc nl = some (.ok s1))
    (h2 : optimize cfg s1 = some (.ok s2)) :
    s2.bbs = s1.bbs ∧
    ∀ p, (s2.deref p).exits = (s1.deref p).exits ∧ (s2.deref p).dead = (s1.deref p).dead := by
  unfold optimizeFrom at h1
  split at h1
  · rename_i r st stack1 hreg
    obtain ⟨hD, hA, hE⟩ := optimize_first cfg st s1
      (registerize_fresh cfg code nc nl stack _ st stack1 hreg) h1
    exact optimize_second cfg s1 s2 hD hA hE h2
  · cases h1

set_option synthInstance.maxSize 2000 in
theorem optimize_twice_keeps_flow_witness :
    optimizeFrom sampleConfig sampleStack chainAssignCode 1 4 =
      some (.ok (leftBy (optimizeFrom sampleConfig sampleStack chainAssignCode 1 4))) ∧
    optimize sampleConfig (leftBy (optimizeFrom sampleConfig sampleStack chainAssignCode 1 4)) =
      some (.ok (leftBy (optimize sampleConfig
        (leftBy (optimizeFrom sampleConfig sampleStack chainAssignCode 1 4))))) ∧
    (leftBy (optimizeFrom sampleConfig sampleStack chainAssignCode 1 4)).bbs = [0, 8, 10] ∧
    (leftBy (optimize sampleConfig
        (leftBy (optimizeFrom sampleConfig sampleStack chainAssignCode 1 4)))).bbs =
      (leftBy (optimizeFrom sampleConfig sampleStack chainAssignCode 1 4)).bbs ∧
    ∀ p, ((leftBy (optimize sampleConfig
          (leftBy (optimizeFrom sampleConfig sampleStack chainAssignCode 1 4)))).deref p).exits =
        ((leftBy (optimizeFrom sampleConfig sampleStack chainAssignCode 1 4)).deref p).exits ∧
      ((leftBy (optimize sampleConfig
          (leftBy (optimizeFrom sampleConfig sampleStack chainAssignCode 1 4)))).deref p).dead =
        ((leftBy (optimizeFrom sampleConfig sampleStack chainAssignCode 1 4)).deref p).dead :=
  ⟨by decide!, by decide!, by decide!,
    optimize_twice_keeps_flow sampleConfig sampleStack chainAssignCode 1 4
      (leftBy (optimizeFrom sampleConfig sampleStack chainAssignCode 1 4))
      (leftBy (optimize sampleConfig
        (leftBy (optimizeFrom sampleConfig sampleStack chainAssignCode 1 4))))
      (by decide!) (by decide!)⟩

end Falcon
